import Mathlib

/-!
MiniOS: keyboard driver (src/keyboard.c), console, timer and IRQ dispatch
(src/kernel.c, src/idt.c)

Shallow embedding of the keyboard decoder and its input ring buffer, of the
VGA text console, and of the interrupt handlers that feed them.

Conventions of the embedding
* `char` is the signed 8-bit type of the i386 target; a `char` value is an
  `Int`. A table entry (`unsigned char`, a `Nat` below 256) assigned to a
  `char` goes through `to_char`, the two's-complement reinterpretation.
* `buffer_start` and `buffer_end` are `int` in the source. They start at 0 and
  are only ever assigned 0 or a value `(x + 1) % 256` with `x` non-negative, so
  they are embedded as `Nat`; theorems about "any head/tail position" take the
  range `< 256` as a hypothesis.
* The four modifier variables are `unsigned char` in the source, assigned only
  `0`, `1` or `!x` and read only for truth; they are embedded as `Bool`.
* `keyboard_buffer` is the 256-cell array, embedded as a function from the cell
  index to the stored `char`.
* `unsigned int` variables (cursor, prompt anchor, tick counter) are `Nat`;
  every increment and every computed cell index is reduced modulo 2^32 by
  `u32`. VGA cells are `unsigned short` values, reduced modulo 65536 when
  computed.
* Port I/O is recorded: `outb` and `inb` append to `port_log`, and the byte an
  `inb` returns is given by a `Hardware` function of the accesses made so far.
* Array memory (VGA text memory, process table, command buffer) is a function
  of the index. Code that may read through a null pointer or outside an array
  returns `Option`.
-/

namespace MiniOS

/-- The macro KEYBOARD_BUFFER_SIZE of keyboard.c. -/
def KEYBOARD_BUFFER_SIZE : Nat := 256

/-- The file-scope variables of keyboard.c. -/
structure Keyboard where
  shift_pressed : Bool
  ctrl_pressed : Bool
  alt_pressed : Bool
  caps_lock : Bool
  keyboard_buffer : Nat → Int
  buffer_start : Nat
  buffer_end : Nat

/-- The table scancode_to_ascii of keyboard.c (lines 28-59), as bytes. Entries
90..127 have no initialiser and are zero. The five non-ASCII constants (indices
26, 27, 39, 40, 41) are two-byte UTF-8 sequences in the source; stored in an
unsigned char they keep the low byte (161, 145, 141, 135, 190). -/
def scancode_to_ascii : List Nat :=
  [0, 27, 49, 50, 51, 52, 53, 54, 55, 56,
   57, 48, 39, 61, 8,
   9,
   113, 119, 101, 114, 116, 122, 117, 105, 111, 112,
   161, 145, 10,
   0,
   97, 115, 100, 102, 103, 104, 106, 107, 108, 141,
   135, 190,
   0,
   92, 121, 120, 99, 118, 98, 110, 109, 44, 46,
   45,
   0,
   42,
   0,
   32,
   0,
   0, 0, 0, 0, 0, 0, 0, 0, 0, 0,
   0,
   0,
   0, 0, 0,
   45,
   0, 0, 0,
   43,
   0, 0, 0,
   0,
   0,
   0, 0, 0,
   0,
   0,
   0] ++ List.replicate 38 0

/-- The table scancode_to_ascii_shift of keyboard.c (lines 62-93), as bytes.
Entries 90..127 are zero; the five non-ASCII constants keep the low byte
(160, 144, 140, 134, 189). -/
def scancode_to_ascii_shift : List Nat :=
  [0, 27, 33, 34, 35, 36, 37, 38, 47, 40,
   41, 61, 63, 42, 8,
   9,
   81, 87, 69, 82, 84, 90, 85, 73, 79, 80,
   160, 144, 10,
   0,
   65, 83, 68, 70, 71, 72, 74, 75, 76, 140,
   134, 189,
   0,
   62, 89, 88, 67, 86, 66, 78, 77, 59, 58,
   95,
   0,
   42,
   0,
   32,
   0,
   0, 0, 0, 0, 0, 0, 0, 0, 0, 0,
   0,
   0,
   55, 56, 57,
   45,
   52, 53, 54,
   43,
   49, 50, 51,
   48,
   46,
   0, 0, 0,
   0,
   0,
   0] ++ List.replicate 38 0

/-- Conversion of an unsigned char value to the signed char of the target:
values from 128 up wrap to the negative range. -/
def to_char (b : Nat) : Int :=
  if b < 128 then (b : Int) else (b : Int) - 256

/-- The function add_to_buffer of keyboard.c (lines 96-102). -/
def add_to_buffer (k : Keyboard) (c : Int) : Keyboard :=
  let next_end := (k.buffer_end + 1) % KEYBOARD_BUFFER_SIZE
  if next_end ≠ k.buffer_start then
    { k with
      keyboard_buffer := Function.update k.keyboard_buffer k.buffer_end c
      buffer_end := next_end }
  else k

/-- The function keyboard_getchar of keyboard.c (lines 105-113): the returned
character and the state it leaves. -/
def keyboard_getchar (k : Keyboard) : Int × Keyboard :=
  if k.buffer_start = k.buffer_end then (0, k)
  else
    let c := k.keyboard_buffer k.buffer_start
    (c, { k with buffer_start := (k.buffer_start + 1) % KEYBOARD_BUFFER_SIZE })

/-- The function keyboard_has_char of keyboard.c (lines 116-118): the returned
int and the state it leaves. -/
def keyboard_has_char (k : Keyboard) : Int × Keyboard :=
  (if k.buffer_start ≠ k.buffer_end then 1 else 0, k)

/-- Lines 160-165 of process_scancode: the local `ascii` after the table
lookup. The scancode indexes a 128-entry table. -/
def convert_scancode (k : Keyboard) (scancode : Nat) : Int :=
  if k.shift_pressed then to_char (scancode_to_ascii_shift.getD scancode 0)
  else to_char (scancode_to_ascii.getD scancode 0)

/-- Lines 167-172 of process_scancode: the caps-lock step on `ascii`
('a' = 97, 'z' = 122, 'A' = 65, 'Z' = 90). -/
def handle_caps_lock (k : Keyboard) (ascii : Int) : Int :=
  if k.caps_lock ∧ 97 ≤ ascii ∧ ascii ≤ 122 ∧ ¬ k.shift_pressed then ascii - 32
  else if k.caps_lock ∧ 65 ≤ ascii ∧ ascii ≤ 90 ∧ k.shift_pressed then ascii + 32
  else ascii

/-- Lines 174-177 of process_scancode: the control step on `ascii`. -/
def handle_ctrl (k : Keyboard) (ascii : Int) : Int :=
  if k.ctrl_pressed ∧ 97 ≤ ascii ∧ ascii ≤ 122 then ascii - 96 else ascii

/-- Lines 159-177 of process_scancode: the value of the local `ascii` when the
function reaches its last statement. -/
def decode (k : Keyboard) (scancode : Nat) : Int :=
  handle_ctrl k (handle_caps_lock k (convert_scancode k scancode))

/-- The function process_scancode of keyboard.c (lines 121-183). The scancode
is an unsigned char. -/
def process_scancode (k : Keyboard) (scancode : Nat) : Keyboard :=
  if scancode &&& 0x80 ≠ 0 then
    let scancode := scancode &&& 0x7F
    if scancode = 0x2A ∨ scancode = 0x36 then { k with shift_pressed := false }
    else if scancode = 0x1D then { k with ctrl_pressed := false }
    else if scancode = 0x38 then { k with alt_pressed := false }
    else k
  else if scancode = 0x2A ∨ scancode = 0x36 then { k with shift_pressed := true }
  else if scancode = 0x1D then { k with ctrl_pressed := true }
  else if scancode = 0x38 then { k with alt_pressed := true }
  else if scancode = 0x3A then { k with caps_lock := !k.caps_lock }
  else
    let ascii := decode k scancode
    if ascii ≠ 0 then add_to_buffer k ascii else k

/-! ## Observers used to state the ring-buffer claims -/

/-- Number of characters the ring holds: the distance from head to tail,
going round the 256 cells. -/
def held (k : Keyboard) : Nat :=
  (k.buffer_end + KEYBOARD_BUFFER_SIZE - k.buffer_start) % KEYBOARD_BUFFER_SIZE

/-- The characters the ring holds, oldest first: the cells from head up to
(not including) tail, going round the 256 cells. -/
def buffered (k : Keyboard) : List Int :=
  (List.range (held k)).map
    (fun i => k.keyboard_buffer ((k.buffer_start + i) % KEYBOARD_BUFFER_SIZE))

/-- Calls add_to_buffer on each character of the list, in order. -/
def push_all (k : Keyboard) (cs : List Int) : Keyboard :=
  cs.foldl add_to_buffer k

/-- Calls keyboard_getchar n times; the characters returned, in order, and the
final state. -/
def pop_n : Nat → Keyboard → List Int × Keyboard
  | 0, k => ([], k)
  | n + 1, k =>
    let r := keyboard_getchar k
    let rest := pop_n n r.2
    (r.1 :: rest.1, rest.2)

/-- A ring whose head is at cell 254 and tail at cell 1, holding 'x', 'y', 'z'
across the wrap at index 255. -/
def wrapped_ring : Keyboard :=
  { shift_pressed := false, ctrl_pressed := false, alt_pressed := false, caps_lock := false
    keyboard_buffer := fun i => if i = 254 then 120 else if i = 255 then 121 else
      if i = 0 then 122 else 0
    buffer_start := 254
    buffer_end := 1 }

/-- An empty ring whose head and tail are both at cell 200. -/
def empty_ring : Keyboard :=
  { shift_pressed := false, ctrl_pressed := false, alt_pressed := false, caps_lock := false
    keyboard_buffer := fun _ => 0
    buffer_start := 200
    buffer_end := 200 }

/-- A full ring: the tail at cell 9 is one step behind the head at cell 10. -/
def full_ring : Keyboard :=
  { shift_pressed := false, ctrl_pressed := false, alt_pressed := false, caps_lock := false
    keyboard_buffer := fun i => (i : Int) % 7 + 1
    buffer_start := 10
    buffer_end := 9 }

/-- The state with an empty ring at cell 0 and the four modifier variables as
given. -/
def with_modifiers (shift ctrl alt caps : Bool) : Keyboard :=
  { shift_pressed := shift, ctrl_pressed := ctrl, alt_pressed := alt, caps_lock := caps
    keyboard_buffer := fun _ => 0
    buffer_start := 0
    buffer_end := 0 }

/-! ## Console, timer, scheduler and IRQ dispatch (src/kernel.c, src/idt.c) -/

/-- The macro VGA_WIDTH of kernel.c. -/
def VGA_WIDTH : Nat := 80

/-- The macro VGA_HEIGHT of kernel.c. -/
def VGA_HEIGHT : Nat := 25

/-- The macro WHITE_ON_BLACK of kernel.c. -/
def WHITE_ON_BLACK : Nat := 0x07

/-- The macro VGA_CTRL_REGISTER of kernel.c. -/
def VGA_CTRL_REGISTER : Nat := 0x3D4

/-- The macro VGA_DATA_REGISTER of kernel.c. -/
def VGA_DATA_REGISTER : Nat := 0x3D5

/-- The macro MAX_PROCESSES of kernel.c. -/
def MAX_PROCESSES : Nat := 8

/-- The macro PROCESS_READY of kernel.c. -/
def PROCESS_READY : Nat := 0

/-- The macro PROCESS_RUNNING of kernel.c. -/
def PROCESS_RUNNING : Nat := 1

/-- The macro PROCESS_ZOMBIE of kernel.c. -/
def PROCESS_ZOMBIE : Nat := 3

/-- The macro CMD_BUFFER_SIZE of kernel.c. -/
def CMD_BUFFER_SIZE : Nat := 256

/-- Reduction of a value to the 32-bit `unsigned int` range. -/
def u32 (n : Nat) : Nat := n % 4294967296

/-- The 32-bit pattern of a `char` after promotion to `int` (sign extension). -/
def int_bits (c : Int) : Nat := (c % 4294967296).toNat

/-- Conversion of an `unsigned int` to `int` (two's complement). -/
def to_int (n : Nat) : Int :=
  if n % 4294967296 < 2147483648 then ((n % 4294967296 : Nat) : Int)
  else ((n % 4294967296 : Nat) : Int) - 4294967296

/-- One access to the I/O address space: a byte written by `outb` or a byte
returned by `inb`. -/
inductive PortEvent where
  | outb (port val : Nat)
  | inb (port val : Nat)
  deriving DecidableEq

/-- The devices behind the I/O ports: the byte a read of the given port
returns, given the port accesses made so far. -/
abbrev Hardware := List PortEvent → Nat → Nat

/-- The struct pcb of kernel.c. -/
structure Pcb where
  pid : Nat
  state : Nat
  name : Nat → Int

/-- The struct registers of idt.h. -/
structure Registers where
  ds : Nat
  edi : Nat
  esi : Nat
  ebp : Nat
  esp : Nat
  ebx : Nat
  edx : Nat
  ecx : Nat
  eax : Nat
  int_no : Nat
  err_code : Nat
  eip : Nat
  cs : Nat
  eflags : Nat
  useresp : Nat
  ss : Nat

/-- The file-scope variables of kernel.c, the VGA text memory at 0xB8000 (by
cell index), the variables of keyboard.c, and the record of the port accesses
made so far, oldest first. `current_process` is `none` for the null pointer and
`some i` for `&process_table[i]`. -/
structure Kernel where
  cursor_x : Nat
  cursor_y : Nat
  prompt_x : Nat
  prompt_y : Nat
  vga_buffer : Nat → Nat
  process_table : Nat → Pcb
  next_pid : Int
  current_process : Option Nat
  timer_ticks : Nat
  command_buffer : Nat → Int
  cmd_index : Nat
  keyboard : Keyboard
  port_log : List PortEvent

/-- The function outb of idt.h: the port is an unsigned short, the value an
unsigned char. -/
def outb (k : Kernel) (port val : Nat) : Kernel :=
  { k with port_log := k.port_log ++ [PortEvent.outb (port % 65536) (val % 256)] }

/-- The function inb of idt.h: the byte read and the state with the access
recorded. -/
def inb (hw : Hardware) (k : Kernel) (port : Nat) : Nat × Kernel :=
  let ret := hw k.port_log (port % 65536) % 256
  (ret, { k with port_log := k.port_log ++ [PortEvent.inb (port % 65536) ret] })

/-- The function update_cursor of kernel.c (lines 202-212). `position` is an
unsigned short. -/
def update_cursor (k : Kernel) : Kernel :=
  let position := u32 (k.cursor_y * VGA_WIDTH + k.cursor_x) % 65536
  let k := outb k VGA_CTRL_REGISTER 14
  let k := outb k VGA_DATA_REGISTER (position >>> 8)
  let k := outb k VGA_CTRL_REGISTER 15
  outb k VGA_DATA_REGISTER (position &&& 0xFF)

/-- The function scroll_screen of kernel.c (lines 227-241): the two nested
loops copying each row from the one below, then the loop blanking the last
row. Cells are unsigned short. -/
def scroll_screen (k : Kernel) : Kernel :=
  let moved := (List.range (VGA_HEIGHT - 1)).foldl
    (fun buf y => (List.range VGA_WIDTH).foldl
      (fun buf x =>
        Function.update buf (y * VGA_WIDTH + x) (buf ((y + 1) * VGA_WIDTH + x)))
      buf)
    k.vga_buffer
  let cleared := (List.range VGA_WIDTH).foldl
    (fun buf x =>
      Function.update buf ((VGA_HEIGHT - 1) * VGA_WIDTH + x)
        (((WHITE_ON_BLACK <<< 8) ||| 32) % 65536))
    moved
  { k with vga_buffer := cleared }

/-- The function putchar of kernel.c (lines 244-294); '\n' is 10, '\b' is 8,
' ' is 32. The cursor variables are unsigned int. -/
def putchar (k : Kernel) (c : Int) : Kernel :=
  if c = 10 then
    let k := { k with cursor_x := 0 }
    let k := { k with cursor_y := u32 (k.cursor_y + 1) }
    let k :=
      if k.cursor_y ≥ VGA_HEIGHT then
        let k := { k with cursor_y := VGA_HEIGHT - 1 }
        let k := scroll_screen k
        if k.prompt_y > 0 then { k with prompt_y := k.prompt_y - 1 } else k
      else k
    update_cursor k
  else if c = 8 then
    let k :=
      if k.cursor_x > 0 then { k with cursor_x := k.cursor_x - 1 }
      else if k.cursor_y > 0 then
        { k with cursor_y := k.cursor_y - 1, cursor_x := VGA_WIDTH - 1 }
      else k
    let index := u32 (k.cursor_y * VGA_WIDTH + k.cursor_x)
    let k := { k with
      vga_buffer := Function.update k.vga_buffer index
        (((WHITE_ON_BLACK <<< 8) ||| 32) % 65536) }
    update_cursor k
  else
    let k :=
      if k.cursor_x ≥ VGA_WIDTH then
        let k := { k with cursor_x := 0 }
        let k := { k with cursor_y := u32 (k.cursor_y + 1) }
        if k.cursor_y ≥ VGA_HEIGHT then
          let k := { k with cursor_y := VGA_HEIGHT - 1 }
          let k := scroll_screen k
          if k.prompt_y > 0 then { k with prompt_y := k.prompt_y - 1 } else k
        else k
      else k
    let index := u32 (k.cursor_y * VGA_WIDTH + k.cursor_x)
    let k := { k with
      vga_buffer := Function.update k.vga_buffer index
        (((WHITE_ON_BLACK <<< 8) ||| int_bits c) % 65536) }
    let k := { k with cursor_x := u32 (k.cursor_x + 1) }
    update_cursor k

/-- The function print of kernel.c (lines 297-302): the string is given by its
characters; printing stops at the first NUL. -/
def print (k : Kernel) (str : List Int) : Kernel :=
  (str.takeWhile (fun c => decide (c ≠ 0))).foldl putchar k

/-- The function clear_screen of kernel.c (lines 305-313). -/
def clear_screen (k : Kernel) : Kernel :=
  let buf := (List.range (VGA_WIDTH * VGA_HEIGHT)).foldl
    (fun buf i => Function.update buf i (((WHITE_ON_BLACK <<< 8) ||| 32) % 65536))
    k.vga_buffer
  let k := { k with vga_buffer := buf }
  let k := { k with cursor_x := 0 }
  let k := { k with cursor_y := 0 }
  update_cursor k

/-- The function schedule of kernel.c (lines 119-151). `next_slot` is `none`
for -1. The result is `none` when the source reads through the null
`current_process` or indexes process_table outside 0..7. -/
def schedule (k : Kernel) : Option Kernel :=
  match k.current_process with
  | none => none
  | some cur =>
    let current_pid : Int := to_int (k.process_table cur).pid
    if current_pid < -1 then none
    else
      let next_slot : Option Nat := (List.range MAX_PROCESSES).find?
        (fun (i : Nat) => decide (current_pid + 1 ≤ (i : Int)) &&
          decide ((k.process_table i).state = PROCESS_READY))
      let wrapped : Option (Option Nat) :=
        match next_slot with
        | some i => some (some i)
        | none =>
          match (List.range MAX_PROCESSES).find?
            (fun (i : Nat) => decide ((i : Int) ≤ current_pid) &&
              (decide ((k.process_table i).state = PROCESS_READY) ||
                decide ((k.process_table i).state = PROCESS_RUNNING))) with
          | some i => some (some i)
          | none => if current_pid ≥ (MAX_PROCESSES : Int) then none else some none
      match wrapped with
      | none => none
      | some none => some k
      | some (some next) =>
        if (next : Int) ≠ current_pid then
          let table :=
            if (k.process_table cur).state = PROCESS_RUNNING then
              Function.update k.process_table cur
                { k.process_table cur with state := PROCESS_READY }
            else k.process_table
          let table := Function.update table next { table next with state := PROCESS_RUNNING }
          some { k with process_table := table, current_process := some next }
        else some k

/-- The function timer_handler of kernel.c (lines 157-164). -/
def timer_handler (k : Kernel) : Option Kernel :=
  let k := { k with timer_ticks := u32 (k.timer_ticks + 1) }
  if k.timer_ticks % 30 = 0 then schedule k else some k

/-- The function keyboard_handler of keyboard.c (lines 186-192);
KEYBOARD_DATA_PORT is 0x60. -/
def keyboard_handler (hw : Hardware) (k : Kernel) : Kernel :=
  let r := inb hw k 0x60
  { r.2 with keyboard := process_scancode r.2.keyboard r.1 }

/-- The function irq_handler of idt.c (lines 248-269). -/
def irq_handler (hw : Hardware) (k : Kernel) (regs : Registers) : Option Kernel :=
  let k := if regs.int_no ≥ 40 then outb k 0xA0 0x20 else k
  let k := outb k 0x20 0x20
  if regs.int_no = 32 then timer_handler k
  else if regs.int_no = 33 then some (keyboard_handler hw k)
  else some k

/-- The flush loop of keyboard_init (lines 207-209), with a bound on the number
of status reads; KEYBOARD_STATUS_PORT is 0x64. The result is `none` when the
bound is reached with the status bit still set. -/
def flush_keyboard (hw : Hardware) : Nat → Kernel → Option Kernel
  | 0, _ => none
  | fuel + 1, k =>
    let status := inb hw k 0x64
    if status.1 &&& 1 ≠ 0 then flush_keyboard hw fuel (inb hw status.2 0x60).2
    else some status.2

/-- The characters of a string literal, as C chars. -/
def c_string (s : String) : List Int :=
  s.toList.map (fun ch => to_char ch.toNat)

/-- The function keyboard_init of keyboard.c (lines 195-212). -/
def keyboard_init (hw : Hardware) (fuel : Nat) (k : Kernel) : Option Kernel :=
  let k := { k with keyboard := { k.keyboard with buffer_start := 0 } }
  let k := { k with keyboard := { k.keyboard with buffer_end := 0 } }
  let k := { k with keyboard := { k.keyboard with shift_pressed := false } }
  let k := { k with keyboard := { k.keyboard with ctrl_pressed := false } }
  let k := { k with keyboard := { k.keyboard with alt_pressed := false } }
  let k := { k with keyboard := { k.keyboard with caps_lock := false } }
  match flush_keyboard hw fuel k with
  | none => none
  | some k => some (print k (c_string "Keyboard driver initialized\n"))

/-- The body of the input loop of run_shell (kernel.c lines 574-589) for the
character `c` returned by keyboard_getchar. The flag is true when the loop is
left (`break`), after which the source runs process_command(command_buffer). -/
def shell_input_char (k : Kernel) (c : Int) : Kernel × Bool :=
  if c = 10 then
    let k := { k with command_buffer := Function.update k.command_buffer k.cmd_index 0 }
    (putchar k 10, true)
  else if c = 8 ∧ k.cmd_index > 0 then
    if k.cursor_y > k.prompt_y ∨ (k.cursor_y = k.prompt_y ∧ k.cursor_x > k.prompt_x) then
      let k := { k with cmd_index := k.cmd_index - 1 }
      (putchar k 8, false)
    else (k, false)
  else if c ≥ 32 ∧ k.cmd_index < CMD_BUFFER_SIZE - 1 then
    let k := { k with command_buffer := Function.update k.command_buffer k.cmd_index c }
    let k := { k with cmd_index := k.cmd_index + 1 }
    (putchar k c, false)
  else (k, false)

/-- The four port writes that send the linear cursor offset `pos` to the
display controller: register 14 with the high byte, register 15 with the low
byte. -/
def cursor_writes (pos : Nat) : List PortEvent :=
  [PortEvent.outb 0x3D4 14, PortEvent.outb 0x3D5 (pos / 256),
   PortEvent.outb 0x3D4 15, PortEvent.outb 0x3D5 (pos % 256)]

/-- The end-of-interrupt writes for a vector: 0x20 to the slave command port
0xA0 first when the vector is 40 or more, then 0x20 to the master command port
0x20. -/
def eoi_writes (int_no : Nat) : List PortEvent :=
  if int_no ≥ 40 then [PortEvent.outb 0xA0 0x20, PortEvent.outb 0x20 0x20]
  else [PortEvent.outb 0x20 0x20]

/-- Whether a port access is a read (`inb`). -/
def is_read : PortEvent → Bool
  | PortEvent.inb _ _ => true
  | PortEvent.outb _ _ => false

/-- The cell value putchar stores for the character `c` (kernel.c line 291). -/
def char_cell (c : Int) : Nat :=
  ((WHITE_ON_BLACK <<< 8) ||| int_bits c) % 65536

/-! ## States used as concrete inputs -/

/-- A shell state with three characters typed but the cursor on the prompt
anchor (column 1 of row 5). -/
def at_prompt_kernel : Kernel :=
  { cursor_x := 1
    cursor_y := 5
    prompt_x := 1
    prompt_y := 5
    vga_buffer := fun _ => 0x0720
    process_table := fun _ => { pid := 0, state := 0, name := fun _ => 0 }
    next_pid := 1
    current_process := none
    timer_ticks := 0
    command_buffer := fun _ => 97
    cmd_index := 3
    keyboard := with_modifiers false false false false
    port_log := [] }


/-- A screen whose cell i holds the value i, with the cursor past the end of
the last row and the prompt anchor on row 5. -/
def last_row_kernel : Kernel :=
  { cursor_x := 80
    cursor_y := 24
    prompt_x := 1
    prompt_y := 5
    vga_buffer := fun i => i
    process_table := fun _ => { pid := 0, state := 0, name := fun _ => 0 }
    next_pid := 1
    current_process := none
    timer_ticks := 0
    command_buffer := fun _ => 0
    cmd_index := 0
    keyboard := with_modifiers false false false false
    port_log := [] }


/-- The values the variables have when the kernel image is loaded: the static
initialisers of kernel.c and keyboard.c, a blank screen and no port access. -/
def boot_kernel : Kernel :=
  { cursor_x := 0
    cursor_y := 2
    prompt_x := 0
    prompt_y := 0
    vga_buffer := fun _ => 0x0720
    process_table := fun _ => { pid := 0, state := 0, name := fun _ => 0 }
    next_pid := 1
    current_process := none
    timer_ticks := 0
    command_buffer := fun _ => 0
    cmd_index := 0
    keyboard := with_modifiers false false false false
    port_log := [] }

/-- A keyboard controller with nothing pending: every port read returns 0. -/
def idle_hardware : Hardware := fun _ _ => 0

/-- An interrupt frame with the given vector and every other field 0. -/
def frame (int_no : Nat) : Registers :=
  { ds := 0, edi := 0, esi := 0, ebp := 0, esp := 0, ebx := 0, edx := 0, ecx := 0, eax := 0
    int_no := int_no, err_code := 0
    eip := 0, cs := 0, eflags := 0, useresp := 0, ss := 0 }

/-! ## Gate table and PIC remap (src/idt.c) -/

/-- The struct idt_entry of idt.h (packed, 8 bytes). -/
structure IdtEntry where
  base_lo : Nat
  sel : Nat
  always0 : Nat
  flags : Nat
  base_hi : Nat
  deriving DecidableEq

/-- The variables `idt` and `idtp` of idt.c, and the descriptor last committed
to the processor by idt_load (`none` before the first load). -/
structure Idt where
  idt : Nat → IdtEntry
  idtp_limit : Nat
  idtp_base : Nat
  idtr : Option (Nat × Nat)

/-- The function idt_set_gate of idt.c (lines 75-81). `num` is an unsigned
char, `base` an unsigned int, `sel` an unsigned short, `flags` an unsigned
char. -/
def idt_set_gate (t : Idt) (num base sel flags : Nat) : Idt :=
  let entry : IdtEntry :=
    { base_lo := base &&& 0xFFFF
      base_hi := (base >>> 16) &&& 0xFFFF
      sel := sel
      always0 := 0
      flags := flags }
  { t with idt := Function.update t.idt num entry }

/-- The function remap_pic of idt.c (lines 84-111). -/
def remap_pic (hw : Hardware) (k : Kernel) : Kernel :=
  let a1 := inb hw k 0x21
  let a2 := inb hw a1.2 0xA1
  let k := a2.2
  let k := outb k 0x20 0x11
  let k := outb k 0xA0 0x11
  let k := outb k 0x21 0x20
  let k := outb k 0xA1 0x28
  let k := outb k 0x21 0x04
  let k := outb k 0xA1 0x02
  let k := outb k 0x21 0x01
  let k := outb k 0xA1 0x01
  let k := outb k 0x21 a1.1
  outb k 0xA1 a2.1

/-- Modelled from the spec: idt_load, the table-load primitive written in
assembly outside src/. It commits to the processor the descriptor (limit and
base) found in `idtp`, to which its argument points. -/
def idt_load (t : Idt) : Idt :=
  { t with idtr := some (t.idtp_limit, t.idtp_base) }

/-- The function idt_init of idt.c (lines 114-183). The trampolines isr0..isr31
and irq0..irq15 are assembly symbols: `isr v` and `irq i` are their addresses,
and `idt_addr` is the address of the table. sizeof(struct idt_entry) is 8; the
limit is an unsigned short. The 48 idt_set_gate calls are written out one by
one in the source. -/
def idt_init (hw : Hardware) (isr irq : Nat → Nat) (idt_addr : Nat) (t : Idt) (k : Kernel) :
    Idt × Kernel :=
  let t := { t with idtp_limit := (8 * 256 - 1) % 65536 }
  let t := { t with idtp_base := u32 idt_addr }
  let t := (List.range 256).foldl (fun t i => idt_set_gate t i 0 0 0) t
  let t := (List.range 32).foldl (fun t v => idt_set_gate t v (u32 (isr v)) 0x08 0x8E) t
  let k := remap_pic hw k
  let t := (List.range 16).foldl (fun t i => idt_set_gate t (32 + i) (u32 (irq i)) 0x08 0x8E) t
  let t := idt_load t
  (t, print k (c_string "IDT initialized\n"))

/-- The table exception_messages of idt.c (lines 186-219). -/
def exception_messages : List String :=
  ["Division By Zero",
   "Debug",
   "Non Maskable Interrupt",
   "Breakpoint",
   "Into Detected Overflow",
   "Out of Bounds",
   "Invalid Opcode",
   "No Coprocessor",
   "Double Fault",
   "Coprocessor Segment Overrun",
   "Bad TSS",
   "Segment Not Present",
   "Stack Fault",
   "General Protection Fault",
   "Page Fault",
   "Unknown Interrupt",
   "Coprocessor Fault",
   "Alignment Check",
   "Machine Check",
   "Reserved",
   "Reserved",
   "Reserved",
   "Reserved",
   "Reserved",
   "Reserved",
   "Reserved",
   "Reserved",
   "Reserved",
   "Reserved",
   "Reserved",
   "Reserved",
   "Reserved"]

/-- The array hex_chars of print_hex. -/
def hex_chars : List Int := c_string "0123456789ABCDEF"

/-- The function print_hex of idt.c (lines 66-72); the print_hex of kernel.c
(lines 336-342) has the same body. `n` is an unsigned int. -/
def print_hex (k : Kernel) (n : Nat) : Kernel :=
  let k := print k (c_string "0x")
  [7, 6, 5, 4, 3, 2, 1, 0].foldl
    (fun k i => putchar k (hex_chars.getD ((n >>> (i * 4)) &&& 0xF) 0)) k

/-- The function isr_handler of idt.c (lines 222-239). It never returns: the
result is the state in which it enters its halting loop. The result is `none`
when exception_messages would be indexed outside its 32 entries. -/
def isr_handler (k : Kernel) (regs : Registers) : Option Kernel :=
  if regs.int_no < 32 then
    let k := print k (c_string "Exception: ")
    let k := print k (c_string (exception_messages.getD regs.int_no ""))
    let k := print k (c_string " (")
    let k := print_hex k regs.int_no
    let k := print k (c_string ")\n")
    let k :=
      if regs.err_code ≠ 0 then
        let k := print k (c_string "Error code: ")
        let k := print_hex k regs.err_code
        print k (c_string "\n")
      else k
    some k
  else none

/-! ## Bump allocator (src/memory.c) -/

/-- The macro MEMORY_START of memory.c. -/
def MEMORY_START : Nat := 0x200000

/-- The macro MEMORY_SIZE of memory.c. -/
def MEMORY_SIZE : Nat := 0x100000

/-- The macro MEMORY_END of memory.c. -/
def MEMORY_END : Nat := MEMORY_START + MEMORY_SIZE

/-- The file-scope variables of memory.c. -/
structure Allocator where
  memory_initialized : Int
  next_free_addr : Nat
  fs_allocation_start : Nat
  fs_allocation_size : Nat
  deriving DecidableEq

/-- The function memory_init of memory.c (lines 26-31). -/
def memory_init (_a : Allocator) : Allocator :=
  { memory_initialized := 1
    next_free_addr := MEMORY_START
    fs_allocation_start := 0
    fs_allocation_size := 0 }

/-- The function malloc of memory.c (lines 34-55): the pointer returned (0 for
null) and the state it leaves. All arithmetic is on unsigned int; `~3` is
0xFFFFFFFC. -/
def malloc (a : Allocator) (size : Nat) : Nat × Allocator :=
  if a.memory_initialized = 0 then (0, a)
  else if u32 (a.next_free_addr + size) > MEMORY_END then (0, a)
  else
    let result := a.next_free_addr
    let a := { a with next_free_addr := u32 (a.next_free_addr + size) }
    let a := { a with next_free_addr := u32 (a.next_free_addr + 3) &&& 0xFFFFFFFC }
    (result, a)

/-- The function memory_register_fs of memory.c (lines 58-61). -/
def memory_register_fs (a : Allocator) (addr size : Nat) : Allocator :=
  { a with fs_allocation_start := addr, fs_allocation_size := size }

/-! ## Call sequences used to state the reachability claims -/

/-- One call of a function of keyboard.c that touches the ring. -/
inductive KeyboardCall where
  | push (c : Int)
  | scancode (sc : Nat)
  | getchar
  | has_char

/-- The keyboard state after the call. -/
def KeyboardCall.run (k : Keyboard) : KeyboardCall → Keyboard
  | KeyboardCall.push c => add_to_buffer k c
  | KeyboardCall.scancode sc => process_scancode k sc
  | KeyboardCall.getchar => (keyboard_getchar k).2
  | KeyboardCall.has_char => (keyboard_has_char k).2

/-- An idle interrupt controller pair whose mask registers read 0xB8 (master,
port 0x21) and 0x8E (slave, port 0xA1). -/
def masked_hardware : Hardware := fun _ port => if port = 0x21 then 0xB8 else 0x8E

/-- A gate table holding arbitrary nonzero values everywhere. -/
def dirty_idt : Idt :=
  { idt := fun i => { base_lo := i + 1, sel := 7, always0 := 9, flags := 3, base_hi := 5 }
    idtp_limit := 1
    idtp_base := 2
    idtr := none }

/-- The values the variables of memory.c have when the kernel image is
loaded (their static initialisers). -/
def boot_allocator : Allocator :=
  { memory_initialized := 0
    next_free_addr := MEMORY_START
    fs_allocation_start := 0
    fs_allocation_size := 0 }

/-! ## The exception report, as the specification words it -/

/-- The text hex(n): "0x" followed by eight hexadecimal digits, most
significant first, digit i (counted from the least significant) being
n / 16^i mod 16, written with '0'..'9' and 'A'..'F'. -/
def hex_text (n : Nat) : List Int :=
  c_string "0x" ++
    [7, 6, 5, 4, 3, 2, 1, 0].map (fun i => hex_chars.getD (n / 16 ^ i % 16) 0)

/-- The value of one hexadecimal digit character, '0'..'9' or 'A'..'F'. -/
def hex_digit_value (c : Int) : Nat :=
  if 48 ≤ c ∧ c ≤ 57 then (c - 48).toNat else (c - 55).toNat

/-- The number a string of hexadecimal digits denotes, most significant digit
first. -/
def hex_value (cs : List Int) : Nat :=
  cs.foldl (fun acc c => acc * 16 + hex_digit_value c) 0

/-- The report for vector v and error code e: "Exception: " + name(v) + " (" +
hex(v) + ")\n", followed by "Error code: " + hex(e) + "\n" when e is not 0. -/
def exception_report (v e : Nat) : List Int :=
  c_string "Exception: " ++ c_string (exception_messages.getD v "") ++ c_string " (" ++
    hex_text v ++ c_string ")\n" ++
    (if e ≠ 0 then c_string "Error code: " ++ hex_text e ++ c_string "\n" else [])

/-- The state after `n` calls of timer_handler in a row (`none` when one of
them does not return). -/
def timer_calls : Nat → Kernel → Option Kernel
  | 0, k => some k
  | n + 1, k => (timer_calls n k).bind timer_handler

/-- A kernel with two processes and a tick counter of 0: the kernel process in
slot 0 (pid 0, running, current) and one created process in slot 1 (pid 1,
ready); the other six slots are free. -/
def two_process_kernel : Kernel :=
  { boot_kernel with
    process_table := fun i =>
      if i = 0 then { pid := 0, state := PROCESS_RUNNING, name := fun _ => 0 }
      else if i = 1 then { pid := 1, state := PROCESS_READY, name := fun _ => 0 }
      else { pid := 0, state := PROCESS_ZOMBIE, name := fun _ => 0 }
    next_pid := 2
    current_process := some 0
    timer_ticks := 0 }

/-- The process table and current_process hold two processes, in slots 0 and 1
with pids 0 and 1, one of them running and current and the other ready, and no
other slot is ready or running. -/
def two_process_shape (k : Kernel) : Prop :=
  (k.process_table 0).pid = 0 ∧ (k.process_table 1).pid = 1 ∧
  (∀ i, 2 ≤ i → i < 8 → (k.process_table i).state = PROCESS_ZOMBIE) ∧
  ((k.current_process = some 0 ∧ (k.process_table 0).state = PROCESS_RUNNING ∧
      (k.process_table 1).state = PROCESS_READY) ∨
    (k.current_process = some 1 ∧ (k.process_table 1).state = PROCESS_RUNNING ∧
      (k.process_table 0).state = PROCESS_READY))

/-! ## The consumer interrupted by the keyboard interrupt -/

/-- Where the main context stands inside a call of keyboard_has_char or
keyboard_getchar: the accesses to the shared variables it has already made, in
source order, with the values it read. -/
inductive ConsumerPc where
  /-- Not inside a call. -/
  | idle
  /-- keyboard_has_char (line 117) has read buffer_start. -/
  | has_char_start (start : Nat)
  /-- keyboard_getchar (line 106) has read buffer_start. -/
  | getchar_start (start : Nat)
  /-- keyboard_getchar (line 106) has read buffer_end and found it different. -/
  | getchar_nonempty
  /-- keyboard_getchar (line 110) has read buffer_start, the index. -/
  | getchar_index (start : Nat)
  /-- keyboard_getchar (line 110) has read keyboard_buffer at the index. -/
  | getchar_char (c : Int)
  /-- keyboard_getchar (line 111) has read buffer_start. -/
  | getchar_next (c : Int) (start : Nat)

/-- The variables of keyboard.c shared by the two contexts, the position of the
main context, and two records kept for the statement only: the characters the
producer has stored in the ring so far, oldest first, and the characters
keyboard_getchar has returned from a non-empty ring so far, oldest first. -/
structure Interleaving where
  keyboard : Keyboard
  pc : ConsumerPc
  accepted : List Int
  obtained : List Int

/-- One step of the interleaved execution. -/
inductive Event where
  /-- The keyboard interrupt fires: one whole process_scancode. -/
  | interrupt (scancode : Nat)
  /-- One whole add_to_buffer. -/
  | push (c : Int)
  /-- The main context calls keyboard_has_char and makes its first access. -/
  | call_has_char
  /-- The main context calls keyboard_getchar and makes its first access. -/
  | call_getchar
  /-- The main context makes the next access of the call it is in. -/
  | access

/-- The character a producer step stored, if it stored one: the cell at the old
buffer_end, when buffer_end has moved. -/
def stored_by (before after : Keyboard) : List Int :=
  if after.buffer_end ≠ before.buffer_end then [after.keyboard_buffer before.buffer_end]
  else []

/-- The state after one event. Producer events run whole; a consumer event
makes one access to a shared variable. A call event while inside a call, and an
access event while idle, do nothing. -/
def Interleaving.step (s : Interleaving) : Event → Interleaving
  | Event.interrupt scancode =>
    { s with
      keyboard := process_scancode s.keyboard scancode
      accepted := s.accepted ++ stored_by s.keyboard (process_scancode s.keyboard scancode) }
  | Event.push c =>
    { s with
      keyboard := add_to_buffer s.keyboard c
      accepted := s.accepted ++ stored_by s.keyboard (add_to_buffer s.keyboard c) }
  | Event.call_has_char =>
    match s.pc with
    | ConsumerPc.idle => { s with pc := ConsumerPc.has_char_start s.keyboard.buffer_start }
    | _ => s
  | Event.call_getchar =>
    match s.pc with
    | ConsumerPc.idle => { s with pc := ConsumerPc.getchar_start s.keyboard.buffer_start }
    | _ => s
  | Event.access =>
    match s.pc with
    | ConsumerPc.idle => s
    | ConsumerPc.has_char_start _ => { s with pc := ConsumerPc.idle }
    | ConsumerPc.getchar_start start =>
      if start = s.keyboard.buffer_end then { s with pc := ConsumerPc.idle }
      else { s with pc := ConsumerPc.getchar_nonempty }
    | ConsumerPc.getchar_nonempty =>
      { s with pc := ConsumerPc.getchar_index s.keyboard.buffer_start }
    | ConsumerPc.getchar_index start =>
      { s with pc := ConsumerPc.getchar_char (s.keyboard.keyboard_buffer start) }
    | ConsumerPc.getchar_char c =>
      { s with pc := ConsumerPc.getchar_next c s.keyboard.buffer_start }
    | ConsumerPc.getchar_next c start =>
      { s with
        keyboard := { s.keyboard with buffer_start := (start + 1) % KEYBOARD_BUFFER_SIZE }
        pc := ConsumerPc.idle
        obtained := s.obtained ++ [c] }

/-- What the main context knows is still true of the shared variables, inside
a call: buffer_start is the value it read, and once it has found the ring
non-empty the ring is non-empty and the character it read is the oldest one. -/
def ConsumerPc.consistent (k : Keyboard) : ConsumerPc → Prop
  | ConsumerPc.idle => True
  | ConsumerPc.has_char_start _ => True
  | ConsumerPc.getchar_start start => start = k.buffer_start
  | ConsumerPc.getchar_nonempty => k.buffer_start ≠ k.buffer_end
  | ConsumerPc.getchar_index start => start = k.buffer_start ∧ k.buffer_start ≠ k.buffer_end
  | ConsumerPc.getchar_char c =>
    c = k.keyboard_buffer k.buffer_start ∧ k.buffer_start ≠ k.buffer_end
  | ConsumerPc.getchar_next c start =>
    c = k.keyboard_buffer k.buffer_start ∧ start = k.buffer_start ∧
      k.buffer_start ≠ k.buffer_end

/-- The invariant of the interleaved execution. -/
def Interleaving.invariant (s : Interleaving) : Prop :=
  s.keyboard.buffer_start < 256 ∧ s.keyboard.buffer_end < 256 ∧
  s.accepted = s.obtained ++ buffered s.keyboard ∧
  s.pc.consistent s.keyboard

/-! ## File store model (fs.c, fs.h, and print_dec of kernel.c)

A C string argument is the list of its characters; the terminating NUL follows
the last one, so the character at an index past the list is 0. RAM is a map
from addresses to bytes. -/

/-- The digits the first loop of print_dec stores in its buffer, least
significant first. The fuel is the size of the buffer, 11: a 32-bit value has at
most 10 digits. -/
def dec_buffer : Nat → Nat → List Int
  | 0, _ => []
  | fuel + 1, n => if n > 0 then (48 + ((n % 10 : Nat) : Int)) :: dec_buffer fuel (n / 10) else []

/-- The function print_dec of kernel.c. -/
def print_dec (k : Kernel) (n : Nat) : Kernel :=
  if n = 0 then putchar k 48
  else (dec_buffer 11 n).reverse.foldl putchar k

def MAX_FILES : Nat := 16
def MAX_FILENAME_LENGTH : Nat := 12
def FILE_SIZE : Nat := 512
def FILE_FREE : Nat := 0x00
def FILE_USED : Nat := 0x01

/-- The struct file_entry of fs.h. -/
structure FileEntry where
  name : Nat → Int
  flags : Nat
  size : Nat
  data_offset : Nat

/-- The struct fs of fs.h, with the RAM its data_area pointer points into. -/
structure Fs where
  files : Nat → FileEntry
  data_area : Nat
  data_size : Nat
  initialized : Int
  memory : Nat → Nat

/-- The 12 characters of a name array, as the string str_compare and print are
handed: they stop at the first NUL. -/
def name_chars (name : Nat → Int) : List Int :=
  (List.range MAX_FILENAME_LENGTH).map name

/-- The function fs_init of fs.c (lines 18-61). -/
def fs_init (a : Allocator) (fs : Fs) (k : Kernel) : Allocator × Fs × Kernel :=
  let total_size := u32 (MAX_FILES * FILE_SIZE)
  let r := malloc a total_size
  let a := r.2
  let fs := { fs with data_area := r.1 }
  if fs.data_area = 0 then
    (a, fs, print k (c_string "Failed to allocate memory for file system!\n"))
  else
    let a := memory_register_fs a fs.data_area total_size
    let fs := { fs with data_size := total_size }
    let fs := (List.range MAX_FILES).foldl
      (fun fs i =>
        let e := fs.files i
        let e := { e with flags := FILE_FREE }
        let e := { e with size := 0 }
        let e := { e with data_offset := u32 (i * FILE_SIZE) }
        let e := { e with
          name := (List.range MAX_FILENAME_LENGTH).foldl
            (fun nm j => Function.update nm j 0) e.name }
        { fs with files := Function.update fs.files i e })
      fs
    let fs := { fs with
      memory := (List.range total_size).foldl
        (fun m i => Function.update m (u32 (fs.data_area + i)) 0) fs.memory }
    let fs := { fs with initialized := 1 }
    let k := print k (c_string "File system initialized: ")
    let k := print_dec k MAX_FILES
    let k := print k (c_string " files, ")
    let k := print_dec k FILE_SIZE
    let k := print k (c_string " bytes each (")
    let k := print_dec k total_size
    let k := print k (c_string " bytes total)\n")
    (a, fs, k)

/-- The function str_compare of fs.c (lines 64-71). The end of a list is its
terminating NUL. -/
def str_compare : List Int → List Int → Int
  | c1 :: s1, c2 :: s2 =>
    if c1 ≠ 0 ∧ c2 ≠ 0 then
      if c1 ≠ c2 then 0 else str_compare s1 s2
    else if c1 = c2 then 1 else 0
  | [], c2 :: _ => if (0 : Int) = c2 then 1 else 0
  | c1 :: _, [] => if c1 = (0 : Int) then 1 else 0
  | [], [] => 1

/-- The function str_copy of fs.c (lines 74-80): the destination array after
the call. -/
def str_copy (dest : Nat → Int) (src : List Int) (max_len : Nat) : Nat → Int :=
  let i := ((List.range (max_len - 1)).takeWhile (fun i => decide (src.getD i 0 ≠ 0))).length
  let dest := (List.range i).foldl (fun d j => Function.update d j (src.getD j 0)) dest
  Function.update dest i 0

/-- The loop that looks a name up in the directory (fs.c lines 100-107,
143-150, 188-195 and 226-233): the first used entry whose name compares
equal. -/
def find_file (fs : Fs) (name : List Int) : Option Nat :=
  (List.range MAX_FILES).find? (fun i =>
    decide ((fs.files i).flags &&& FILE_USED ≠ 0) &&
      decide (str_compare (name_chars (fs.files i).name) name ≠ 0))

/-- The function fs_create_file of fs.c (lines 83-132): the returned int and
the state it leaves. -/
def fs_create_file (fs : Fs) (k : Kernel) (name : List Int) : Int × Fs × Kernel :=
  if fs.initialized = 0 then
    (-1, fs, print k (c_string "File system not initialized!\n"))
  else
    let name_len :=
      ((List.range MAX_FILENAME_LENGTH).takeWhile (fun i => decide (name.getD i 0 ≠ 0))).length
    if name_len ≥ MAX_FILENAME_LENGTH then
      (-1, fs, print k (c_string "Filename too long!\n"))
    else if (find_file fs name).isSome then
      (-1, fs, print k (c_string "File already exists!\n"))
    else
      match (List.range MAX_FILES).find?
          (fun i => decide ((fs.files i).flags &&& FILE_USED = 0)) with
      | some i =>
        let e := fs.files i
        let e := { e with flags := FILE_USED }
        let e := { e with size := 0 }
        let e := { e with name := str_copy e.name name MAX_FILENAME_LENGTH }
        let fs := { fs with files := Function.update fs.files i e }
        let data := u32 (fs.data_area + (fs.files i).data_offset)
        let fs := { fs with
          memory := (List.range FILE_SIZE).foldl
            (fun m j => Function.update m (u32 (data + j)) 0) fs.memory }
        let k := print k (c_string "File created: ")
        let k := print k name
        let k := print k (c_string "\n")
        ((i : Int), fs, k)
      | none => (-1, fs, print k (c_string "No free file slots!\n"))

/-- The function fs_read_file of fs.c (lines 180-215): the returned int, the
caller's buffer after the call, and the screen state. -/
def fs_read_file (fs : Fs) (k : Kernel) (name : List Int) (buffer : Nat → Nat) (size : Nat) :
    Int × (Nat → Nat) × Kernel :=
  if fs.initialized = 0 then
    (-1, buffer, print k (c_string "File system not initialized!\n"))
  else
    match find_file fs name with
    | none => (-1, buffer, print k (c_string "File not found!\n"))
    | some file_index =>
      let read_size := (fs.files file_index).size
      let read_size := if read_size > size then size else read_size
      let file_data := u32 (fs.data_area + (fs.files file_index).data_offset)
      let buffer := (List.range read_size).foldl
        (fun b i => Function.update b i (fs.memory (u32 (file_data + i)))) buffer
      (to_int read_size, buffer, k)

/-- The function fs_write_file of fs.c (lines 218-264): the returned int and
the state it leaves. -/
def fs_write_file (fs : Fs) (k : Kernel) (name : List Int) (data : Nat → Nat) (size : Nat) :
    Int × Fs × Kernel :=
  if fs.initialized = 0 then
    (-1, fs, print k (c_string "File system not initialized!\n"))
  else
    match find_file fs name with
    | none => (-1, fs, print k (c_string "File not found!\n"))
    | some file_index =>
      if size > FILE_SIZE then
        let k := print k (c_string "Data too large! Max size: ")
        let k := print_dec k FILE_SIZE
        let k := print k (c_string " bytes\n")
        (-1, fs, k)
      else
        let file_data := u32 (fs.data_area + (fs.files file_index).data_offset)
        let fs := { fs with
          memory := (List.range size).foldl
            (fun m i => Function.update m (u32 (file_data + i)) (data i % 256)) fs.memory }
        let e := fs.files file_index
        let fs := { fs with files := Function.update fs.files file_index { e with size := size } }
        let k := print k (c_string "Wrote ")
        let k := print_dec k size
        let k := print k (c_string " bytes to ")
        let k := print k name
        let k := print k (c_string "\n")
        (to_int size, fs, k)

/-- The file store before fs_init: a zero-initialised static. -/
def boot_fs : Fs :=
  { files := fun _ => { name := fun _ => 0, flags := 0, size := 0, data_offset := 0 }
    data_area := 0
    data_size := 0
    initialized := 0
    memory := fun _ => 0 }

/-- The file store after memory_init and fs_init at boot. -/
def booted_fs : Fs :=
  (fs_init (memory_init boot_allocator) boot_fs boot_kernel).2.1

/-! ## Table reads and screen cell accesses -/

/-- The read of scancode_to_ascii or scancode_to_ascii_shift that
process_scancode makes (keyboard.c lines 160-165): the index it reads at, or
none when the function returns before the lookup (a release, or one of the five
modifier keys). Both tables are read at the same index. -/
def table_index (scancode : Nat) : Option Nat :=
  if scancode &&& 0x80 ≠ 0 then none
  else if scancode = 0x2A ∨ scancode = 0x36 then none
  else if scancode = 0x1D then none
  else if scancode = 0x38 then none
  else if scancode = 0x3A then none
  else some scancode

/-- The cell indices scroll_screen reads and writes (kernel.c lines 227-241),
in program order: for each row y < 24 and each column x, the read of cell
(y + 1) * 80 + x and the write of cell y * 80 + x; then the writes of the last
row. -/
def scroll_screen_accesses : List Nat :=
  (List.range (VGA_HEIGHT - 1)).flatMap
    (fun y => (List.range VGA_WIDTH).flatMap
      (fun x => [(y + 1) * VGA_WIDTH + x, y * VGA_WIDTH + x])) ++
  (List.range VGA_WIDTH).map (fun x => (VGA_HEIGHT - 1) * VGA_WIDTH + x)

/-- The cell indices one call of putchar reads and writes (kernel.c lines
244-294), in program order: those of scroll_screen when it is called, and the
index of the cell the character or the blank is stored in. -/
def putchar_accesses (k : Kernel) (c : Int) : List Nat :=
  if c = 10 then
    let k := { k with cursor_x := 0 }
    let k := { k with cursor_y := u32 (k.cursor_y + 1) }
    if k.cursor_y ≥ VGA_HEIGHT then scroll_screen_accesses else []
  else if c = 8 then
    let k :=
      if k.cursor_x > 0 then { k with cursor_x := k.cursor_x - 1 }
      else if k.cursor_y > 0 then
        { k with cursor_y := k.cursor_y - 1, cursor_x := VGA_WIDTH - 1 }
      else k
    [u32 (k.cursor_y * VGA_WIDTH + k.cursor_x)]
  else
    let r : Kernel × List Nat :=
      if k.cursor_x ≥ VGA_WIDTH then
        let k := { k with cursor_x := 0 }
        let k := { k with cursor_y := u32 (k.cursor_y + 1) }
        if k.cursor_y ≥ VGA_HEIGHT then
          ({ k with cursor_y := VGA_HEIGHT - 1 }, scroll_screen_accesses)
        else (k, [])
      else (k, [])
    r.2 ++ [u32 (r.1.cursor_y * VGA_WIDTH + r.1.cursor_x)]

/-- The cell indices clear_screen writes (kernel.c lines 305-313). -/
def clear_screen_accesses : List Nat :=
  List.range (VGA_WIDTH * VGA_HEIGHT)

/-- A screen with the cursor at row 0, column 0 and the letter 'A' in that
cell. -/
def origin_kernel : Kernel :=
  { boot_kernel with
    cursor_x := 0
    cursor_y := 0
    vga_buffer := fun i => if i = 0 then 0x0741 else 0x0720 }

/-! ## Observers used to state the file store claims -/

/-- The layout fs_init gives the store: the store is initialised, entry i owns
the 512 bytes at offset i * 512 of the data area, and the 16 * 512 bytes of the
data area lie inside the 32-bit address space. -/
def fs_layout (fs : Fs) : Prop :=
  fs.initialized ≠ 0 ∧
  (∀ i, i < 16 → (fs.files i).data_offset = i * 512) ∧
  fs.data_area + 8192 ≤ 4294967296

/-- Byte b of the data of the file in slot i: the byte at
data_area + data_offset + b. -/
def file_byte (fs : Fs) (i b : Nat) : Nat :=
  fs.memory (u32 (u32 (fs.data_area + (fs.files i).data_offset) + b))

/-- The store after boot and one fs_create_file("NOTES.TXT"). -/
def one_file_fs : Fs :=
  (fs_create_file booted_fs boot_kernel (c_string "NOTES.TXT")).2.1

/-! ## Process creation (kernel.c lines 59-116) -/

/-- The function init_processes of kernel.c (lines 59-80). -/
def init_processes (k : Kernel) : Kernel :=
  let table := (List.range MAX_PROCESSES).foldl
    (fun t i =>
      let p := t i
      let p := { p with pid := 0 }
      let p := { p with state := PROCESS_ZOMBIE }
      let p := { p with
        name := (List.range 32).foldl (fun nm j => Function.update nm j 0) p.name }
      Function.update t i p)
    k.process_table
  let p := table 0
  let p := { p with pid := 0 }
  let p := { p with state := PROCESS_RUNNING }
  let kname := c_string "kernel"
  let n := ((List.range 31).takeWhile (fun i => decide (kname.getD i 0 ≠ 0))).length
  let p := { p with
    name := (List.range n).foldl (fun nm i => Function.update nm i (kname.getD i 0)) p.name }
  let k := { k with process_table := Function.update table 0 p }
  let k := { k with current_process := some 0 }
  print k (c_string "Process manager initialized\n")

/-- The function create_process of kernel.c (lines 83-116): the returned int
and the state it leaves. The pid stored is next_pid converted to unsigned int;
next_pid is an int and its increment is taken without overflow. -/
def create_process (k : Kernel) (name : List Int) : Int × Kernel :=
  match (List.range' 1 (MAX_PROCESSES - 1)).find?
      (fun i => decide ((k.process_table i).state = PROCESS_ZOMBIE)) with
  | none => (-1, print k (c_string "No free process slots\n"))
  | some slot =>
    let p := k.process_table slot
    let p := { p with pid := int_bits k.next_pid }
    let k := { k with next_pid := k.next_pid + 1 }
    let p := { p with state := PROCESS_READY }
    let i := ((List.range 31).takeWhile (fun i => decide (name.getD i 0 ≠ 0))).length
    let p := { p with
      name := (List.range i).foldl (fun nm j => Function.update nm j (name.getD j 0)) p.name }
    let p := { p with name := Function.update p.name i 0 }
    let k := { k with process_table := Function.update k.process_table slot p }
    let k := print k (c_string "Process created: ")
    let k := print k name
    let k := print k (c_string " (PID ")
    let k := print_dec k (k.process_table slot).pid
    let k := print k (c_string ")\n")
    (to_int (k.process_table slot).pid, k)

/-- One call of create_process or schedule. -/
inductive ProcessCall where
  | create (name : List Int)
  | schedule

/-- The state after the call (none when schedule does not return). -/
def ProcessCall.run (k : Kernel) : ProcessCall → Option Kernel
  | ProcessCall.create name => some (create_process k name).2
  | ProcessCall.schedule => MiniOS.schedule k

/-- The state after a sequence of calls, in order (none when one of them does
not return). -/
def process_calls (calls : List ProcessCall) (k : Kernel) : Option Kernel :=
  calls.foldl (fun o call => o.bind (fun k => call.run k)) (some k)

/-- The shape of the process state with m created processes and slot cur
current: slots 0..m hold pids 0..m, slot cur is running and the other ones are
ready; slots m+1..7 are free; next_pid is m + 1. -/
def process_invariant (k : Kernel) (m cur : Nat) : Prop :=
  m ≤ 7 ∧ cur ≤ m ∧ k.current_process = some cur ∧ k.next_pid = (m : Int) + 1 ∧
  (∀ i, i ≤ m → (k.process_table i).pid = i ∧
    (k.process_table i).state = if i = cur then PROCESS_RUNNING else PROCESS_READY) ∧
  (∀ i, m < i → i < 8 → (k.process_table i).state = PROCESS_ZOMBIE)

/-- Slot n is the first READY slot in cyclic slot order after slot cur: it is
READY, it is not cur, and no slot met on the way from cur + 1 round to n is
READY. -/
def first_ready_after (k : Kernel) (cur n : Nat) : Prop :=
  n < 8 ∧ n ≠ cur ∧ (k.process_table n).state = PROCESS_READY ∧
  ∀ d, 1 ≤ d → d < (n + 8 - cur) % 8 →
    (k.process_table ((cur + d) % 8)).state ≠ PROCESS_READY

/-! ## Ring buffer lemmas -/

theorem held_lt (k : Keyboard) : held k < 256 := by
  unfold held KEYBOARD_BUFFER_SIZE
  omega

theorem add_to_buffer_room (k : Keyboard) (c : Int)
    (hs : k.buffer_start < 256) (he : k.buffer_end < 256) (hroom : held k < 255) :
    add_to_buffer k c =
      { k with
        keyboard_buffer := Function.update k.keyboard_buffer k.buffer_end c
        buffer_end := (k.buffer_end + 1) % 256 } := by
  unfold held KEYBOARD_BUFFER_SIZE at hroom
  have hne : (k.buffer_end + 1) % 256 ≠ k.buffer_start := by omega
  simp [add_to_buffer, KEYBOARD_BUFFER_SIZE, hne]

theorem held_add_to_buffer (k : Keyboard) (c : Int)
    (hs : k.buffer_start < 256) (he : k.buffer_end < 256) (hroom : held k < 255) :
    held (add_to_buffer k c) = held k + 1 := by
  rw [add_to_buffer_room k c hs he hroom]
  unfold held KEYBOARD_BUFFER_SIZE at *
  simp only
  omega

theorem add_to_buffer_start (k : Keyboard) (c : Int) :
    (add_to_buffer k c).buffer_start = k.buffer_start := by
  simp only [add_to_buffer]
  split <;> rfl

theorem add_to_buffer_end_lt (k : Keyboard) (c : Int) (he : k.buffer_end < 256) :
    (add_to_buffer k c).buffer_end < 256 := by
  simp only [add_to_buffer, KEYBOARD_BUFFER_SIZE]
  split
  · simp only
    omega
  · exact he

theorem buffered_add_to_buffer (k : Keyboard) (c : Int)
    (hs : k.buffer_start < 256) (he : k.buffer_end < 256) (hroom : held k < 255) :
    buffered (add_to_buffer k c) = buffered k ++ [c] := by
  unfold buffered
  rw [held_add_to_buffer k c hs he hroom, add_to_buffer_room k c hs he hroom,
    List.range_succ, List.map_append]
  unfold held KEYBOARD_BUFFER_SIZE at *
  congr 1
  · apply List.map_congr_left
    intro i hi
    rw [List.mem_range] at hi
    simp only
    rw [Function.update_noteq]
    omega
  · simp only [List.map_cons, List.map_nil]
    have : (k.buffer_start + (k.buffer_end + 256 - k.buffer_start) % 256) % 256
        = k.buffer_end := by omega
    rw [this, Function.update_same]

theorem keyboard_getchar_nonempty (k : Keyboard) (hne : k.buffer_start ≠ k.buffer_end) :
    keyboard_getchar k =
      (k.keyboard_buffer k.buffer_start,
        { k with buffer_start := (k.buffer_start + 1) % 256 }) := by
  simp [keyboard_getchar, KEYBOARD_BUFFER_SIZE, hne]

theorem buffered_pos (k : Keyboard)
    (hs : k.buffer_start < 256) (he : k.buffer_end < 256) (hpos : 0 < held k) :
    k.buffer_start ≠ k.buffer_end ∧
    held { k with buffer_start := (k.buffer_start + 1) % 256 } + 1 = held k ∧
    buffered k = k.keyboard_buffer k.buffer_start ::
      buffered { k with buffer_start := (k.buffer_start + 1) % 256 } := by
  have hne : k.buffer_start ≠ k.buffer_end := by
    unfold held KEYBOARD_BUFFER_SIZE at hpos
    omega
  have hheld : held { k with buffer_start := (k.buffer_start + 1) % 256 } + 1 = held k := by
    unfold held KEYBOARD_BUFFER_SIZE at *
    simp only
    omega
  refine ⟨hne, hheld, ?_⟩
  unfold buffered
  rw [← hheld, List.range_succ_eq_map, List.map_cons, List.map_map]
  unfold KEYBOARD_BUFFER_SIZE
  congr 1
  · simp [Nat.mod_eq_of_lt hs]
  · apply List.map_congr_left
    intro i _
    simp only [Function.comp_apply]
    congr 1
    omega

theorem pop_n_held (n : Nat) : ∀ k : Keyboard,
    k.buffer_start < 256 → k.buffer_end < 256 → held k = n →
    pop_n n k = (buffered k, { k with buffer_start := k.buffer_end }) := by
  induction n with
  | zero =>
    intro k hs he hn
    have hse : k.buffer_start = k.buffer_end := by
      unfold held KEYBOARD_BUFFER_SIZE at hn
      omega
    simp only [pop_n, buffered, hn, List.range_zero, List.map_nil]
    cases k
    simp only at hse
    subst hse
    rfl
  | succ n ih =>
    intro k hs he hn
    obtain ⟨hne, hheld, hbuf⟩ := buffered_pos k hs he (by omega)
    have hs2 : (k.buffer_start + 1) % 256 < 256 := Nat.mod_lt _ (by decide)
    have hrec := ih { k with buffer_start := (k.buffer_start + 1) % 256 } hs2 he (by omega)
    simp only [pop_n, keyboard_getchar_nonempty k hne, hrec, hbuf]

theorem push_all_room (cs : List Int) : ∀ k : Keyboard,
    k.buffer_start < 256 → k.buffer_end < 256 → held k + cs.length ≤ 255 →
    buffered (push_all k cs) = buffered k ++ cs ∧
    held (push_all k cs) = held k + cs.length ∧
    (push_all k cs).buffer_start = k.buffer_start ∧
    (push_all k cs).buffer_end < 256 := by
  induction cs with
  | nil =>
    intro k _ he _
    simp [push_all, he]
  | cons c cs ih =>
    intro k hs he hroom
    simp only [List.length_cons] at hroom
    have hlt : held k < 255 := by omega
    have h1 := held_add_to_buffer k c hs he hlt
    have h2 := buffered_add_to_buffer k c hs he hlt
    have h3 := add_to_buffer_start k c
    have h4 := add_to_buffer_end_lt k c he
    obtain ⟨a, b, c', d⟩ := ih (add_to_buffer k c) (by omega) h4 (by omega)
    have hstep : push_all k (c :: cs) = push_all (add_to_buffer k c) cs := rfl
    rw [hstep, a, b, c', h1, h2, h3]
    refine ⟨by simp, by simp only [List.length_cons]; omega, rfl, d⟩

/-- C1. Ring buffer FIFO: from any state holding `held k` characters (head and
tail anywhere in the 256 cells), pushing the characters `cs` with
`held k + cs.length ≤ 255` and then calling keyboard_getchar that many times
returns the old characters followed by `cs`, in order, and leaves the buffer
empty (head equals tail, keyboard_has_char returns 0). -/
theorem ring_buffer_fifo (k : Keyboard) (cs : List Int)
    (hs : k.buffer_start < 256) (he : k.buffer_end < 256)
    (hroom : held k + cs.length ≤ 255) :
    (pop_n (held k + cs.length) (push_all k cs)).1 = buffered k ++ cs ∧
    (pop_n (held k + cs.length) (push_all k cs)).2.buffer_start =
      (pop_n (held k + cs.length) (push_all k cs)).2.buffer_end ∧
    (keyboard_has_char (pop_n (held k + cs.length) (push_all k cs)).2).1 = 0 := by
  obtain ⟨hb, hh, hst, hen⟩ := push_all_room cs k hs he hroom
  rw [pop_n_held _ (push_all k cs) (by omega) hen hh, hb]
  simp [keyboard_has_char]

theorem ring_buffer_fifo_witness :
    held wrapped_ring = 3 ∧ buffered wrapped_ring = [120, 121, 122] ∧
    (pop_n (held wrapped_ring + [104, 105].length) (push_all wrapped_ring [104, 105])).1
      = buffered wrapped_ring ++ [104, 105] ∧
    (pop_n (held wrapped_ring + [104, 105].length) (push_all wrapped_ring [104, 105])).2.buffer_start =
      (pop_n (held wrapped_ring + [104, 105].length)
        (push_all wrapped_ring [104, 105])).2.buffer_end ∧
    (keyboard_has_char (pop_n (held wrapped_ring + [104, 105].length)
      (push_all wrapped_ring [104, 105])).2).1 = 0 :=
  ⟨by decide, by decide,
    ring_buffer_fifo wrapped_ring [104, 105] (by decide) (by decide) (by decide)⟩

theorem add_to_buffer_full (k : Keyboard) (c : Int)
    (hfull : (k.buffer_end + 1) % 256 = k.buffer_start) : add_to_buffer k c = k := by
  simp [add_to_buffer, KEYBOARD_BUFFER_SIZE, hfull]

theorem push_all_full (cs : List Int) (k : Keyboard)
    (hfull : (k.buffer_end + 1) % 256 = k.buffer_start) : push_all k cs = k := by
  induction cs with
  | nil => rfl
  | cons c cs ih =>
    have hstep : push_all k (c :: cs) = push_all (add_to_buffer k c) cs := rfl
    rw [hstep, add_to_buffer_full k c hfull, ih]

theorem push_all_append (k : Keyboard) (as bs : List Int) :
    push_all k (as ++ bs) = push_all (push_all k as) bs := by
  simp [push_all, List.foldl_append]

theorem held_empty (k : Keyboard) (hse : k.buffer_start = k.buffer_end) : held k = 0 := by
  unfold held KEYBOARD_BUFFER_SIZE
  omega

/-- Pushing into an empty ring keeps the first 255 characters only. -/
theorem push_all_empty (k : Keyboard) (cs : List Int)
    (hse : k.buffer_start = k.buffer_end) (he : k.buffer_end < 256) :
    push_all k cs = push_all k (cs.take 255) ∧
    buffered (push_all k cs) = cs.take 255 ∧
    held (push_all k cs) = min cs.length 255 ∧
    (push_all k cs).buffer_start = k.buffer_start ∧
    (push_all k cs).buffer_end < 256 := by
  have h0 := held_empty k hse
  have hs : k.buffer_start < 256 := by omega
  have hlen : (cs.take 255).length = min 255 cs.length := List.length_take 255 cs
  obtain ⟨hb, hh, hst, hen⟩ := push_all_room (cs.take 255) k hs he (by omega)
  have hcut : push_all k cs = push_all k (cs.take 255) := by
    by_cases hl : cs.length ≤ 255
    · rw [List.take_of_length_le hl]
    · conv_lhs => rw [← List.take_append_drop 255 cs]
      rw [push_all_append]
      apply push_all_full
      unfold held KEYBOARD_BUFFER_SIZE at hh h0
      omega
  have hnil : buffered k = [] := by simp [buffered, h0]
  rw [hcut]
  refine ⟨rfl, ?_, ?_, hst, hen⟩
  · rw [hb, hnil, List.nil_append]
  · rw [hh, h0, hlen]
    omega

/-- C2. Ring buffer overflow: when advancing the tail would reach the head,
add_to_buffer leaves the whole state (indices and every cell) as it was; and
pushing 255 or more characters into an empty ring retains exactly the first
255, keyboard_has_char returns 1 after every push, and 255 calls of
keyboard_getchar return those first 255 in order. -/
theorem ring_buffer_overflow (k : Keyboard) (c : Int) (cs : List Int) :
    ((k.buffer_end + 1) % 256 = k.buffer_start → add_to_buffer k c = k) ∧
    (k.buffer_start = k.buffer_end → k.buffer_end < 256 → 255 ≤ cs.length →
      buffered (push_all k cs) = cs.take 255 ∧
      held (push_all k cs) = 255 ∧
      (∀ j, 1 ≤ j → (keyboard_has_char (push_all k (cs.take j))).1 = 1) ∧
      (pop_n 255 (push_all k cs)).1 = cs.take 255) := by
  refine ⟨add_to_buffer_full k c, ?_⟩
  intro hse he hlen
  obtain ⟨_, hb, hh, hst, hen⟩ := push_all_empty k cs hse he
  have hh255 : held (push_all k cs) = 255 := by omega
  refine ⟨hb, hh255, ?_, ?_⟩
  · intro j hj
    obtain ⟨_, _, hhj, _, henj⟩ := push_all_empty k (cs.take j) hse he
    have hlj : (cs.take j).length = min j cs.length := List.length_take j cs
    have hne : (push_all k (cs.take j)).buffer_start ≠ (push_all k (cs.take j)).buffer_end := by
      intro heq
      have := held_empty _ heq
      omega
    simp [keyboard_has_char, hne]
  · rw [pop_n_held 255 (push_all k cs) (by omega) hen hh255, hb]

theorem ring_buffer_overflow_witness :
    ((full_ring.buffer_end + 1) % 256 = full_ring.buffer_start ∧
      add_to_buffer full_ring 65 = full_ring) ∧
    (empty_ring.buffer_start = empty_ring.buffer_end ∧ empty_ring.buffer_end < 256 ∧
      255 ≤ (List.replicate 300 (66 : Int)).length ∧
      held (push_all empty_ring (List.replicate 300 66)) = 255) :=
  ⟨⟨by decide, (ring_buffer_overflow full_ring 65 []).1 (by decide)⟩,
    by decide, by decide, by rw [List.length_replicate]; omega,
    ((ring_buffer_overflow empty_ring 0 (List.replicate 300 66)).2
      (by decide) (by decide) (by rw [List.length_replicate]; omega)).2.1⟩

/-- C3. Pop on empty: when head equals tail keyboard_getchar returns 0 and
leaves the whole state unchanged; keyboard_has_char returns 0 exactly in these
states (and 1 otherwise) and never changes the state. -/
theorem pop_on_empty (k : Keyboard) :
    (k.buffer_start = k.buffer_end → keyboard_getchar k = (0, k)) ∧
    ((keyboard_has_char k).1 = 0 ↔ k.buffer_start = k.buffer_end) ∧
    ((keyboard_has_char k).1 ≠ 0 ↔ k.buffer_start ≠ k.buffer_end) ∧
    (keyboard_has_char k).2 = k := by
  refine ⟨fun h => by simp [keyboard_getchar, h], ?_, ?_, rfl⟩
  · by_cases h : k.buffer_start = k.buffer_end <;> simp [keyboard_has_char, h]
  · by_cases h : k.buffer_start = k.buffer_end <;> simp [keyboard_has_char, h]

theorem pop_on_empty_witness :
    empty_ring.buffer_start = empty_ring.buffer_end ∧
    keyboard_getchar empty_ring = (0, empty_ring) :=
  ⟨by decide, (pop_on_empty empty_ring).1 (by decide)⟩

/-! ## Scancode decoder lemmas -/

set_option maxRecDepth 100000 in
theorem make_code_bit (sc : Nat) (h : sc < 128) : sc &&& 0x80 = 0 := by
  revert sc
  decide

set_option maxRecDepth 100000 in
theorem break_code_bit (sc : Nat) (h1 : 128 ≤ sc) (h2 : sc < 256) :
    sc &&& 0x80 ≠ 0 ∧ sc &&& 0x7F = sc % 128 := by
  revert sc
  decide

set_option maxRecDepth 100000 in
theorem letter_rows_all : ∀ sc < 128,
    (97 ≤ scancode_to_ascii.getD sc 0 ∧ scancode_to_ascii.getD sc 0 ≤ 122) →
    (scancode_to_ascii_shift.getD sc 0 + 32 = scancode_to_ascii.getD sc 0 ∧
      sc ≠ 0x2A ∧ sc ≠ 0x36 ∧ sc ≠ 0x1D ∧ sc ≠ 0x38 ∧ sc ≠ 0x3A) := by
  decide

theorem letter_rows (sc : Nat) (h : sc < 128)
    (hlo : 97 ≤ scancode_to_ascii.getD sc 0) (hhi : scancode_to_ascii.getD sc 0 ≤ 122) :
    scancode_to_ascii_shift.getD sc 0 + 32 = scancode_to_ascii.getD sc 0 ∧
    sc ≠ 0x2A ∧ sc ≠ 0x36 ∧ sc ≠ 0x1D ∧ sc ≠ 0x38 ∧ sc ≠ 0x3A :=
  letter_rows_all sc h ⟨hlo, hhi⟩

theorem letter_decode (k : Keyboard) (u v : Int) (hlo : 97 ≤ u) (hhi : u ≤ 122)
    (hv : v = u - 32) (hctrl : k.ctrl_pressed = false) :
    handle_ctrl k (handle_caps_lock k (if k.shift_pressed then v else u)) =
      if k.shift_pressed ≠ k.caps_lock then u - 32 else u := by
  subst hv
  cases hS : k.shift_pressed <;> cases hC : k.caps_lock
  all_goals simp [handle_caps_lock, handle_ctrl, hS, hC, hctrl, hlo, hhi]
  all_goals omega

theorem to_char_small (b : Nat) (h : b < 128) : to_char b = (b : Int) := by
  simp [to_char, h]

/-- A make scancode that is not one of the five modifier keys reaches the
decoding part of process_scancode. -/
theorem process_scancode_plain (k : Keyboard) (sc : Nat) (h : sc < 128)
    (h2A : sc ≠ 0x2A) (h36 : sc ≠ 0x36) (h1D : sc ≠ 0x1D) (h38 : sc ≠ 0x38)
    (h3A : sc ≠ 0x3A) :
    process_scancode k sc =
      if decode k sc ≠ 0 then add_to_buffer k (decode k sc) else k := by
  simp [process_scancode, make_code_bit sc h, h2A, h36, h1D, h38, h3A]

/-- C4. Shift and caps-lock cancel on letters: for a make scancode whose
unshifted table entry is a letter 'a'..'z' (there are 26 of them), with control
not held, process_scancode pushes the uppercase form of the letter when exactly
one of shift_pressed and caps_lock is set and the lowercase form otherwise. -/
theorem shift_caps_cancel (k : Keyboard) (sc : Nat) (hsc : sc < 128)
    (hlo : 97 ≤ scancode_to_ascii.getD sc 0) (hhi : scancode_to_ascii.getD sc 0 ≤ 122)
    (hctrl : k.ctrl_pressed = false) :
    process_scancode k sc =
      add_to_buffer k
        (if k.shift_pressed ≠ k.caps_lock then (scancode_to_ascii.getD sc 0 : Int) - 32
         else (scancode_to_ascii.getD sc 0 : Int)) ∧
    ((List.range 128).filter (fun i =>
      decide (97 ≤ scancode_to_ascii.getD i 0 ∧ scancode_to_ascii.getD i 0 ≤ 122))).length
      = 26 := by
  refine ⟨?_, by decide⟩
  obtain ⟨hsh, h2A, h36, h1D, h38, h3A⟩ := letter_rows sc hsc hlo hhi
  rw [process_scancode_plain k sc hsc h2A h36 h1D h38 h3A]
  have hu : to_char (scancode_to_ascii.getD sc 0) = (scancode_to_ascii.getD sc 0 : Int) :=
    to_char_small _ (by omega)
  have hs : to_char (scancode_to_ascii_shift.getD sc 0)
      = (scancode_to_ascii.getD sc 0 : Int) - 32 := by
    rw [to_char_small _ (by omega)]
    omega
  have hdec : decode k sc = if k.shift_pressed ≠ k.caps_lock
      then (scancode_to_ascii.getD sc 0 : Int) - 32 else (scancode_to_ascii.getD sc 0 : Int) := by
    have := letter_decode k (scancode_to_ascii.getD sc 0 : Int)
      ((scancode_to_ascii.getD sc 0 : Int) - 32) (by exact_mod_cast hlo)
      (by exact_mod_cast hhi) rfl hctrl
    rw [← this, ← hs, ← hu]
    rfl
  have hnz : decode k sc ≠ 0 := by
    rw [hdec]
    split <;> omega
  rw [if_pos hnz, hdec]

theorem shift_caps_cancel_witness :
    (0x1E < 128 ∧ 97 ≤ scancode_to_ascii.getD 0x1E 0 ∧ scancode_to_ascii.getD 0x1E 0 ≤ 122 ∧
      (with_modifiers true false false true).ctrl_pressed = false) ∧
    process_scancode (with_modifiers true false false true) 0x1E =
      add_to_buffer (with_modifiers true false false true) 97 ∧
    process_scancode (with_modifiers true false false false) 0x1E =
      add_to_buffer (with_modifiers true false false false) 65 ∧
    process_scancode (with_modifiers false false false true) 0x1E =
      add_to_buffer (with_modifiers false false false true) 65 :=
  ⟨by decide,
    (shift_caps_cancel (with_modifiers true false false true) 0x1E
      (by decide) (by decide) (by decide) rfl).1,
    (shift_caps_cancel (with_modifiers true false false false) 0x1E
      (by decide) (by decide) (by decide) rfl).1,
    (shift_caps_cancel (with_modifiers false false false true) 0x1E
      (by decide) (by decide) (by decide) rfl).1⟩

set_option maxRecDepth 100000 in
theorem table_bytes : ∀ sc < 128,
    scancode_to_ascii.getD sc 0 < 256 ∧ scancode_to_ascii_shift.getD sc 0 < 256 := by
  decide

theorem modifier_rows (sc : Nat)
    (h : sc = 0x2A ∨ sc = 0x36 ∨ sc = 0x1D ∨ sc = 0x38 ∨ sc = 0x3A) :
    scancode_to_ascii.getD sc 0 = 0 ∧ scancode_to_ascii_shift.getD sc 0 = 0 := by
  rcases h with h | h | h | h | h <;> subst h <;> decide

theorem to_char_eq_zero (b : Nat) (h : b < 256) : to_char b = 0 ↔ b = 0 := by
  unfold to_char
  split <;> omega

theorem handle_caps_lock_zero (k : Keyboard) : handle_caps_lock k 0 = 0 := by
  simp [handle_caps_lock]

theorem adjust_ne_zero (k : Keyboard) (a : Int) (ha : a ≠ 0) :
    handle_ctrl k (handle_caps_lock k a) ≠ 0 := by
  unfold handle_ctrl handle_caps_lock
  split_ifs <;> omega

theorem add_to_buffer_flags (k : Keyboard) (c : Int) :
    (add_to_buffer k c).shift_pressed = k.shift_pressed ∧
    (add_to_buffer k c).ctrl_pressed = k.ctrl_pressed ∧
    (add_to_buffer k c).alt_pressed = k.alt_pressed ∧
    (add_to_buffer k c).caps_lock = k.caps_lock := by
  simp only [add_to_buffer]
  split <;> exact ⟨rfl, rfl, rfl, rfl⟩

theorem decode_congr (k k2 : Keyboard) (sc : Nat)
    (h1 : k2.shift_pressed = k.shift_pressed) (h2 : k2.ctrl_pressed = k.ctrl_pressed)
    (h3 : k2.caps_lock = k.caps_lock) : decode k2 sc = decode k sc := by
  simp only [decode, handle_ctrl, handle_caps_lock, convert_scancode, h1, h2, h3]

/-- C5. Control remap: with control held, for a make scancode whose character
after the table lookup and the caps-lock step is a lowercase letter ch,
process_scancode pushes ch - 96, a value in 1..26; when that character is not
a lowercase letter, the decoded character and the state process_scancode
leaves are the ones obtained with control released (the control flag apart). -/
theorem control_remap (k : Keyboard) (sc : Nat) (hsc : sc < 128)
    (hctrl : k.ctrl_pressed = true) :
    (97 ≤ handle_caps_lock k (convert_scancode k sc) ∧
        handle_caps_lock k (convert_scancode k sc) ≤ 122 →
      process_scancode k sc =
        add_to_buffer k (handle_caps_lock k (convert_scancode k sc) - 96) ∧
      1 ≤ handle_caps_lock k (convert_scancode k sc) - 96 ∧
      handle_caps_lock k (convert_scancode k sc) - 96 ≤ 26) ∧
    (¬ (97 ≤ handle_caps_lock k (convert_scancode k sc) ∧
        handle_caps_lock k (convert_scancode k sc) ≤ 122) →
      decode k sc = decode { k with ctrl_pressed := false } sc ∧
      process_scancode k sc =
        { process_scancode { k with ctrl_pressed := false } sc with ctrl_pressed := true }) := by
  have hmk := make_code_bit sc hsc
  by_cases hmod : sc = 0x2A ∨ sc = 0x36 ∨ sc = 0x1D ∨ sc = 0x38 ∨ sc = 0x3A
  · obtain ⟨hu, hs⟩ := modifier_rows sc hmod
    have hz : handle_caps_lock k (convert_scancode k sc) = 0 := by
      have : convert_scancode k sc = 0 := by
        simp only [convert_scancode, hu, hs]
        split <;> rfl
      rw [this, handle_caps_lock_zero]
    have hdz : ∀ k2 : Keyboard, decode k2 sc = 0 := by
      intro k2
      have : convert_scancode k2 sc = 0 := by
        simp only [convert_scancode, hu, hs]
        split <;> rfl
      simp [decode, this, handle_caps_lock_zero, handle_ctrl]
    rw [hz]
    refine ⟨fun h => by omega, fun _ => ⟨by rw [hdz, hdz], ?_⟩⟩
    obtain ⟨sh, ct, al, ca, buf, st, en⟩ := k
    simp only at hctrl
    subst hctrl
    rcases hmod with h | h | h | h | h <;> subst h <;> simp [process_scancode, hmk]
  · simp only [not_or] at hmod
    obtain ⟨h2A, h36, h1D, h38, h3A⟩ := hmod
    rw [process_scancode_plain k sc hsc h2A h36 h1D h38 h3A,
      process_scancode_plain _ sc hsc h2A h36 h1D h38 h3A]
    have hd : decode k sc = handle_ctrl k (handle_caps_lock k (convert_scancode k sc)) := rfl
    have hd2 : decode { k with ctrl_pressed := false } sc
        = handle_caps_lock k (convert_scancode k sc) := by
      simp [decode, handle_ctrl, handle_caps_lock, convert_scancode]
    rw [hd, hd2]
    generalize handle_caps_lock k (convert_scancode k sc) = ch
    constructor
    · intro hletter
      have : handle_ctrl k ch = ch - 96 := by simp [handle_ctrl, hctrl, hletter]
      rw [this, if_pos (by omega)]
      exact ⟨rfl, by omega, by omega⟩
    · intro hnot
      have : handle_ctrl k ch = ch := by simp [handle_ctrl, hnot]
      rw [this]
      refine ⟨rfl, ?_⟩
      obtain ⟨sh, ct, al, ca, buf, st, en⟩ := k
      simp only at hctrl
      subst hctrl
      split
      · simp only [add_to_buffer]
        split <;> rfl
      · rfl

theorem control_remap_witness :
    (0x1E < 128 ∧ (with_modifiers false true false false).ctrl_pressed = true ∧
      handle_caps_lock (with_modifiers false true false false)
        (convert_scancode (with_modifiers false true false false) 0x1E) = 97) ∧
    process_scancode (with_modifiers false true false false) 0x1E =
      add_to_buffer (with_modifiers false true false false) 1 :=
  ⟨by decide,
    ((control_remap (with_modifiers false true false false) 0x1E (by decide) rfl).1
      (by decide)).1⟩

/-- C6. Release events: for a scancode with bit 7 set, process_scancode leaves
the ring (indices and cells) and caps_lock as they were; it clears
shift_pressed when the low seven bits are 0x2A or 0x36, ctrl_pressed when they
are 0x1D, alt_pressed when they are 0x38, and changes no flag otherwise. -/
theorem release_events (k : Keyboard) (sc : Nat) (h1 : 128 ≤ sc) (h2 : sc < 256) :
    process_scancode k sc =
      { k with
        shift_pressed :=
          if sc % 128 = 0x2A ∨ sc % 128 = 0x36 then false else k.shift_pressed
        ctrl_pressed := if sc % 128 = 0x1D then false else k.ctrl_pressed
        alt_pressed := if sc % 128 = 0x38 then false else k.alt_pressed } := by
  obtain ⟨hbit, hlow⟩ := break_code_bit sc h1 h2
  obtain ⟨sh, ct, al, ca, buf, st, en⟩ := k
  simp only [process_scancode, hbit, hlow, ne_eq, not_false_eq_true, if_true]
  split_ifs <;> simp_all

theorem release_events_witness :
    (128 ≤ 0xAA ∧ 0xAA < 256) ∧
    process_scancode (with_modifiers true true true true) 0xAA =
      with_modifiers false true true true :=
  ⟨by decide, release_events (with_modifiers true true true true) 0xAA (by decide) (by decide)⟩

/-- C7. Modifier presses: the make scancodes 0x2A and 0x36 set shift_pressed,
0x1D sets ctrl_pressed, 0x38 sets alt_pressed and 0x3A toggles caps_lock, so
two caps-lock presses restore the state; in each case the ring and the other
three flags are as before. -/
theorem modifier_presses (k : Keyboard) :
    process_scancode k 0x2A = { k with shift_pressed := true } ∧
    process_scancode k 0x36 = { k with shift_pressed := true } ∧
    process_scancode k 0x1D = { k with ctrl_pressed := true } ∧
    process_scancode k 0x38 = { k with alt_pressed := true } ∧
    process_scancode k 0x3A = { k with caps_lock := !k.caps_lock } ∧
    process_scancode (process_scancode k 0x3A) 0x3A = k := by
  have e1 : process_scancode k 0x2A = { k with shift_pressed := true } := by
    simp [process_scancode, make_code_bit 0x2A (by decide)]
  have e2 : process_scancode k 0x36 = { k with shift_pressed := true } := by
    simp [process_scancode, make_code_bit 0x36 (by decide)]
  have e3 : process_scancode k 0x1D = { k with ctrl_pressed := true } := by
    simp [process_scancode, make_code_bit 0x1D (by decide)]
  have e4 : process_scancode k 0x38 = { k with alt_pressed := true } := by
    simp [process_scancode, make_code_bit 0x38 (by decide)]
  have e5 : ∀ k2 : Keyboard,
      process_scancode k2 0x3A = { k2 with caps_lock := !k2.caps_lock } := by
    intro k2
    simp [process_scancode, make_code_bit 0x3A (by decide)]
  refine ⟨e1, e2, e3, e4, e5 k, ?_⟩
  rw [e5, e5]
  cases k
  simp

/-- C8. Emit iff mapped: for a make scancode that is not a modifier key,
process_scancode makes its one call of add_to_buffer, with a nonzero character,
when the entry selected from the shifted or unshifted table is nonzero, and
leaves the whole state unchanged when that entry is 0, as for F1..F10; the
caps-lock and control steps never turn a nonzero character into 0. -/
theorem emit_iff_mapped (k : Keyboard) (sc : Nat) (hsc : sc < 128)
    (hmod : sc ≠ 0x2A ∧ sc ≠ 0x36 ∧ sc ≠ 0x1D ∧ sc ≠ 0x38 ∧ sc ≠ 0x3A) :
    ((if k.shift_pressed then scancode_to_ascii_shift.getD sc 0
        else scancode_to_ascii.getD sc 0) ≠ 0 →
      decode k sc ≠ 0 ∧ process_scancode k sc = add_to_buffer k (decode k sc)) ∧
    ((if k.shift_pressed then scancode_to_ascii_shift.getD sc 0
        else scancode_to_ascii.getD sc 0) = 0 →
      process_scancode k sc = k) ∧
    (0x3B ≤ sc ∧ sc ≤ 0x44 → process_scancode k sc = k) ∧
    (∀ a : Int, a ≠ 0 → handle_ctrl k (handle_caps_lock k a) ≠ 0) := by
  obtain ⟨h2A, h36, h1D, h38, h3A⟩ := hmod
  have hplain := process_scancode_plain k sc hsc h2A h36 h1D h38 h3A
  obtain ⟨hbu, hbs⟩ := table_bytes sc hsc
  have hconv : convert_scancode k sc =
      to_char (if k.shift_pressed then scancode_to_ascii_shift.getD sc 0
        else scancode_to_ascii.getD sc 0) := by
    unfold convert_scancode
    split <;> rfl
  have hlt : (if k.shift_pressed then scancode_to_ascii_shift.getD sc 0
      else scancode_to_ascii.getD sc 0) < 256 := by
    split <;> assumption
  have hzero : (if k.shift_pressed then scancode_to_ascii_shift.getD sc 0
      else scancode_to_ascii.getD sc 0) = 0 → process_scancode k sc = k := by
    intro h0
    have : decode k sc = 0 := by
      unfold decode
      rw [hconv, h0]
      simp [to_char, handle_caps_lock_zero, handle_ctrl]
    rw [hplain, this]
    simp
  refine ⟨?_, hzero, ?_, adjust_ne_zero k⟩
  · intro hne
    have hc : convert_scancode k sc ≠ 0 := by
      rw [hconv]
      exact fun h => hne ((to_char_eq_zero _ hlt).mp h)
    have hd : decode k sc ≠ 0 := adjust_ne_zero k _ hc
    exact ⟨hd, by rw [hplain, if_pos hd]⟩
  · intro hf
    apply hzero
    have hF : ∀ i, 0x3B ≤ i → i ≤ 0x44 →
        scancode_to_ascii.getD i 0 = 0 ∧ scancode_to_ascii_shift.getD i 0 = 0 := by
      decide
    obtain ⟨a, b⟩ := hF sc hf.1 hf.2
    rw [a, b]
    split <;> rfl

theorem emit_iff_mapped_witness :
    (0x3B < 128 ∧ (0x3B ≠ 0x2A ∧ 0x3B ≠ 0x36 ∧ 0x3B ≠ 0x1D ∧ 0x3B ≠ 0x38 ∧ 0x3B ≠ 0x3A)) ∧
    process_scancode (with_modifiers true true false true) 0x3B =
      with_modifiers true true false true ∧
    process_scancode (with_modifiers false false false false) 0x1C =
      add_to_buffer (with_modifiers false false false false) 10 :=
  ⟨by decide,
    (emit_iff_mapped (with_modifiers true true false true) 0x3B (by decide) (by decide)).2.2.1
      (by decide),
    ((emit_iff_mapped (with_modifiers false false false false) 0x1C (by decide)
      (by decide)).1 (by decide)).2⟩

/-- C9. Decoding is repeatable: for a make scancode other than the five
modifier keys, process_scancode leaves the four modifier flags unchanged; the
decoded character is the same in any two states with the same four flags; and
processing the scancode twice pushes the same character twice when the ring has
room for both (and pushes nothing twice when the scancode has no mapping). -/
theorem decoding_repeatable (k k2 : Keyboard) (sc : Nat) (hsc : sc < 128)
    (hmod : sc ≠ 0x2A ∧ sc ≠ 0x36 ∧ sc ≠ 0x1D ∧ sc ≠ 0x38 ∧ sc ≠ 0x3A) :
    ((process_scancode k sc).shift_pressed = k.shift_pressed ∧
      (process_scancode k sc).ctrl_pressed = k.ctrl_pressed ∧
      (process_scancode k sc).alt_pressed = k.alt_pressed ∧
      (process_scancode k sc).caps_lock = k.caps_lock) ∧
    (k2.shift_pressed = k.shift_pressed → k2.ctrl_pressed = k.ctrl_pressed →
      k2.alt_pressed = k.alt_pressed → k2.caps_lock = k.caps_lock →
      decode k2 sc = decode k sc) ∧
    (decode k sc ≠ 0 →
      process_scancode (process_scancode k sc) sc =
        add_to_buffer (add_to_buffer k (decode k sc)) (decode k sc)) ∧
    (decode k sc ≠ 0 → k.buffer_start < 256 → k.buffer_end < 256 → held k + 2 ≤ 255 →
      buffered (process_scancode (process_scancode k sc) sc) =
        buffered k ++ [decode k sc, decode k sc]) ∧
    (decode k sc = 0 → process_scancode (process_scancode k sc) sc = k) := by
  obtain ⟨h2A, h36, h1D, h38, h3A⟩ := hmod
  have hplain : ∀ k3 : Keyboard, process_scancode k3 sc =
      if decode k3 sc ≠ 0 then add_to_buffer k3 (decode k3 sc) else k3 :=
    fun k3 => process_scancode_plain k3 sc hsc h2A h36 h1D h38 h3A
  have hflags : ∀ c, decode (add_to_buffer k c) sc = decode k sc := by
    intro c
    obtain ⟨a, b, _, d⟩ := add_to_buffer_flags k c
    exact decode_congr k _ sc a b d
  have htwice : decode k sc ≠ 0 →
      process_scancode (process_scancode k sc) sc =
        add_to_buffer (add_to_buffer k (decode k sc)) (decode k sc) := by
    intro hd
    rw [hplain k, if_pos hd, hplain, hflags, if_pos hd]
  refine ⟨?_, fun a b _ d => decode_congr k k2 sc a b d, htwice, ?_, ?_⟩
  · rw [hplain k]
    split
    · exact add_to_buffer_flags k _
    · exact ⟨rfl, rfl, rfl, rfl⟩
  · intro hd hs he hroom
    rw [htwice hd]
    have hb := (push_all_room [decode k sc, decode k sc] k hs he
      (by simp only [List.length_cons, List.length_nil]; omega)).1
    exact hb
  · intro hz
    rw [hplain k, hz]
    simp only [ne_eq, not_true_eq_false, if_false]
    rw [hplain k, hz]
    simp

theorem decoding_repeatable_witness :
    (0x1C < 128 ∧ (0x1C ≠ 0x2A ∧ 0x1C ≠ 0x36 ∧ 0x1C ≠ 0x1D ∧ 0x1C ≠ 0x38 ∧ 0x1C ≠ 0x3A) ∧
      decode wrapped_ring 0x1C = 10 ∧ held wrapped_ring + 2 ≤ 255) ∧
    buffered (process_scancode (process_scancode wrapped_ring 0x1C) 0x1C) =
      buffered wrapped_ring ++ [decode wrapped_ring 0x1C, decode wrapped_ring 0x1C] :=
  ⟨by decide,
    (decoding_repeatable wrapped_ring wrapped_ring 0x1C (by decide) (by decide)).2.2.2.1
      (by decide) (by decide) (by decide) (by decide)⟩

theorem add_to_buffer_caps (k : Keyboard) (c : Int) (b : Bool) :
    (add_to_buffer { k with caps_lock := b } c).keyboard_buffer
      = (add_to_buffer k c).keyboard_buffer ∧
    (add_to_buffer { k with caps_lock := b } c).buffer_start
      = (add_to_buffer k c).buffer_start ∧
    (add_to_buffer { k with caps_lock := b } c).buffer_end
      = (add_to_buffer k c).buffer_end := by
  simp only [add_to_buffer]
  split <;> exact ⟨rfl, rfl, rfl⟩

/-- C10. Caps-lock affects letters only: for a make scancode and any shift,
control and alt state in which the character selected from the lookup table is
not an ASCII letter, the character decoded with caps_lock set equals the one
decoded with caps_lock clear, and process_scancode leaves the same ring
(cells and indices) in both cases. -/
theorem caps_lock_letters_only (k : Keyboard) (sc : Nat) (hsc : sc < 128)
    (hnot : ¬ ((97 ≤ convert_scancode k sc ∧ convert_scancode k sc ≤ 122) ∨
      (65 ≤ convert_scancode k sc ∧ convert_scancode k sc ≤ 90))) :
    decode { k with caps_lock := true } sc = decode { k with caps_lock := false } sc ∧
    (process_scancode { k with caps_lock := true } sc).keyboard_buffer =
      (process_scancode { k with caps_lock := false } sc).keyboard_buffer ∧
    (process_scancode { k with caps_lock := true } sc).buffer_start =
      (process_scancode { k with caps_lock := false } sc).buffer_start ∧
    (process_scancode { k with caps_lock := true } sc).buffer_end =
      (process_scancode { k with caps_lock := false } sc).buffer_end := by
  have hmk := make_code_bit sc hsc
  have hconv : ∀ b, convert_scancode { k with caps_lock := b } sc = convert_scancode k sc :=
    fun _ => rfl
  have hcaps : ∀ b, handle_caps_lock { k with caps_lock := b } (convert_scancode k sc)
      = convert_scancode k sc := by
    intro b
    unfold handle_caps_lock
    split_ifs <;> first | rfl | omega
  have hdec : ∀ b, decode { k with caps_lock := b } sc
      = handle_ctrl k (convert_scancode k sc) := by
    intro b
    unfold decode
    rw [hconv, hcaps]
    rfl
  refine ⟨by rw [hdec, hdec], ?_⟩
  by_cases hmod : sc = 0x2A ∨ sc = 0x36 ∨ sc = 0x1D ∨ sc = 0x38 ∨ sc = 0x3A
  · rcases hmod with h | h | h | h | h <;> subst h <;> simp [process_scancode, hmk]
  · simp only [not_or] at hmod
    obtain ⟨h2A, h36, h1D, h38, h3A⟩ := hmod
    rw [process_scancode_plain _ sc hsc h2A h36 h1D h38 h3A,
      process_scancode_plain _ sc hsc h2A h36 h1D h38 h3A, hdec, hdec]
    split
    · obtain ⟨a1, b1, c1⟩ := add_to_buffer_caps k (handle_ctrl k (convert_scancode k sc)) true
      obtain ⟨a2, b2, c2⟩ := add_to_buffer_caps k (handle_ctrl k (convert_scancode k sc)) false
      exact ⟨a1.trans a2.symm, b1.trans b2.symm, c1.trans c2.symm⟩
    · exact ⟨rfl, rfl, rfl⟩

theorem caps_lock_letters_only_witness :
    (0x02 < 128 ∧ convert_scancode (with_modifiers true false false false) 0x02 = 33) ∧
    decode { with_modifiers true false false false with caps_lock := true } 0x02 =
      decode { with_modifiers true false false false with caps_lock := false } 0x02 :=
  ⟨by decide,
    (caps_lock_letters_only (with_modifiers true false false false) 0x02 (by decide)
      (by decide)).1⟩

/-! ## Keyboard initialisation and the end-to-end key sequence -/

theorem outb_keyboard (k : Kernel) (p v : Nat) : (outb k p v).keyboard = k.keyboard := rfl

theorem update_cursor_keyboard (k : Kernel) : (update_cursor k).keyboard = k.keyboard := rfl

theorem putchar_keyboard (k : Kernel) (c : Int) : (putchar k c).keyboard = k.keyboard := by
  simp only [putchar]
  split_ifs <;> rfl

theorem foldl_putchar_keyboard (cs : List Int) :
    ∀ k : Kernel, (cs.foldl putchar k).keyboard = k.keyboard := by
  induction cs with
  | nil => intro k; rfl
  | cons c cs ih =>
    intro k
    rw [List.foldl_cons, ih, putchar_keyboard]

theorem print_keyboard (k : Kernel) (str : List Int) : (print k str).keyboard = k.keyboard :=
  foldl_putchar_keyboard _ k

theorem flush_keyboard_keyboard (hw : Hardware) (fuel : Nat) :
    ∀ k k2 : Kernel, flush_keyboard hw fuel k = some k2 → k2.keyboard = k.keyboard := by
  induction fuel with
  | zero => intro k k2 h; simp [flush_keyboard] at h
  | succ n ih =>
    intro k k2 h
    simp only [flush_keyboard] at h
    split at h
    · rw [ih _ _ h]
      rfl
    · cases h
      rfl

theorem keyboard_init_eq (hw : Hardware) (fuel : Nat) (k : Kernel) :
    keyboard_init hw fuel k =
      (flush_keyboard hw fuel
        { k with keyboard :=
          { shift_pressed := false, ctrl_pressed := false, alt_pressed := false
            caps_lock := false
            keyboard_buffer := k.keyboard.keyboard_buffer
            buffer_start := 0
            buffer_end := 0 } }).map
        (fun k1 => print k1 (c_string "Keyboard driver initialized\n")) := by
  unfold keyboard_init
  dsimp only
  cases flush_keyboard hw fuel _ <;> rfl

theorem keyboard_init_keyboard (hw : Hardware) (fuel : Nat) (k k0 : Kernel)
    (h : keyboard_init hw fuel k = some k0) :
    k0.keyboard =
      { shift_pressed := false, ctrl_pressed := false, alt_pressed := false, caps_lock := false
        keyboard_buffer := k.keyboard.keyboard_buffer
        buffer_start := 0
        buffer_end := 0 } := by
  rw [keyboard_init_eq, Option.map_eq_some'] at h
  obtain ⟨k1, hk1, hk0⟩ := h
  rw [← hk0, print_keyboard, flush_keyboard_keyboard hw fuel _ k1 hk1]

/-- When the status port reads with bit 0 clear, the flush loop of
keyboard_init ends after that one read, so keyboard_init returns. -/
theorem keyboard_init_returns (hw : Hardware) (k : Kernel)
    (hidle : ∀ log, hw log 0x64 % 256 &&& 1 = 0) :
    ∃ k0, keyboard_init hw 1 k = some k0 := by
  rw [keyboard_init_eq]
  simp [flush_keyboard, inb, hidle]

/-- The five scancodes shift-down, 'a'-down, 'a'-up, shift-up, enter-down,
processed from an empty ring at cell 0 with all modifiers clear, leave 'A' in
cell 0 and '\n' in cell 1. -/
theorem key_sequence_state (buf : Nat → Int) :
    [0x2A, 0x1E, 0x9E, 0xAA, 0x1C].foldl process_scancode
      { shift_pressed := false, ctrl_pressed := false, alt_pressed := false, caps_lock := false
        keyboard_buffer := buf, buffer_start := 0, buffer_end := 0 } =
      { shift_pressed := false, ctrl_pressed := false, alt_pressed := false, caps_lock := false
        keyboard_buffer := Function.update (Function.update buf 0 65) 1 10
        buffer_start := 0, buffer_end := 2 } := by
  rfl

/-- C11. End-to-end key sequence: from any state keyboard_init leaves,
processing 0x2A, 0x1E, 0x9E, 0xAA, 0x1C in order leaves exactly two characters
in the ring: keyboard_getchar returns 'A' (65), then '\n' (10), after which
keyboard_has_char returns 0; the four modifier flags are clear. -/
theorem end_to_end_keys (hw : Hardware) (fuel : Nat) (k k0 : Kernel)
    (hinit : keyboard_init hw fuel k = some k0) :
    held ([0x2A, 0x1E, 0x9E, 0xAA, 0x1C].foldl process_scancode k0.keyboard) = 2 ∧
    (pop_n 2 ([0x2A, 0x1E, 0x9E, 0xAA, 0x1C].foldl process_scancode k0.keyboard)).1
      = [65, 10] ∧
    (keyboard_has_char
      (pop_n 2 ([0x2A, 0x1E, 0x9E, 0xAA, 0x1C].foldl process_scancode k0.keyboard)).2).1
      = 0 ∧
    ([0x2A, 0x1E, 0x9E, 0xAA, 0x1C].foldl process_scancode k0.keyboard).shift_pressed
      = false ∧
    ([0x2A, 0x1E, 0x9E, 0xAA, 0x1C].foldl process_scancode k0.keyboard).ctrl_pressed
      = false ∧
    ([0x2A, 0x1E, 0x9E, 0xAA, 0x1C].foldl process_scancode k0.keyboard).alt_pressed
      = false ∧
    ([0x2A, 0x1E, 0x9E, 0xAA, 0x1C].foldl process_scancode k0.keyboard).caps_lock
      = false := by
  rw [keyboard_init_keyboard hw fuel k k0 hinit, key_sequence_state]
  refine ⟨?_, ?_, ?_, rfl, rfl, rfl, rfl⟩
  · simp [held, KEYBOARD_BUFFER_SIZE]
  · simp [pop_n, keyboard_getchar, KEYBOARD_BUFFER_SIZE]
  · simp [pop_n, keyboard_getchar, keyboard_has_char, KEYBOARD_BUFFER_SIZE]

theorem end_to_end_keys_witness :
    keyboard_init idle_hardware 1 boot_kernel =
      some (print (inb idle_hardware boot_kernel 0x64).2
        (c_string "Keyboard driver initialized\n")) ∧
    (pop_n 2 ([0x2A, 0x1E, 0x9E, 0xAA, 0x1C].foldl process_scancode
      (print (inb idle_hardware boot_kernel 0x64).2
        (c_string "Keyboard driver initialized\n")).keyboard)).1 = [65, 10] :=
  ⟨rfl, (end_to_end_keys idle_hardware 1 boot_kernel _ rfl).2.1⟩

/-! ## Console lemmas -/

theorem blank_cell : ((WHITE_ON_BLACK <<< 8) ||| 32) % 65536 = 0x0720 := by decide

/-- Copying the first `n` cells of row `y` from the row below. -/
theorem row_copy_cells (y n : Nat) (hn : n ≤ 80) (buf : Nat → Nat) (i : Nat) :
    (List.range n).foldl
      (fun buf x => Function.update buf (y * 80 + x) (buf ((y + 1) * 80 + x))) buf i =
      if y * 80 ≤ i ∧ i < y * 80 + n then buf (i + 80) else buf i := by
  induction n generalizing i with
  | zero =>
    have : ¬ (y * 80 ≤ i ∧ i < y * 80 + 0) := by omega
    rw [List.range_zero, List.foldl_nil, if_neg this]
  | succ n ih =>
    rw [List.range_succ, List.foldl_append, List.foldl_cons, List.foldl_nil]
    by_cases hi : i = y * 80 + n
    · subst hi
      rw [Function.update_same, ih (by omega)]
      have h1 : ¬ (y * 80 ≤ (y + 1) * 80 + n ∧ (y + 1) * 80 + n < y * 80 + n) := by omega
      have h2 : y * 80 ≤ y * 80 + n ∧ y * 80 + n < y * 80 + (n + 1) := by omega
      rw [if_neg h1, if_pos h2]
      congr 1
      omega
    · rw [Function.update_noteq hi, ih (by omega)]
      by_cases h : y * 80 ≤ i ∧ i < y * 80 + n
      · rw [if_pos h, if_pos (by omega)]
      · rw [if_neg h, if_neg (by omega)]

/-- Copying the first `m` rows, each from the row below. -/
theorem rows_copy_cells (m : Nat) (buf : Nat → Nat) (i : Nat) :
    (List.range m).foldl
      (fun buf y => (List.range 80).foldl
        (fun buf x => Function.update buf (y * 80 + x) (buf ((y + 1) * 80 + x))) buf)
      buf i =
      if i < m * 80 then buf (i + 80) else buf i := by
  induction m generalizing i with
  | zero => simp
  | succ m ih =>
    have hr : List.range (m + 1) = List.range m ++ [m] := List.range_succ m
    rw [hr, List.foldl_append, List.foldl_cons, List.foldl_nil,
      row_copy_cells m 80 (le_refl 80)]
    by_cases h : m * 80 ≤ i ∧ i < m * 80 + 80
    · rw [if_pos h, ih, if_neg (by omega), if_pos (by omega)]
    · rw [if_neg h, ih]
      by_cases h2 : i < m * 80
      · rw [if_pos h2, if_pos (by omega)]
      · rw [if_neg h2, if_neg (by omega)]

/-- Writing one value to `n` consecutive cells from `base`. -/
theorem fill_cells (base n v : Nat) (buf : Nat → Nat) (i : Nat) :
    (List.range n).foldl (fun buf x => Function.update buf (base + x) v) buf i =
      if base ≤ i ∧ i < base + n then v else buf i := by
  induction n generalizing i with
  | zero =>
    have : ¬ (base ≤ i ∧ i < base + 0) := by omega
    rw [List.range_zero, List.foldl_nil, if_neg this]
  | succ n ih =>
    rw [List.range_succ, List.foldl_append, List.foldl_cons, List.foldl_nil]
    by_cases hi : i = base + n
    · subst hi
      rw [Function.update_same, if_pos (by omega)]
    · rw [Function.update_noteq hi, ih]
      by_cases h : base ≤ i ∧ i < base + n
      · rw [if_pos h, if_pos (by omega)]
      · rw [if_neg h, if_neg (by omega)]

/-- The screen after scroll_screen: rows 0..23 hold what rows 1..24 held, row
24 is blank, and cells beyond the grid are as before. -/
theorem scroll_screen_cells (k : Kernel) (i : Nat) :
    (scroll_screen k).vga_buffer i =
      if i < 1920 then k.vga_buffer (i + 80)
      else if i < 2000 then 0x0720 else k.vga_buffer i := by
  have h := fill_cells 1920 80 0x0720
    ((List.range 24).foldl
      (fun buf y => (List.range 80).foldl
        (fun buf x => Function.update buf (y * 80 + x) (buf ((y + 1) * 80 + x))) buf)
      k.vga_buffer) i
  have e : (scroll_screen k).vga_buffer i =
      (List.range 80).foldl (fun buf x => Function.update buf (1920 + x) 0x0720)
        ((List.range 24).foldl
          (fun buf y => (List.range 80).foldl
            (fun buf x => Function.update buf (y * 80 + x) (buf ((y + 1) * 80 + x))) buf)
          k.vga_buffer) i := rfl
  rw [e, h, rows_copy_cells]
  clear e h
  split_ifs <;> first | rfl | omega

theorem scroll_screen_rest (k : Kernel) :
    scroll_screen k = { k with vga_buffer := (scroll_screen k).vga_buffer } := rfl

theorem u32_small (n : Nat) (h : n < 4294967296) : u32 n = n := Nat.mod_eq_of_lt h

theorem low_byte (p : Nat) : p &&& 0xFF = p % 256 :=
  Nat.and_pow_two_sub_one_eq_mod p 8

theorem high_byte (p : Nat) : p >>> 8 = p / 256 :=
  Nat.shiftRight_eq_div_pow p 8

/-- The effect of update_cursor when the linear offset fits in 16 bits: only
the four port writes are added. -/
theorem update_cursor_eq (k : Kernel) (h : k.cursor_y * 80 + k.cursor_x < 65536) :
    update_cursor k =
      { k with port_log := k.port_log ++ cursor_writes (k.cursor_y * 80 + k.cursor_x) } := by
  have h1 : u32 (k.cursor_y * 80 + k.cursor_x) % 65536 = k.cursor_y * 80 + k.cursor_x := by
    unfold u32
    omega
  have h2 : (k.cursor_y * 80 + k.cursor_x) / 256 % 256 = (k.cursor_y * 80 + k.cursor_x) / 256 := by
    omega
  simp only [update_cursor, outb, VGA_WIDTH, VGA_CTRL_REGISTER, VGA_DATA_REGISTER, h1,
    low_byte, high_byte, h2, cursor_writes, List.append_assoc, List.cons_append,
    List.nil_append, Nat.mod_mod]

theorem putchar_newline (k : Kernel) (hy : k.cursor_y < 24) :
    putchar k 10 = update_cursor { k with cursor_x := 0, cursor_y := k.cursor_y + 1 } := by
  have h1 : u32 (k.cursor_y + 1) = k.cursor_y + 1 := u32_small _ (by omega)
  have h2 : ¬ (k.cursor_y + 1 ≥ 25) := by omega
  simp only [putchar, if_true, h1, VGA_HEIGHT, h2, if_false]

theorem putchar_newline_last (k : Kernel) (hy : k.cursor_y = 24) :
    putchar k 10 =
      update_cursor { k with
        cursor_x := 0
        cursor_y := 24
        vga_buffer := (scroll_screen k).vga_buffer
        prompt_y := k.prompt_y - 1 } := by
  have h1 : u32 (k.cursor_y + 1) = 25 := by rw [hy]; rfl
  simp only [putchar, if_true, h1, VGA_HEIGHT, ge_iff_le, le_refl]
  by_cases hp : k.prompt_y > 0
  · simp only [scroll_screen, hp, if_true]
  · have : k.prompt_y = 0 := by omega
    simp only [scroll_screen, hp, if_false, this]
    rfl

theorem putchar_backspace_column (k : Kernel) (hx : 0 < k.cursor_x)
    (hb : k.cursor_y * 80 + k.cursor_x < 4294967296) :
    putchar k 8 =
      update_cursor { k with
        cursor_x := k.cursor_x - 1
        vga_buffer := Function.update k.vga_buffer (k.cursor_y * 80 + (k.cursor_x - 1)) 0x0720 } := by
  have h1 : u32 (k.cursor_y * 80 + (k.cursor_x - 1)) = k.cursor_y * 80 + (k.cursor_x - 1) :=
    u32_small _ (by omega)
  simp only [putchar, show ¬ ((8 : Int) = 10) by decide, if_false, if_true, hx, gt_iff_lt,
    VGA_WIDTH, h1, blank_cell]

theorem putchar_backspace_row (k : Kernel) (hx : k.cursor_x = 0) (hy : 0 < k.cursor_y)
    (hb : k.cursor_y * 80 < 4294967296) :
    putchar k 8 =
      update_cursor { k with
        cursor_y := k.cursor_y - 1
        cursor_x := 79
        vga_buffer := Function.update k.vga_buffer ((k.cursor_y - 1) * 80 + 79) 0x0720 } := by
  have h1 : u32 ((k.cursor_y - 1) * 80 + 79) = (k.cursor_y - 1) * 80 + 79 :=
    u32_small _ (by omega)
  simp only [putchar, show ¬ ((8 : Int) = 10) by decide, if_false, if_true, hx, hy, gt_iff_lt,
    lt_self_iff_false, VGA_WIDTH, h1, blank_cell]

theorem putchar_printable (k : Kernel) (c : Int) (hn : c ≠ 10) (hb : c ≠ 8)
    (hx : k.cursor_x < 80) (hy : k.cursor_y < 53687091) :
    putchar k c =
      update_cursor { k with
        vga_buffer := Function.update k.vga_buffer (k.cursor_y * 80 + k.cursor_x) (char_cell c)
        cursor_x := k.cursor_x + 1 } := by
  have h1 : u32 (k.cursor_y * 80 + k.cursor_x) = k.cursor_y * 80 + k.cursor_x :=
    u32_small _ (by omega)
  have h2 : u32 (k.cursor_x + 1) = k.cursor_x + 1 := u32_small _ (by omega)
  have h3 : ¬ (k.cursor_x ≥ 80) := by omega
  simp only [putchar, hn, hb, if_false, VGA_WIDTH, h3, h1, h2, char_cell]

theorem putchar_printable_wrap (k : Kernel) (c : Int) (hn : c ≠ 10) (hb : c ≠ 8)
    (hx : 80 ≤ k.cursor_x) (hy : k.cursor_y < 24) :
    putchar k c =
      update_cursor { k with
        cursor_y := k.cursor_y + 1
        vga_buffer := Function.update k.vga_buffer ((k.cursor_y + 1) * 80) (char_cell c)
        cursor_x := 1 } := by
  have h1 : u32 (k.cursor_y + 1) = k.cursor_y + 1 := u32_small _ (by omega)
  have h2 : ¬ (k.cursor_y + 1 ≥ 25) := by omega
  have h3 : u32 ((k.cursor_y + 1) * 80 + 0) = (k.cursor_y + 1) * 80 :=
    u32_small _ (by omega)
  have h4 : u32 (0 + 1) = 1 := rfl
  simp only [putchar, hn, hb, if_false, VGA_WIDTH, VGA_HEIGHT, hx, ge_iff_le, if_true, h1, h2,
    h3, h4, char_cell]

theorem putchar_printable_scroll (k : Kernel) (c : Int) (hn : c ≠ 10) (hb : c ≠ 8)
    (hx : 80 ≤ k.cursor_x) (hy : k.cursor_y = 24) :
    putchar k c =
      update_cursor { k with
        cursor_y := 24
        prompt_y := k.prompt_y - 1
        vga_buffer := Function.update (scroll_screen k).vga_buffer 1920 (char_cell c)
        cursor_x := 1 } := by
  have h1 : u32 (k.cursor_y + 1) = 25 := by rw [hy]; rfl
  have h3 : u32 (24 * 80 + 0) = 1920 := rfl
  have h4 : u32 (0 + 1) = 1 := rfl
  by_cases hp : k.prompt_y > 0
  · simp only [putchar, hn, hb, if_false, VGA_WIDTH, VGA_HEIGHT, hx, ge_iff_le, if_true, h1,
      le_refl, scroll_screen, hp, h3, h4, char_cell]
  · have h0 : k.prompt_y = 0 := by omega
    simp only [putchar, hn, hb, if_false, VGA_WIDTH, VGA_HEIGHT, hx, ge_iff_le, if_true, h1,
      le_refl, scroll_screen, h3, h4, char_cell, h0, gt_iff_lt, lt_self_iff_false,
      Nat.zero_sub]

theorem putchar_backspace_origin (k : Kernel) (hx : k.cursor_x = 0) (hy : k.cursor_y = 0) :
    putchar k 8 =
      update_cursor { k with vga_buffer := Function.update k.vga_buffer 0 0x0720 } := by
  have h1 : u32 (0 * 80 + 0) = 0 := rfl
  simp only [putchar, show ¬ ((8 : Int) = 10) by decide, if_false, if_true, hx, hy, gt_iff_lt,
    lt_self_iff_false, VGA_WIDTH, h1, blank_cell]

@[simp] theorem update_cursor_cursor_x (k : Kernel) :
    (update_cursor k).cursor_x = k.cursor_x := rfl

@[simp] theorem update_cursor_cursor_y (k : Kernel) :
    (update_cursor k).cursor_y = k.cursor_y := rfl

@[simp] theorem update_cursor_prompt_x (k : Kernel) :
    (update_cursor k).prompt_x = k.prompt_x := rfl

@[simp] theorem update_cursor_prompt_y (k : Kernel) :
    (update_cursor k).prompt_y = k.prompt_y := rfl

@[simp] theorem update_cursor_vga_buffer (k : Kernel) :
    (update_cursor k).vga_buffer = k.vga_buffer := rfl

/-- Printable characters written from a column that leaves room for all of
them stay on the row: the cursor advances by their number, the cells written
hold the characters, and nothing else on the screen or in the prompt anchor
changes. -/
theorem print_row (cs : List Int) : ∀ k : Kernel,
    (∀ c ∈ cs, c ≠ 10 ∧ c ≠ 8) → k.cursor_x + cs.length ≤ 80 → k.cursor_y ≤ 24 →
    (cs.foldl putchar k).cursor_x = k.cursor_x + cs.length ∧
    (cs.foldl putchar k).cursor_y = k.cursor_y ∧
    (cs.foldl putchar k).prompt_x = k.prompt_x ∧
    (cs.foldl putchar k).prompt_y = k.prompt_y ∧
    (∀ i, i < k.cursor_y * 80 + k.cursor_x ∨ k.cursor_y * 80 + k.cursor_x + cs.length ≤ i →
      (cs.foldl putchar k).vga_buffer i = k.vga_buffer i) ∧
    (∀ j, j < cs.length →
      (cs.foldl putchar k).vga_buffer (k.cursor_y * 80 + k.cursor_x + j)
        = char_cell (cs.getD j 0)) := by
  induction cs with
  | nil =>
    intro k _ _ _
    simp
  | cons c cs ih =>
    intro k hcs hx hy
    simp only [List.length_cons] at hx
    have hc := hcs c (List.mem_cons_self c cs)
    have hstep := putchar_printable k c hc.1 hc.2 (by omega) (by omega)
    obtain ⟨a1, a2, a3, a4, a5, a6⟩ := ih (putchar k c)
      (fun d hd => hcs d (List.mem_cons_of_mem c hd))
      (by rw [hstep]; simp only [update_cursor_cursor_x]; omega)
      (by rw [hstep]; simp only [update_cursor_cursor_y]; omega)
    have ex : (putchar k c).cursor_x = k.cursor_x + 1 := by rw [hstep]; rfl
    have ey : (putchar k c).cursor_y = k.cursor_y := by rw [hstep]; rfl
    have ev : (putchar k c).vga_buffer =
        Function.update k.vga_buffer (k.cursor_y * 80 + k.cursor_x) (char_cell c) := by
      rw [hstep]; rfl
    rw [List.foldl_cons]
    refine ⟨?_, ?_, ?_, ?_, ?_, ?_⟩
    · rw [a1, ex, List.length_cons]; omega
    · rw [a2, ey]
    · rw [a3, hstep]; rfl
    · rw [a4, hstep]; rfl
    · intro i hi
      rw [List.length_cons] at hi
      rw [a5 i (by rw [ex, ey]; omega), ev, Function.update_noteq (by omega)]
    · intro j hj
      rw [List.length_cons] at hj
      cases j with
      | zero =>
        rw [a5 _ (by rw [ex, ey]; omega), ev, Nat.add_zero, Function.update_same]
        rfl
      | succ j =>
        have := a6 j (by omega)
        rw [ex, ey] at this
        rw [List.getD_cons_succ, ← this]
        congr 1
        omega

/-! ## Console claims -/

set_option maxRecDepth 100000 in
/-- C12, as stated, fails: after clear_screen (cursor at row 0, column 0) and
80 printable characters 'x', the cursor variables are column 80 of row 0, not
column 0 of row 1. -/
theorem auto_wrap_counterexample :
    ((List.replicate 80 (120 : Int)).foldl putchar (clear_screen boot_kernel)).cursor_x = 80 ∧
    ((List.replicate 80 (120 : Int)).foldl putchar (clear_screen boot_kernel)).cursor_y = 0 ∧
    ¬ (((List.replicate 80 (120 : Int)).foldl putchar (clear_screen boot_kernel)).cursor_y
          = 0 + 1 ∧
        ((List.replicate 80 (120 : Int)).foldl putchar (clear_screen boot_kernel)).cursor_x
          = 0) := by
  decide

/-- C12, amended. Deferred auto-wrap: for every row r < 24, starting at column
0 of row r, putchar on exactly 80 printable characters leaves cursor_x = 80 and
cursor_y = r, a position whose linear offset is that of column 0 of row r + 1;
row r holds the 80 characters, no other cell and no prompt-anchor field has
changed (no scroll); the next printable putchar moves to row r + 1 before it
writes, at column 0, and leaves the cursor at column 1 of row r + 1. -/
theorem auto_wrap_deferred (k : Kernel) (r : Nat) (cs : List Int) (c : Int)
    (hr : r < 24) (hx : k.cursor_x = 0) (hy : k.cursor_y = r) (hlen : cs.length = 80)
    (hcs : ∀ d ∈ cs, d ≠ 10 ∧ d ≠ 8) (hc : c ≠ 10 ∧ c ≠ 8) :
    (cs.foldl putchar k).cursor_x = 80 ∧
    (cs.foldl putchar k).cursor_y = r ∧
    (cs.foldl putchar k).cursor_y * 80 + (cs.foldl putchar k).cursor_x = (r + 1) * 80 + 0 ∧
    (∀ j, j < 80 → (cs.foldl putchar k).vga_buffer (r * 80 + j) = char_cell (cs.getD j 0)) ∧
    (∀ i, i < r * 80 ∨ (r + 1) * 80 ≤ i →
      (cs.foldl putchar k).vga_buffer i = k.vga_buffer i) ∧
    (cs.foldl putchar k).prompt_x = k.prompt_x ∧
    (cs.foldl putchar k).prompt_y = k.prompt_y ∧
    (putchar (cs.foldl putchar k) c).cursor_y = r + 1 ∧
    (putchar (cs.foldl putchar k) c).cursor_x = 1 ∧
    (putchar (cs.foldl putchar k) c).vga_buffer ((r + 1) * 80) = char_cell c := by
  obtain ⟨a1, a2, a3, a4, a5, a6⟩ := print_row cs k hcs (by omega) (by omega)
  simp only [hx, hy, hlen, Nat.add_zero, Nat.zero_add] at a1 a2 a5 a6
  have hnext := putchar_printable_wrap (cs.foldl putchar k) c hc.1 hc.2 (by omega) (by omega)
  refine ⟨by omega, a2, by rw [a1, a2]; omega, ?_, ?_, a3, a4, ?_, ?_, ?_⟩
  · intro j hj
    exact a6 j hj
  · intro i hi
    exact a5 i (by omega)
  · rw [hnext, update_cursor_cursor_y, a2]
  · rw [hnext, update_cursor_cursor_x]
  · rw [hnext, update_cursor_vga_buffer, a2]
    exact Function.update_same _ _ _

theorem auto_wrap_deferred_witness :
    ((List.replicate 80 (120 : Int)).foldl putchar (clear_screen boot_kernel)).cursor_x = 80 ∧
    ((List.replicate 80 (120 : Int)).foldl putchar (clear_screen boot_kernel)).cursor_y = 0 ∧
    (putchar ((List.replicate 80 (120 : Int)).foldl putchar (clear_screen boot_kernel))
      121).cursor_y = 0 + 1 :=
  have h := auto_wrap_deferred (clear_screen boot_kernel) 0 (List.replicate 80 120) 121
    (by decide) rfl rfl (List.length_replicate 80 120)
    (fun d hd => by rw [List.eq_of_mem_replicate hd]; decide) (by decide)
  ⟨h.1, h.2.1, h.2.2.2.2.2.2.2.1⟩

/-- C13. Scroll on overflow: with the cursor on row 24, a newline, or a
printable character written when the column is at or past 80, scrolls once:
each cell of rows 0..23 takes the old value of the cell below it, row 24 is
blank (0x0720) apart from the cell the printable call writes at column 0,
cursor_y is 24, and prompt_y is one less if it was above 0 and 0 otherwise. -/
theorem scroll_on_overflow (k : Kernel) (c : Int) (hy : k.cursor_y = 24) :
    ((∀ r x, r < 24 → x < 80 →
        (putchar k 10).vga_buffer (r * 80 + x) = k.vga_buffer ((r + 1) * 80 + x)) ∧
      (∀ x, x < 80 → (putchar k 10).vga_buffer (24 * 80 + x) = 0x0720) ∧
      (putchar k 10).cursor_y = 24 ∧
      (putchar k 10).cursor_x = 0 ∧
      (putchar k 10).prompt_y = (if k.prompt_y > 0 then k.prompt_y - 1 else 0) ∧
      (putchar k 10).prompt_x = k.prompt_x) ∧
    (c ≠ 10 → c ≠ 8 → 80 ≤ k.cursor_x →
      (∀ r x, r < 24 → x < 80 →
        (putchar k c).vga_buffer (r * 80 + x) = k.vga_buffer ((r + 1) * 80 + x)) ∧
      (∀ x, 0 < x → x < 80 → (putchar k c).vga_buffer (24 * 80 + x) = 0x0720) ∧
      (putchar k c).vga_buffer (24 * 80) = char_cell c ∧
      (putchar k c).cursor_y = 24 ∧
      (putchar k c).cursor_x = 1 ∧
      (putchar k c).prompt_y = (if k.prompt_y > 0 then k.prompt_y - 1 else 0) ∧
      (putchar k c).prompt_x = k.prompt_x) := by
  have hprompt : k.prompt_y - 1 = if k.prompt_y > 0 then k.prompt_y - 1 else 0 := by
    split <;> omega
  constructor
  · rw [putchar_newline_last k hy]
    refine ⟨?_, ?_, rfl, rfl, hprompt, rfl⟩
    · intro r x hr hx
      simp only [update_cursor_vga_buffer]
      rw [scroll_screen_cells, if_pos (by omega)]
      congr 1
      omega
    · intro x hx
      simp only [update_cursor_vga_buffer]
      rw [scroll_screen_cells, if_neg (by omega), if_pos (by omega)]
  · intro hn hb hx
    rw [putchar_printable_scroll k c hn hb hx hy]
    refine ⟨?_, ?_, ?_, rfl, rfl, hprompt, rfl⟩
    · intro r x hr hx
      simp only [update_cursor_vga_buffer]
      rw [Function.update_noteq (by omega), scroll_screen_cells, if_pos (by omega)]
      congr 1
      omega
    · intro x h0 hx
      simp only [update_cursor_vga_buffer]
      rw [Function.update_noteq (by omega), scroll_screen_cells, if_neg (by omega),
        if_pos (by omega)]
    · simp only [update_cursor_vga_buffer]
      exact Function.update_same _ _ _

theorem scroll_on_overflow_witness :
    last_row_kernel.cursor_y = 24 ∧ 80 ≤ last_row_kernel.cursor_x ∧
    (putchar last_row_kernel 120).vga_buffer (3 * 80 + 7) = (3 + 1) * 80 + 7 ∧
    (putchar last_row_kernel 120).vga_buffer (24 * 80 + 5) = 0x0720 ∧
    (putchar last_row_kernel 120).prompt_y = 4 ∧
    (putchar last_row_kernel 10).prompt_y = 4 :=
  have h := scroll_on_overflow last_row_kernel 120 rfl
  have h2 := h.2 (by decide) (by decide) (by decide)
  ⟨rfl, by decide, h2.1 3 7 (by decide) (by decide), h2.2.1 5 (by decide) (by decide),
    h2.2.2.2.2.2.1, h.1.2.2.2.2.1⟩

/-- C14. Backspace: with the cursor at a column x > 0, putchar('\b') moves it
to column x - 1 of the same row; at column 0 of a row y > 0 it moves it to
column 79 of row y - 1; in both cases the cell at the new cursor position
becomes blank (0x0720), no other cell changes and the prompt anchor is
unchanged. The linear offset of the cursor is assumed to fit in 32 bits, as it
does for every position of the grid. -/
theorem backspace_blanks_cell (k : Kernel) (hfit : k.cursor_y * 80 + k.cursor_x < 4294967296) :
    (0 < k.cursor_x →
      (putchar k 8).cursor_x = k.cursor_x - 1 ∧
      (putchar k 8).cursor_y = k.cursor_y ∧
      (putchar k 8).vga_buffer (k.cursor_y * 80 + (k.cursor_x - 1)) = 0x0720 ∧
      (∀ i, i ≠ k.cursor_y * 80 + (k.cursor_x - 1) →
        (putchar k 8).vga_buffer i = k.vga_buffer i) ∧
      (putchar k 8).prompt_x = k.prompt_x ∧
      (putchar k 8).prompt_y = k.prompt_y) ∧
    (k.cursor_x = 0 → 0 < k.cursor_y →
      (putchar k 8).cursor_x = 79 ∧
      (putchar k 8).cursor_y = k.cursor_y - 1 ∧
      (putchar k 8).vga_buffer ((k.cursor_y - 1) * 80 + 79) = 0x0720 ∧
      (∀ i, i ≠ (k.cursor_y - 1) * 80 + 79 →
        (putchar k 8).vga_buffer i = k.vga_buffer i) ∧
      (putchar k 8).prompt_x = k.prompt_x ∧
      (putchar k 8).prompt_y = k.prompt_y) := by
  constructor
  · intro hx
    rw [putchar_backspace_column k hx hfit]
    refine ⟨rfl, rfl, ?_, ?_, rfl, rfl⟩
    · simp only [update_cursor_vga_buffer]
      exact Function.update_same _ _ _
    · intro i hi
      simp only [update_cursor_vga_buffer]
      exact Function.update_noteq hi _ _
  · intro hx hy
    rw [putchar_backspace_row k hx hy (by omega)]
    refine ⟨rfl, rfl, ?_, ?_, rfl, rfl⟩
    · simp only [update_cursor_vga_buffer]
      exact Function.update_same _ _ _
    · intro i hi
      simp only [update_cursor_vga_buffer]
      exact Function.update_noteq hi _ _

theorem backspace_blanks_cell_witness :
    (last_row_kernel.cursor_y * 80 + last_row_kernel.cursor_x < 4294967296 ∧
      0 < last_row_kernel.cursor_x) ∧
    (putchar last_row_kernel 8).cursor_x = 79 ∧
    (putchar last_row_kernel 8).vga_buffer (24 * 80 + 79) = 0x0720 ∧
    (boot_kernel.cursor_x = 0 ∧ 0 < boot_kernel.cursor_y) ∧
    (putchar boot_kernel 8).cursor_x = 79 ∧
    (putchar boot_kernel 8).cursor_y = 2 - 1 :=
  ⟨by decide, ((backspace_blanks_cell last_row_kernel (by decide)).1 (by decide)).1,
    ((backspace_blanks_cell last_row_kernel (by decide)).1 (by decide)).2.2.1, by decide,
    ((backspace_blanks_cell boot_kernel (by decide)).2 rfl (by decide)).1,
    ((backspace_blanks_cell boot_kernel (by decide)).2 rfl (by decide)).2.1⟩

/-- C17. Newline: on a row y < 24, putchar('\n') sets the column to 0 and the
row to y + 1, and changes no screen cell and no prompt-anchor field. -/
theorem newline_advances_row (k : Kernel) (hy : k.cursor_y < 24) :
    (putchar k 10).cursor_x = 0 ∧
    (putchar k 10).cursor_y = k.cursor_y + 1 ∧
    (putchar k 10).vga_buffer = k.vga_buffer ∧
    (putchar k 10).prompt_x = k.prompt_x ∧
    (putchar k 10).prompt_y = k.prompt_y := by
  rw [putchar_newline k hy]
  exact ⟨rfl, rfl, rfl, rfl, rfl⟩

theorem newline_advances_row_witness :
    boot_kernel.cursor_y < 24 ∧
    (putchar boot_kernel 10).cursor_x = 0 ∧ (putchar boot_kernel 10).cursor_y = 2 + 1 :=
  ⟨by decide, (newline_advances_row boot_kernel (by decide)).1,
    (newline_advances_row boot_kernel (by decide)).2.1⟩

/-- C15. Backspace never erases past the prompt: in the input loop of
run_shell, when the character read is '\b' and the cursor is at the prompt
anchor or before it, or cmd_index is 0, the step leaves the whole state
(screen cells, cursor, cmd_index, command_buffer included) unchanged and stays
in the loop. -/
theorem backspace_at_prompt (k : Kernel)
    (h : (k.cursor_y < k.prompt_y ∨ (k.cursor_y = k.prompt_y ∧ k.cursor_x ≤ k.prompt_x)) ∨
      k.cmd_index = 0) :
    shell_input_char k 8 = (k, false) := by
  have h10 : ¬ ((8 : Int) = 10) := by decide
  have h32 : ¬ ((8 : Int) ≥ 32) := by decide
  by_cases hi : k.cmd_index > 0
  · have hcur : ¬ (k.cursor_y > k.prompt_y ∨
        (k.cursor_y = k.prompt_y ∧ k.cursor_x > k.prompt_x)) := by omega
    simp only [shell_input_char, h10, if_false, hi, and_self, if_true, hcur]
  · simp only [shell_input_char, h10, if_false, hi, and_false, h32, false_and]

theorem backspace_at_prompt_witness :
    ((at_prompt_kernel.cursor_y < at_prompt_kernel.prompt_y ∨
        (at_prompt_kernel.cursor_y = at_prompt_kernel.prompt_y ∧
          at_prompt_kernel.cursor_x ≤ at_prompt_kernel.prompt_x)) ∨
      at_prompt_kernel.cmd_index = 0) ∧
    shell_input_char at_prompt_kernel 8 = (at_prompt_kernel, false) :=
  ⟨by decide, backspace_at_prompt at_prompt_kernel (by decide)⟩

/-- For a character in 0..127 the cell putchar stores has the character in
its low byte and the attribute 0x07 in its high byte. -/
theorem char_cell_ascii (c : Int) (h0 : 0 ≤ c) (h1 : c ≤ 127) :
    char_cell c = 0x07 * 256 + c.toNat := by
  interval_cases c <;> rfl

/-- For a negative character the sign extension of the promotion to int fills
the high byte: the cell putchar stores is 0xFF00 plus the character's byte. -/
theorem char_cell_negative (c : Int) (h0 : -128 ≤ c) (h1 : c < 0) :
    char_cell c = 0xFF * 256 + (c + 256).toNat := by
  interval_cases c <;> rfl

/-- The part of C16 the code meets: for a character in 0..127 other than '\n'
and '\b', with the cursor at column x < 80 of row y < 25, putchar stores
0x0700 + c at cell y*80 + x, changes no other cell, keeps the row and advances
the column by one. -/
theorem printable_write_ascii (k : Kernel) (c : Int) (h0 : 0 ≤ c) (h1 : c ≤ 127)
    (hn : c ≠ 10) (hb : c ≠ 8) (hx : k.cursor_x < 80) (hy : k.cursor_y < 25) :
    (putchar k c).vga_buffer (k.cursor_y * 80 + k.cursor_x) = 0x07 * 256 + c.toNat ∧
    (∀ i, i ≠ k.cursor_y * 80 + k.cursor_x → (putchar k c).vga_buffer i = k.vga_buffer i) ∧
    (putchar k c).cursor_y = k.cursor_y ∧
    (putchar k c).cursor_x = k.cursor_x + 1 := by
  rw [putchar_printable k c hn hb hx (by omega)]
  refine ⟨?_, ?_, rfl, rfl⟩
  · simp only [update_cursor_vga_buffer]
    rw [Function.update_same, char_cell_ascii c h0 h1]
  · intro i hi
    simp only [update_cursor_vga_buffer]
    exact Function.update_noteq hi _ _

/-- C16 at a failing input: after clear_screen (cursor at row 0, column 0),
putchar of the character -95 (byte 0xA1, neither '\n' nor '\b') stores 0xFFA1
at cell 0: the low byte is the character but the high byte is 0xFF, not the
attribute 0x07. -/
theorem printable_write_sign_extension :
    (clear_screen boot_kernel).cursor_x = 0 ∧ (clear_screen boot_kernel).cursor_y = 0 ∧
    (putchar (clear_screen boot_kernel) (-95)).vga_buffer (0 * 80 + 0) = 0xFFA1 ∧
    (putchar (clear_screen boot_kernel) (-95)).vga_buffer (0 * 80 + 0) % 256 = 0xA1 ∧
    (putchar (clear_screen boot_kernel) (-95)).vga_buffer (0 * 80 + 0) / 256 = 0xFF ∧
    (putchar (clear_screen boot_kernel) (-95)).vga_buffer (0 * 80 + 0) / 256 ≠ 0x07 := by
  decide

/-- Every putchar call from a cursor within row 24 and column 80 is an
update_cursor call on a state with the same port record and a cursor within
the same bounds. -/
theorem putchar_sync (k : Kernel) (c : Int) (hy : k.cursor_y < 25) (hx : k.cursor_x ≤ 80) :
    ∃ k1, putchar k c = update_cursor k1 ∧ k1.port_log = k.port_log ∧
      k1.cursor_y < 25 ∧ k1.cursor_x ≤ 80 := by
  by_cases hn : c = 10
  · subst hn
    by_cases h24 : k.cursor_y < 24
    · exact ⟨_, putchar_newline k h24, rfl, by simp only; omega, by simp only; omega⟩
    · exact ⟨_, putchar_newline_last k (by omega), rfl, by simp only; omega,
        by simp only; omega⟩
  · by_cases hb : c = 8
    · subst hb
      by_cases h0 : 0 < k.cursor_x
      · exact ⟨_, putchar_backspace_column k h0 (by omega), rfl, by simp only; omega,
          by simp only; omega⟩
      · by_cases hy0 : 0 < k.cursor_y
        · exact ⟨_, putchar_backspace_row k (by omega) hy0 (by omega), rfl,
            by simp only; omega, by simp only; omega⟩
        · exact ⟨_, putchar_backspace_origin k (by omega) (by omega), rfl,
            by simp only; omega, by simp only; omega⟩
    · by_cases h80 : k.cursor_x < 80
      · exact ⟨_, putchar_printable k c hn hb h80 (by omega), rfl, by simp only; omega,
          by simp only; omega⟩
      · by_cases h24 : k.cursor_y < 24
        · exact ⟨_, putchar_printable_wrap k c hn hb (by omega) h24, rfl,
            by simp only; omega, by simp only; omega⟩
        · exact ⟨_, putchar_printable_scroll k c hn hb (by omega) (by omega), rfl,
            by simp only; omega, by simp only; omega⟩

/-- Every putchar call, from any cursor, ends with update_cursor, and makes
no other port access. -/
theorem putchar_ends_with_update_cursor (k : Kernel) (c : Int) :
    ∃ k1, putchar k c = update_cursor k1 ∧ k1.port_log = k.port_log := by
  simp only [putchar]
  split_ifs <;> exact ⟨_, rfl, rfl⟩

theorem clear_screen_eq (k : Kernel) :
    ∃ buf, clear_screen k =
      update_cursor { k with vga_buffer := buf, cursor_x := 0, cursor_y := 0 } :=
  ⟨_, rfl⟩

/-- The four port writes of update_cursor, for any cursor. -/
theorem update_cursor_writes (k : Kernel) :
    update_cursor k =
      { k with port_log := k.port_log ++
          [PortEvent.outb 0x3D4 14,
           PortEvent.outb 0x3D5 ((u32 (k.cursor_y * 80 + k.cursor_x) % 65536) >>> 8 % 256),
           PortEvent.outb 0x3D4 15,
           PortEvent.outb 0x3D5 (((u32 (k.cursor_y * 80 + k.cursor_x) % 65536) &&& 0xFF) % 256)] } := by
  simp only [update_cursor, outb, VGA_WIDTH, VGA_CTRL_REGISTER, VGA_DATA_REGISTER,
    List.append_assoc, List.cons_append, List.nil_append]

/-- C18. Hardware cursor sync: update_cursor adds exactly four port writes, to
0x3D4 (14), 0x3D5, 0x3D4 (15), 0x3D5 in that order, and changes nothing else;
for a cursor with row < 25 and column <= 80 the two data bytes are hi and lo
with hi*256 + lo = cursor_y*80 + cursor_x, nothing truncated. Every putchar and
clear_screen call ends with update_cursor and makes no other port access, so
from a cursor within those bounds putchar adds exactly the four writes for the
cursor position it leaves, which is again within the bounds, and clear_screen
adds exactly the four writes for the position (0, 0) it leaves. -/
theorem hardware_cursor_sync (k : Kernel) (c : Int) :
    (∃ hi lo, update_cursor k =
      { k with port_log := k.port_log ++
          [PortEvent.outb 0x3D4 14, PortEvent.outb 0x3D5 hi,
           PortEvent.outb 0x3D4 15, PortEvent.outb 0x3D5 lo] }) ∧
    (k.cursor_y < 25 → k.cursor_x ≤ 80 →
      update_cursor k =
        { k with port_log := k.port_log ++
            [PortEvent.outb 0x3D4 14,
             PortEvent.outb 0x3D5 ((k.cursor_y * 80 + k.cursor_x) / 256),
             PortEvent.outb 0x3D4 15,
             PortEvent.outb 0x3D5 ((k.cursor_y * 80 + k.cursor_x) % 256)] } ∧
      (k.cursor_y * 80 + k.cursor_x) / 256 * 256 + (k.cursor_y * 80 + k.cursor_x) % 256
        = k.cursor_y * 80 + k.cursor_x ∧
      (k.cursor_y * 80 + k.cursor_x) / 256 < 256) ∧
    (∃ k1, putchar k c = update_cursor k1 ∧ k1.port_log = k.port_log) ∧
    (∃ k1, clear_screen k = update_cursor k1 ∧ k1.port_log = k.port_log) ∧
    (k.cursor_y < 25 → k.cursor_x ≤ 80 →
      (putchar k c).port_log = k.port_log ++
        cursor_writes ((putchar k c).cursor_y * 80 + (putchar k c).cursor_x) ∧
      (putchar k c).cursor_y < 25 ∧ (putchar k c).cursor_x ≤ 80) ∧
    ((clear_screen k).port_log = k.port_log ++
        cursor_writes ((clear_screen k).cursor_y * 80 + (clear_screen k).cursor_x) ∧
      (clear_screen k).cursor_y = 0 ∧ (clear_screen k).cursor_x = 0) := by
  obtain ⟨buf, hbuf⟩ := clear_screen_eq k
  refine ⟨⟨_, _, update_cursor_writes k⟩, ?_, putchar_ends_with_update_cursor k c,
    ⟨_, hbuf, rfl⟩, ?_, ?_⟩
  · intro hy hx
    exact ⟨update_cursor_eq k (by omega), by omega, by omega⟩
  · intro hy hx
    obtain ⟨k1, h1, hlog, hy1, hx1⟩ := putchar_sync k c hy hx
    rw [h1, update_cursor_eq k1 (by omega)]
    simp only [hlog]
    exact ⟨trivial, hy1, hx1⟩
  · rw [hbuf, update_cursor_eq _ (by simp only; omega)]
    exact ⟨rfl, rfl, rfl⟩

theorem hardware_cursor_sync_witness :
    (last_row_kernel.cursor_y < 25 ∧ last_row_kernel.cursor_x ≤ 80) ∧
    (update_cursor last_row_kernel).port_log =
      [PortEvent.outb 0x3D4 14, PortEvent.outb 0x3D5 7,
       PortEvent.outb 0x3D4 15, PortEvent.outb 0x3D5 208] ∧
    7 * 256 + 208 = 24 * 80 + 80 ∧
    (putchar last_row_kernel 120).port_log = cursor_writes (24 * 80 + 1) :=
  have h := hardware_cursor_sync last_row_kernel 120
  ⟨by decide, congrArg Kernel.port_log (h.2.1 (by decide) (by decide)).1, by decide,
    (h.2.2.2.2.1 (by decide) (by decide)).1⟩

/-! ## Timer, scheduler and IRQ dispatch lemmas -/

/-- When schedule returns, it has changed at most the process table and
current_process. -/
theorem schedule_frame (k k2 : Kernel) (h : schedule k = some k2) :
    ∃ table cur, k2 = { k with process_table := table, current_process := cur } := by
  unfold schedule at h
  split at h
  · cases h
  · dsimp only at h
    split at h
    · cases h
    · split at h
      · cases h
      · cases h
        exact ⟨_, _, rfl⟩
      · split at h
        · cases h
          exact ⟨_, _, rfl⟩
        · cases h
          exact ⟨_, _, rfl⟩

/-- When timer_handler returns, the tick counter has advanced by one (modulo
2^32) and at most the process table and current_process have changed
besides. -/
theorem timer_handler_frame (k k2 : Kernel) (h : timer_handler k = some k2) :
    ∃ table cur, k2 =
      { k with
        timer_ticks := u32 (k.timer_ticks + 1)
        process_table := table
        current_process := cur } := by
  simp only [timer_handler] at h
  split at h
  · obtain ⟨table, cur, e⟩ := schedule_frame _ _ h
    exact ⟨table, cur, e⟩
  · cases h
    exact ⟨_, _, rfl⟩

theorem u32_succ_ne (t : Nat) : u32 (t + 1) ≠ t := by
  unfold u32
  omega

/-- The state irq_handler has reached after the acknowledgment writes. -/
theorem irq_handler_eq (hw : Hardware) (k : Kernel) (regs : Registers) :
    irq_handler hw k regs =
      if regs.int_no = 32 then
        timer_handler { k with port_log := k.port_log ++ eoi_writes regs.int_no }
      else if regs.int_no = 33 then
        some (keyboard_handler hw { k with port_log := k.port_log ++ eoi_writes regs.int_no })
      else some { k with port_log := k.port_log ++ eoi_writes regs.int_no } := by
  have hack : outb (if regs.int_no ≥ 40 then outb k 0xA0 0x20 else k) 0x20 0x20 =
      { k with port_log := k.port_log ++ eoi_writes regs.int_no } := by
    unfold eoi_writes
    split
    · simp only [outb, List.append_assoc, List.cons_append, List.nil_append]
    · rfl
  simp only [irq_handler, hack]

/-- C19. EOI ordering: for int_no >= 40 irq_handler writes (0xA0, 0x20) and then
(0x20, 0x20) and does nothing else; for 32 <= int_no < 40 the first port access
is the write (0x20, 0x20) and no other port write follows; for the vectors 32
and 33 the timer or keyboard handler runs on the state that already holds the
acknowledgment writes. -/
theorem eoi_ordering (hw : Hardware) (k : Kernel) (regs : Registers) :
    (40 ≤ regs.int_no →
      irq_handler hw k regs =
        some { k with port_log := k.port_log ++
          [PortEvent.outb 0xA0 0x20, PortEvent.outb 0x20 0x20] }) ∧
    (32 ≤ regs.int_no → regs.int_no < 40 →
      ∀ k2, irq_handler hw k regs = some k2 →
        ∃ rest, k2.port_log = k.port_log ++ PortEvent.outb 0x20 0x20 :: rest ∧
          ∀ e ∈ rest, is_read e = true) ∧
    (regs.int_no = 32 →
      irq_handler hw k regs =
        timer_handler { k with port_log := k.port_log ++ [PortEvent.outb 0x20 0x20] }) ∧
    (regs.int_no = 33 →
      irq_handler hw k regs =
        some (keyboard_handler hw
          { k with port_log := k.port_log ++ [PortEvent.outb 0x20 0x20] }) ∧
      (keyboard_handler hw
          { k with port_log := k.port_log ++ [PortEvent.outb 0x20 0x20] }).port_log =
        k.port_log ++ [PortEvent.outb 0x20 0x20,
          PortEvent.inb 0x60 (hw (k.port_log ++ [PortEvent.outb 0x20 0x20]) 0x60 % 256)]) := by
  have heq := irq_handler_eq hw k regs
  have hkb : (keyboard_handler hw
        { k with port_log := k.port_log ++ [PortEvent.outb 0x20 0x20] }).port_log =
      k.port_log ++ [PortEvent.outb 0x20 0x20,
        PortEvent.inb 0x60 (hw (k.port_log ++ [PortEvent.outb 0x20 0x20]) 0x60 % 256)] := by
    simp only [keyboard_handler, inb, List.append_assoc, List.cons_append, List.nil_append]
  refine ⟨?_, ?_, ?_, ?_⟩
  · intro h40
    rw [heq, if_neg (by omega), if_neg (by omega)]
    simp only [eoi_writes, h40, ge_iff_le, if_true]
  · intro h32 h40 k2 hk2
    have hw1 : eoi_writes regs.int_no = [PortEvent.outb 0x20 0x20] := by
      simp only [eoi_writes, ge_iff_le, show ¬ (40 ≤ regs.int_no) by omega, if_false]
    rw [heq, hw1] at hk2
    split at hk2
    · obtain ⟨table, cur, e⟩ := timer_handler_frame _ _ hk2
      refine ⟨[], ?_, by simp⟩
      rw [e]
    · split at hk2
      · cases hk2
        refine ⟨[PortEvent.inb 0x60 (hw (k.port_log ++ [PortEvent.outb 0x20 0x20]) 0x60 % 256)],
          ?_, by simp [is_read]⟩
        rw [hkb]
      · cases hk2
        exact ⟨[], rfl, by simp⟩
  · intro h
    rw [heq, if_pos h, h]
    rfl
  · intro h
    rw [heq, if_neg (by omega), if_pos h, h]
    exact ⟨rfl, hkb⟩

theorem eoi_ordering_witness :
    (40 ≤ (frame 44).int_no ∧
      irq_handler idle_hardware boot_kernel (frame 44) =
        some { boot_kernel with port_log :=
          [PortEvent.outb 0xA0 0x20, PortEvent.outb 0x20 0x20] }) ∧
    ((frame 33).int_no = 33 ∧
      (keyboard_handler idle_hardware
          { boot_kernel with port_log := [PortEvent.outb 0x20 0x20] }).port_log =
        [PortEvent.outb 0x20 0x20, PortEvent.inb 0x60 0]) :=
  ⟨⟨by decide, (eoi_ordering idle_hardware boot_kernel (frame 44)).1 (by decide)⟩,
    rfl, ((eoi_ordering idle_hardware boot_kernel (frame 33)).2.2.2 rfl).2⟩

theorem eoi_writes_reads (n : Nat) : List.countP is_read (eoi_writes n) = 0 := by
  unfold eoi_writes
  split <;> rfl

/-- C20. IRQ dispatch: irq_handler runs timer_handler, once, exactly for vector
32 (the tick counter advances by one for that vector and is unchanged for every
other), and keyboard_handler, once, exactly for vector 33 (one port read is
made for that vector and none for any other, and the keyboard state is
unchanged for every other); for any other vector the state irq_handler leaves
differs from the one it was given only by the end-of-interrupt writes. -/
theorem irq_dispatch (hw : Hardware) (k : Kernel) (regs : Registers) :
    (regs.int_no = 32 →
      irq_handler hw k regs =
        timer_handler { k with port_log := k.port_log ++ eoi_writes regs.int_no }) ∧
    (regs.int_no = 33 →
      irq_handler hw k regs =
        some (keyboard_handler hw
          { k with port_log := k.port_log ++ eoi_writes regs.int_no })) ∧
    (regs.int_no ≠ 32 → regs.int_no ≠ 33 →
      irq_handler hw k regs =
        some { k with port_log := k.port_log ++ eoi_writes regs.int_no }) ∧
    (∀ k2, irq_handler hw k regs = some k2 →
      k2.timer_ticks = (if regs.int_no = 32 then u32 (k.timer_ticks + 1) else k.timer_ticks) ∧
      (k2.timer_ticks ≠ k.timer_ticks ↔ regs.int_no = 32) ∧
      List.countP is_read k2.port_log =
        List.countP is_read k.port_log + (if regs.int_no = 33 then 1 else 0) ∧
      k2.keyboard =
        (if regs.int_no = 33 then
          process_scancode k.keyboard (hw (k.port_log ++ eoi_writes regs.int_no) 0x60 % 256)
        else k.keyboard)) := by
  have heq := irq_handler_eq hw k regs
  refine ⟨?_, ?_, ?_, ?_⟩
  · intro h
    rw [heq, if_pos h]
  · intro h
    rw [heq, if_neg (by omega), if_pos h]
  · intro h1 h2
    rw [heq, if_neg h1, if_neg h2]
  · intro k2 hk2
    rw [heq] at hk2
    by_cases h32 : regs.int_no = 32
    · rw [if_pos h32] at hk2
      obtain ⟨table, cur, e⟩ := timer_handler_frame _ _ hk2
      have h33 : ¬ (regs.int_no = 33) := by omega
      rw [e, if_pos h32, if_neg h33, if_neg h33]
      refine ⟨rfl, ⟨fun _ => h32, fun _ => u32_succ_ne _⟩, ?_, rfl⟩
      simp only [List.countP_append, eoi_writes_reads, Nat.add_zero]
    · rw [if_neg h32] at hk2
      by_cases h33 : regs.int_no = 33
      · rw [if_pos h33] at hk2
        cases hk2
        rw [if_neg h32, if_pos h33, if_pos h33]
        refine ⟨rfl, ⟨fun h => absurd rfl h, fun h => absurd h h32⟩, ?_, rfl⟩
        simp only [keyboard_handler, inb, List.countP_append, eoi_writes_reads, Nat.add_zero]
        rfl
      · rw [if_neg h33] at hk2
        cases hk2
        rw [if_neg h32, if_neg h33, if_neg h33]
        refine ⟨rfl, ⟨fun h => absurd rfl h, fun h => absurd h h32⟩, ?_, rfl⟩
        simp only [List.countP_append, eoi_writes_reads, Nat.add_zero]

theorem irq_dispatch_witness :
    ((frame 35).int_no ≠ 32 ∧ (frame 35).int_no ≠ 33) ∧
    irq_handler idle_hardware boot_kernel (frame 35) =
      some { boot_kernel with port_log := [PortEvent.outb 0x20 0x20] } ∧
    (frame 32).int_no = 32 ∧
    irq_handler idle_hardware boot_kernel (frame 32) =
      some { boot_kernel with port_log := [PortEvent.outb 0x20 0x20], timer_ticks := 1 } :=
  ⟨by decide, (irq_dispatch idle_hardware boot_kernel (frame 35)).2.2.1 (by decide) (by decide),
    rfl, ((irq_dispatch idle_hardware boot_kernel (frame 32)).1 rfl).trans rfl⟩

/-! ## Index ownership and the ring index invariant -/

/-- C25. Index ownership: add_to_buffer never changes buffer_start, nor any
cell other than the one at the old buffer_end, nor a modifier flag;
keyboard_getchar never changes buffer_end, any stored character or a flag, so
at most buffer_start; keyboard_has_char changes nothing. -/
theorem index_ownership (k : Keyboard) (c : Int) :
    ((add_to_buffer k c).buffer_start = k.buffer_start ∧
      (∀ i, i ≠ k.buffer_end →
        (add_to_buffer k c).keyboard_buffer i = k.keyboard_buffer i) ∧
      (add_to_buffer k c).shift_pressed = k.shift_pressed ∧
      (add_to_buffer k c).ctrl_pressed = k.ctrl_pressed ∧
      (add_to_buffer k c).alt_pressed = k.alt_pressed ∧
      (add_to_buffer k c).caps_lock = k.caps_lock) ∧
    ((keyboard_getchar k).2 = { k with buffer_start := (keyboard_getchar k).2.buffer_start } ∧
      (keyboard_getchar k).2.buffer_end = k.buffer_end ∧
      (keyboard_getchar k).2.keyboard_buffer = k.keyboard_buffer) ∧
    (keyboard_has_char k).2 = k := by
  refine ⟨⟨add_to_buffer_start k c, ?_, add_to_buffer_flags k c⟩, ?_, rfl⟩
  · intro i hi
    simp only [add_to_buffer]
    split
    · exact Function.update_noteq hi _ _
    · rfl
  · simp only [keyboard_getchar]
    split <;> exact ⟨rfl, rfl, rfl⟩

theorem process_scancode_start (k : Keyboard) (sc : Nat) :
    (process_scancode k sc).buffer_start = k.buffer_start := by
  simp only [process_scancode]
  split_ifs <;> first | rfl | exact add_to_buffer_start k _

theorem process_scancode_end_lt (k : Keyboard) (sc : Nat) (he : k.buffer_end < 256) :
    (process_scancode k sc).buffer_end < 256 := by
  simp only [process_scancode]
  split_ifs <;> first | exact he | exact add_to_buffer_end_lt k _ he

theorem keyboard_getchar_start_lt (k : Keyboard) (hs : k.buffer_start < 256) :
    (keyboard_getchar k).2.buffer_start < 256 := by
  simp only [keyboard_getchar, KEYBOARD_BUFFER_SIZE]
  split
  · exact hs
  · simp only
    omega

theorem keyboard_getchar_end (k : Keyboard) :
    (keyboard_getchar k).2.buffer_end = k.buffer_end := by
  simp only [keyboard_getchar]
  split <;> rfl

/-- Every call keeps both ring indices below 256. -/
theorem keyboard_call_indices (k : Keyboard) (call : KeyboardCall)
    (hs : k.buffer_start < 256) (he : k.buffer_end < 256) :
    (call.run k).buffer_start < 256 ∧ (call.run k).buffer_end < 256 := by
  cases call with
  | push c => exact ⟨by rw [KeyboardCall.run, add_to_buffer_start]; exact hs,
      add_to_buffer_end_lt k c he⟩
  | scancode sc => exact ⟨by rw [KeyboardCall.run, process_scancode_start]; exact hs,
      process_scancode_end_lt k sc he⟩
  | getchar => exact ⟨keyboard_getchar_start_lt k hs,
      by rw [KeyboardCall.run, keyboard_getchar_end]; exact he⟩
  | has_char => exact ⟨hs, he⟩

theorem keyboard_calls_indices (calls : List KeyboardCall) : ∀ k : Keyboard,
    k.buffer_start < 256 → k.buffer_end < 256 →
    (calls.foldl KeyboardCall.run k).buffer_start < 256 ∧
    (calls.foldl KeyboardCall.run k).buffer_end < 256 := by
  induction calls with
  | nil => intro k hs he; exact ⟨hs, he⟩
  | cons call calls ih =>
    intro k hs he
    obtain ⟨a, b⟩ := keyboard_call_indices k call hs he
    exact ih _ a b

/-- C30. Ring index invariant: in every state reached from a state left by
keyboard_init through any sequence of add_to_buffer, process_scancode,
keyboard_getchar and keyboard_has_char calls, buffer_start < 256 and
buffer_end < 256 (the indices are naturals, so they are not negative), and the
number of stored characters is at most 255. -/
theorem ring_index_invariant (hw : Hardware) (fuel : Nat) (k k0 : Kernel)
    (calls : List KeyboardCall) (hinit : keyboard_init hw fuel k = some k0) :
    (calls.foldl KeyboardCall.run k0.keyboard).buffer_start < 256 ∧
    (calls.foldl KeyboardCall.run k0.keyboard).buffer_end < 256 ∧
    ((calls.foldl KeyboardCall.run k0.keyboard).buffer_end + 256
      - (calls.foldl KeyboardCall.run k0.keyboard).buffer_start) % 256 ≤ 255 ∧
    held (calls.foldl KeyboardCall.run k0.keyboard) ≤ 255 := by
  have h0 := keyboard_init_keyboard hw fuel k k0 hinit
  obtain ⟨a, b⟩ := keyboard_calls_indices calls k0.keyboard
    (by rw [h0]; show (0 : Nat) < 256; decide) (by rw [h0]; show (0 : Nat) < 256; decide)
  refine ⟨a, b, by omega, ?_⟩
  have := held_lt (calls.foldl KeyboardCall.run k0.keyboard)
  omega

theorem ring_index_invariant_witness :
    keyboard_init idle_hardware 1 boot_kernel =
      some (print (inb idle_hardware boot_kernel 0x64).2
        (c_string "Keyboard driver initialized\n")) ∧
    ([KeyboardCall.scancode 0x1E, KeyboardCall.getchar, KeyboardCall.getchar,
        KeyboardCall.push 65].foldl KeyboardCall.run
      (print (inb idle_hardware boot_kernel 0x64).2
        (c_string "Keyboard driver initialized\n")).keyboard).buffer_start < 256 :=
  ⟨rfl, (ring_index_invariant idle_hardware 1 boot_kernel _
    [KeyboardCall.scancode 0x1E, KeyboardCall.getchar, KeyboardCall.getchar,
      KeyboardCall.push 65] rfl).1⟩

/-! ## PIC remap and gate table -/

/-- C22. PIC remap sequence: remap_pic performs exactly these port operations,
in this order, and changes nothing else: read 0x21 (a1), read 0xA1 (a2), write
(0x20, 0x11), (0xA0, 0x11), (0x21, 0x20), (0xA1, 0x28), (0x21, 0x04),
(0xA1, 0x02), (0x21, 0x01), (0xA1, 0x01), (0x21, a1), (0xA1, a2), where a1 and
a2 are the bytes the two reads returned. -/
theorem remap_pic_sequence (hw : Hardware) (k : Kernel) :
    remap_pic hw k =
      { k with port_log := k.port_log ++
          [PortEvent.inb 0x21 (hw k.port_log 0x21 % 256),
           PortEvent.inb 0xA1
             (hw (k.port_log ++ [PortEvent.inb 0x21 (hw k.port_log 0x21 % 256)]) 0xA1 % 256),
           PortEvent.outb 0x20 0x11, PortEvent.outb 0xA0 0x11,
           PortEvent.outb 0x21 0x20, PortEvent.outb 0xA1 0x28,
           PortEvent.outb 0x21 0x04, PortEvent.outb 0xA1 0x02,
           PortEvent.outb 0x21 0x01, PortEvent.outb 0xA1 0x01,
           PortEvent.outb 0x21 (hw k.port_log 0x21 % 256),
           PortEvent.outb 0xA1
             (hw (k.port_log ++ [PortEvent.inb 0x21 (hw k.port_log 0x21 % 256)]) 0xA1
               % 256)] } := by
  simp only [remap_pic, inb, outb, List.append_assoc, List.cons_append, List.nil_append,
    Nat.mod_mod]

theorem word_split (base : Nat) (h : base < 4294967296) :
    base &&& 0xFFFF = base % 65536 ∧ (base >>> 16) &&& 0xFFFF = base / 65536 := by
  have h1 : base &&& 0xFFFF = base % 65536 := Nat.and_pow_two_sub_one_eq_mod base 16
  have h2 : (base >>> 16) &&& 0xFFFF = (base >>> 16) % 65536 :=
    Nat.and_pow_two_sub_one_eq_mod (base >>> 16) 16
  have h3 : base >>> 16 = base / 65536 := Nat.shiftRight_eq_div_pow base 16
  rw [h1, h2, h3]
  omega

/-- C24. Gate encoding round trip: for a 32-bit address, idt_set_gate leaves
entry num with base_lo = base mod 2^16 and base_hi = base div 2^16, so that
base_hi * 2^16 + base_lo = base, with sel and flags as given and always0 = 0;
every other entry, and idtp, are unchanged. -/
theorem gate_round_trip (t : Idt) (num base sel flags : Nat) (hbase : base < 4294967296) :
    ((idt_set_gate t num base sel flags).idt num).base_lo = base % 65536 ∧
    ((idt_set_gate t num base sel flags).idt num).base_hi = base / 65536 ∧
    ((idt_set_gate t num base sel flags).idt num).base_hi * 65536
      + ((idt_set_gate t num base sel flags).idt num).base_lo = base ∧
    ((idt_set_gate t num base sel flags).idt num).sel = sel ∧
    ((idt_set_gate t num base sel flags).idt num).flags = flags ∧
    ((idt_set_gate t num base sel flags).idt num).always0 = 0 ∧
    (∀ i, i ≠ num → (idt_set_gate t num base sel flags).idt i = t.idt i) ∧
    (idt_set_gate t num base sel flags).idtp_limit = t.idtp_limit ∧
    (idt_set_gate t num base sel flags).idtp_base = t.idtp_base ∧
    (idt_set_gate t num base sel flags).idtr = t.idtr := by
  obtain ⟨hlo, hhi⟩ := word_split base hbase
  simp only [idt_set_gate, Function.update_same, hlo, hhi]
  refine ⟨trivial, trivial, by omega, trivial, trivial, trivial, ?_, trivial, trivial, trivial⟩
  intro i hi
  exact Function.update_noteq hi _ _

theorem gate_round_trip_witness :
    (0x00101234 : Nat) < 4294967296 ∧
    ((idt_set_gate dirty_idt 33 0x00101234 0x08 0x8E).idt 33).base_lo = 0x1234 ∧
    ((idt_set_gate dirty_idt 33 0x00101234 0x08 0x8E).idt 33).base_hi = 0x0010 :=
  ⟨by decide, (gate_round_trip dirty_idt 33 0x00101234 0x08 0x8E (by decide)).1,
    (gate_round_trip dirty_idt 33 0x00101234 0x08 0x8E (by decide)).2.1⟩

theorem idt_set_gate_idt (t : Idt) (num base sel flags v : Nat) :
    (idt_set_gate t num base sel flags).idt v =
      if v = num then
        { base_lo := base &&& 0xFFFF, base_hi := (base >>> 16) &&& 0xFFFF
          sel := sel, always0 := 0, flags := flags }
      else t.idt v := by
  simp only [idt_set_gate, Function.update_apply]

/-- A run of idt_set_gate calls on the vectors off .. off + n - 1, with the
address `f i` for vector `off + i`: the entries of those vectors hold the new
gates, every other entry and the descriptor fields are as before. -/
theorem set_gates_fold (off : Nat) (f : Nat → Nat) (sel flags : Nat) (n : Nat) (t : Idt) :
    (∀ v, ((List.range n).foldl
        (fun t i => idt_set_gate t (off + i) (f i) sel flags) t).idt v =
      if off ≤ v ∧ v < off + n then
        { base_lo := f (v - off) &&& 0xFFFF, base_hi := (f (v - off) >>> 16) &&& 0xFFFF
          sel := sel, always0 := 0, flags := flags }
      else t.idt v) ∧
    ((List.range n).foldl
      (fun t i => idt_set_gate t (off + i) (f i) sel flags) t).idtp_limit = t.idtp_limit ∧
    ((List.range n).foldl
      (fun t i => idt_set_gate t (off + i) (f i) sel flags) t).idtp_base = t.idtp_base ∧
    ((List.range n).foldl
      (fun t i => idt_set_gate t (off + i) (f i) sel flags) t).idtr = t.idtr := by
  induction n with
  | zero =>
    refine ⟨fun v => ?_, rfl, rfl, rfl⟩
    rw [List.range_zero, List.foldl_nil, if_neg (by omega)]
  | succ n ih =>
    obtain ⟨h1, h2, h3, h4⟩ := ih
    rw [List.range_succ, List.foldl_append, List.foldl_cons, List.foldl_nil]
    refine ⟨fun v => ?_, h2, h3, h4⟩
    rw [idt_set_gate_idt]
    by_cases hv : v = off + n
    · subst hv
      rw [if_pos rfl, if_pos (by omega)]
      simp only [Nat.add_sub_cancel_left]
    · rw [if_neg hv, h1 v]
      by_cases hr : off ≤ v ∧ v < off + n
      · rw [if_pos hr, if_pos (by omega)]
      · rw [if_neg hr, if_neg (by omega)]

/-- The gate table idt_init builds, whatever it held before. -/
theorem idt_init_table (hw : Hardware) (isr irq : Nat → Nat) (idt_addr : Nat) (t : Idt)
    (k : Kernel) :
    (∀ v, (idt_init hw isr irq idt_addr t k).1.idt v =
      if v < 32 then
        { base_lo := u32 (isr v) &&& 0xFFFF, base_hi := (u32 (isr v) >>> 16) &&& 0xFFFF
          sel := 0x08, always0 := 0, flags := 0x8E }
      else if v < 48 then
        { base_lo := u32 (irq (v - 32)) &&& 0xFFFF
          base_hi := (u32 (irq (v - 32)) >>> 16) &&& 0xFFFF
          sel := 0x08, always0 := 0, flags := 0x8E }
      else if v < 256 then
        { base_lo := 0, base_hi := 0, sel := 0, always0 := 0, flags := 0 }
      else t.idt v) ∧
    (idt_init hw isr irq idt_addr t k).1.idtp_limit = 2047 ∧
    (idt_init hw isr irq idt_addr t k).1.idtp_base = u32 idt_addr ∧
    (idt_init hw isr irq idt_addr t k).1.idtr = some (2047, u32 idt_addr) := by
  have z := set_gates_fold 0 (fun _ => 0) 0 0 256
    { t with idtp_limit := (8 * 256 - 1) % 65536, idtp_base := u32 idt_addr }
  simp only [Nat.zero_add] at z
  obtain ⟨z1, z2, z3, z4⟩ := z
  have a := set_gates_fold 0 (fun v => u32 (isr v)) 0x08 0x8E 32
    ((List.range 256).foldl (fun t i => idt_set_gate t i 0 0 0)
      { t with idtp_limit := (8 * 256 - 1) % 65536, idtp_base := u32 idt_addr })
  simp only [Nat.zero_add] at a
  obtain ⟨a1, a2, a3, a4⟩ := a
  obtain ⟨b1, b2, b3, b4⟩ := set_gates_fold 32 (fun i => u32 (irq i)) 0x08 0x8E 16
    ((List.range 32).foldl (fun t v => idt_set_gate t v (u32 (isr v)) 0x08 0x8E)
      ((List.range 256).foldl (fun t i => idt_set_gate t i 0 0 0)
        { t with idtp_limit := (8 * 256 - 1) % 65536, idtp_base := u32 idt_addr }))
  simp only [idt_init, idt_load]
  refine ⟨fun v => ?_, ?_, ?_, ?_⟩
  · rw [b1 v, a1 v, z1 v]
    simp only [Nat.zero_le, true_and, Nat.sub_zero]
    by_cases h32 : v < 32
    · rw [if_neg (by omega), if_pos h32, if_pos h32]
    · rw [if_neg h32]
      by_cases h48 : v < 48
      · rw [if_pos (by omega), if_neg h32, if_pos h48]
      · rw [if_neg (by omega), if_neg h32, if_neg h48]
        by_cases h256 : v < 256
        · rw [if_pos h256, if_pos h256]
          rfl
        · rw [if_neg h256, if_neg h256]
  · rw [b2, a2, z2]
  · rw [b3, a3, z3]
  · rw [b2, a2, z2, b3, a3, z3]

/-- C23. Gate table after initialisation: whatever the table held before, after
idt_init every entry v in 0..47 has selector 0x08, always0 = 0, flags 0x8E
(bit 7 set, bits 5-6 clear, low nibble 0xE) and address halves that recombine
to the address of the trampoline for v (isr v for 0..31, irq (v - 32) for
32..47, both 32-bit addresses); every entry in 48..255 has all five fields 0;
the limit in idtp, handed to idt_load, is 256*8 - 1 = 2047; and running
idt_init again on the result gives the same table and descriptor. -/
theorem gate_table_after_init (hw hw2 : Hardware) (isr irq : Nat → Nat) (idt_addr : Nat)
    (t : Idt) (k k2 : Kernel)
    (hisr : ∀ v, v < 32 → isr v < 4294967296) (hirq : ∀ i, i < 16 → irq i < 4294967296) :
    (∀ v, v < 32 →
      ((idt_init hw isr irq idt_addr t k).1.idt v).sel = 0x08 ∧
      ((idt_init hw isr irq idt_addr t k).1.idt v).always0 = 0 ∧
      ((idt_init hw isr irq idt_addr t k).1.idt v).flags = 0x8E ∧
      ((idt_init hw isr irq idt_addr t k).1.idt v).base_hi * 65536
        + ((idt_init hw isr irq idt_addr t k).1.idt v).base_lo = isr v) ∧
    (∀ v, 32 ≤ v → v < 48 →
      ((idt_init hw isr irq idt_addr t k).1.idt v).sel = 0x08 ∧
      ((idt_init hw isr irq idt_addr t k).1.idt v).always0 = 0 ∧
      ((idt_init hw isr irq idt_addr t k).1.idt v).flags = 0x8E ∧
      ((idt_init hw isr irq idt_addr t k).1.idt v).base_hi * 65536
        + ((idt_init hw isr irq idt_addr t k).1.idt v).base_lo = irq (v - 32)) ∧
    (∀ v, 48 ≤ v → v < 256 →
      (idt_init hw isr irq idt_addr t k).1.idt v =
        { base_lo := 0, base_hi := 0, sel := 0, always0 := 0, flags := 0 }) ∧
    ((0x8E : Nat) &&& 0x80 = 0x80 ∧ ((0x8E : Nat) >>> 5) &&& 3 = 0 ∧ (0x8E : Nat) &&& 0xF = 0xE) ∧
    ((idt_init hw isr irq idt_addr t k).1.idtp_limit = 256 * 8 - 1 ∧
      (idt_init hw isr irq idt_addr t k).1.idtr
        = some (2047, (idt_init hw isr irq idt_addr t k).1.idtp_base)) ∧
    ((idt_init hw2 isr irq idt_addr (idt_init hw isr irq idt_addr t k).1 k2).1.idt
        = (idt_init hw isr irq idt_addr t k).1.idt ∧
      (idt_init hw2 isr irq idt_addr (idt_init hw isr irq idt_addr t k).1 k2).1.idtp_limit
        = (idt_init hw isr irq idt_addr t k).1.idtp_limit ∧
      (idt_init hw2 isr irq idt_addr (idt_init hw isr irq idt_addr t k).1 k2).1.idtp_base
        = (idt_init hw isr irq idt_addr t k).1.idtp_base ∧
      (idt_init hw2 isr irq idt_addr (idt_init hw isr irq idt_addr t k).1 k2).1.idtr
        = (idt_init hw isr irq idt_addr t k).1.idtr) := by
  obtain ⟨h1, h2, h3, h4⟩ := idt_init_table hw isr irq idt_addr t k
  obtain ⟨g1, g2, g3, g4⟩ := idt_init_table hw2 isr irq idt_addr
    (idt_init hw isr irq idt_addr t k).1 k2
  refine ⟨?_, ?_, ?_, by decide, ⟨h2, by rw [h4, h3]⟩, ⟨?_, by rw [g2, h2], by rw [g3, h3],
    by rw [g4, h4]⟩⟩
  · intro v hv
    have hb := hisr v hv
    obtain ⟨hlo, hhi⟩ := word_split (isr v) hb
    rw [h1 v, if_pos hv, u32_small _ hb]
    simp only [hlo, hhi]
    refine ⟨trivial, trivial, trivial, by omega⟩
  · intro v h32 h48
    have hb := hirq (v - 32) (by omega)
    obtain ⟨hlo, hhi⟩ := word_split (irq (v - 32)) hb
    rw [h1 v, if_neg (by omega), if_pos h48, u32_small _ hb]
    simp only [hlo, hhi]
    refine ⟨trivial, trivial, trivial, by omega⟩
  · intro v h48 h256
    rw [h1 v, if_neg (by omega), if_neg (by omega), if_pos h256]
  · funext v
    rw [g1 v, h1 v]
    split_ifs <;> rfl

theorem gate_table_after_init_witness :
    ((∀ v, v < 32 → (fun v => 0x00100000 + 16 * v) v < 4294967296) ∧
      (∀ i, i < 16 → (fun i => 0x00100400 + 16 * i) i < 4294967296)) ∧
    ((idt_init masked_hardware (fun v => 0x00100000 + 16 * v) (fun i => 0x00100400 + 16 * i)
        0x00105000 dirty_idt boot_kernel).1.idt 33).base_hi * 65536
      + ((idt_init masked_hardware (fun v => 0x00100000 + 16 * v)
        (fun i => 0x00100400 + 16 * i) 0x00105000 dirty_idt boot_kernel).1.idt 33).base_lo
      = 0x00100400 + 16 * (33 - 32) ∧
    (idt_init masked_hardware (fun v => 0x00100000 + 16 * v) (fun i => 0x00100400 + 16 * i)
        0x00105000 dirty_idt boot_kernel).1.idt 200 =
      { base_lo := 0, base_hi := 0, sel := 0, always0 := 0, flags := 0 } :=
  have h := gate_table_after_init masked_hardware masked_hardware
    (fun v => 0x00100000 + 16 * v) (fun i => 0x00100400 + 16 * i) 0x00105000 dirty_idt
    boot_kernel boot_kernel (fun v hv => by show 0x00100000 + 16 * v < 4294967296; omega)
    (fun i hi => by show 0x00100400 + 16 * i < 4294967296; omega)
  ⟨⟨fun v hv => by show 0x00100000 + 16 * v < 4294967296; omega,
      fun i hi => by show 0x00100400 + 16 * i < 4294967296; omega⟩,
    (h.2.1 33 (by decide) (by decide)).2.2.2, h.2.2.1 200 (by decide) (by decide)⟩

theorem pic_remap_values :
    (remap_pic masked_hardware boot_kernel).port_log =
      [PortEvent.inb 0x21 0xB8, PortEvent.inb 0xA1 0x8E,
       PortEvent.outb 0x20 0x11, PortEvent.outb 0xA0 0x11,
       PortEvent.outb 0x21 0x20, PortEvent.outb 0xA1 0x28,
       PortEvent.outb 0x21 0x04, PortEvent.outb 0xA1 0x02,
       PortEvent.outb 0x21 0x01, PortEvent.outb 0xA1 0x01,
       PortEvent.outb 0x21 0xB8, PortEvent.outb 0xA1 0x8E] := by
  decide

/-! ## Bump allocator -/

theorem align4 (x : Nat) (h : x < 4294967296) : x &&& 0xFFFFFFFC = x / 4 * 4 := by
  apply Nat.eq_of_testBit_eq
  intro i
  have hm : (0xFFFFFFFC : Nat) = (2 ^ 30 - 1) <<< 2 := by decide
  have hx : x / 4 * 4 = (x >>> 2) <<< 2 := by
    rw [Nat.shiftRight_eq_div_pow, Nat.shiftLeft_eq]
  rw [Nat.testBit_and, hm, hx, Nat.testBit_shiftLeft, Nat.testBit_shiftLeft,
    Nat.testBit_two_pow_sub_one, Nat.testBit_shiftRight]
  by_cases h2 : 2 ≤ i
  · have e : 2 + (i - 2) = i := by omega
    rw [e]
    by_cases h32 : i < 32
    · have : i - 2 < 30 := by omega
      simp [h2, this]
    · have hb : x.testBit i = false := by
        apply Nat.testBit_lt_two_pow
        calc x < 2 ^ 32 := h
          _ ≤ 2 ^ i := Nat.pow_le_pow_right (by decide) (by omega)
      simp [hb]
  · simp [h2]

/-- The part of C27 the code meets: when next_free_addr + size does not exceed
the 32-bit range and next_free_addr is a multiple of 4 within the region,
malloc returns null and leaves the state unchanged if the allocator is
uninitialised or size exceeds the bytes remaining; otherwise it returns
next_free_addr and advances it by size rounded up to a multiple of 4. -/
theorem malloc_within_range (a : Allocator) (size : Nat)
    (hfit : a.next_free_addr + size < 4294967296 - 3)
    (hend : a.next_free_addr ≤ MEMORY_END) (halign : a.next_free_addr % 4 = 0) :
    ((a.memory_initialized = 0 ∨ size > MEMORY_END - a.next_free_addr) →
      malloc a size = (0, a)) ∧
    (a.memory_initialized ≠ 0 → size ≤ MEMORY_END - a.next_free_addr →
      malloc a size =
        (a.next_free_addr,
          { a with next_free_addr := a.next_free_addr + (size + 3) / 4 * 4 })) := by
  have h1 : u32 (a.next_free_addr + size) = a.next_free_addr + size :=
    u32_small _ (by omega)
  have h2 : u32 (a.next_free_addr + size + 3) = a.next_free_addr + size + 3 :=
    u32_small _ (by omega)
  unfold MEMORY_END MEMORY_START MEMORY_SIZE at hend
  constructor
  · intro h
    rcases h with h | h
    · simp only [malloc, h, if_true]
    · unfold MEMORY_END MEMORY_START MEMORY_SIZE at h
      by_cases hi : a.memory_initialized = 0
      · simp only [malloc, hi, if_true]
      · have : a.next_free_addr + size > MEMORY_END := by
          unfold MEMORY_END MEMORY_START MEMORY_SIZE
          omega
        simp only [malloc, hi, if_false, h1, this, if_true]
  · intro hi hs
    unfold MEMORY_END MEMORY_START MEMORY_SIZE at hs
    have : ¬ (a.next_free_addr + size > MEMORY_END) := by
      unfold MEMORY_END MEMORY_START MEMORY_SIZE
      omega
    have h3 : (a.next_free_addr + size + 3) &&& 0xFFFFFFFC
        = a.next_free_addr + (size + 3) / 4 * 4 := by
      rw [align4 _ (by omega)]
      omega
    simp only [malloc, hi, if_false, h1, this, h2, h3]

/-- C27 at a failing input: after memory_init, 0x100000 bytes remain and
0xFFFFFFF0 is larger, yet malloc(0xFFFFFFF0) returns the non-null address
0x200000 and moves next_free_addr to 0x1FFFF0, below the start of the region:
the sum next_free_addr + size wraps around 2^32 and passes the space check. -/
theorem malloc_size_overflow :
    (memory_init boot_allocator).memory_initialized = 1 ∧
    MEMORY_END - (memory_init boot_allocator).next_free_addr = 0x100000 ∧
    (0x100000 : Nat) < 0xFFFFFFF0 ∧
    (malloc (memory_init boot_allocator) 0xFFFFFFF0).1 = 0x200000 ∧
    (malloc (memory_init boot_allocator) 0xFFFFFFF0).2.next_free_addr = 0x1FFFF0 ∧
    malloc (memory_init boot_allocator) 0xFFFFFFF0 ≠ (0, memory_init boot_allocator) := by
  decide

/-! ## Exception report -/

theorem print_no_nul (k : Kernel) (str : List Int) (h : ∀ c ∈ str, c ≠ 0) :
    print k str = str.foldl putchar k := by
  unfold print
  rw [List.takeWhile_eq_self_iff.mpr]
  intro c hc
  exact decide_eq_true (h c hc)

set_option maxRecDepth 100000 in
theorem exception_messages_no_nul :
    ∀ v, v < 32 → ∀ c ∈ c_string (exception_messages.getD v ""), c ≠ 0 := by
  decide

set_option maxRecDepth 100000 in
theorem exception_messages_reserved :
    exception_messages.length = 32 ∧
    ∀ v, v < 32 → 19 ≤ v → exception_messages.getD v "" = "Reserved" := by
  decide

theorem nibble (n i : Nat) : (n >>> (i * 4)) &&& 0xF = n / 16 ^ i % 16 := by
  have h1 : (n >>> (i * 4)) &&& 0xF = (n >>> (i * 4)) % 16 :=
    Nat.and_pow_two_sub_one_eq_mod (n >>> (i * 4)) 4
  rw [h1, Nat.shiftRight_eq_div_pow, Nat.mul_comm i 4, Nat.pow_mul]

theorem print_hex_eq (k : Kernel) (n : Nat) :
    print_hex k n = (hex_text n).foldl putchar k := by
  unfold print_hex hex_text
  rw [print_no_nul k (c_string "0x") (by decide), List.foldl_append, List.foldl_map]
  simp only [nibble]

set_option maxRecDepth 100000 in
theorem hex_digit_round_trip :
    ∀ d, d < 16 → hex_digit_value (hex_chars.getD d 0) = d ∧
      ((48 ≤ hex_chars.getD d 0 ∧ hex_chars.getD d 0 ≤ 57) ∨
        (65 ≤ hex_chars.getD d 0 ∧ hex_chars.getD d 0 ≤ 70)) := by
  decide

/-- The text hex(n) is "0x" followed by eight digits, each '0'..'9' or
'A'..'F', whose value is n. -/
theorem hex_text_value (n : Nat) (h : n < 4294967296) :
    (hex_text n).take 2 = [48, 120] ∧
    ((hex_text n).drop 2).length = 8 ∧
    (∀ c ∈ (hex_text n).drop 2, (48 ≤ c ∧ c ≤ 57) ∨ (65 ≤ c ∧ c ≤ 70)) ∧
    hex_value ((hex_text n).drop 2) = n := by
  have e : (hex_text n).drop 2 =
      [7, 6, 5, 4, 3, 2, 1, 0].map (fun i => hex_chars.getD (n / 16 ^ i % 16) 0) := rfl
  refine ⟨rfl, by rw [e]; rfl, ?_, ?_⟩
  · intro c hc
    rw [e, List.mem_map] at hc
    obtain ⟨i, _, hi⟩ := hc
    rw [← hi]
    exact (hex_digit_round_trip _ (Nat.mod_lt _ (by decide))).2
  · rw [e]
    simp only [hex_value, List.map_cons, List.map_nil, List.foldl_cons, List.foldl_nil,
      (hex_digit_round_trip _ (Nat.mod_lt _ (by decide : 0 < 16))).1]
    norm_num
    omega

/-- C26. Exception report: for a frame with vector v in 0..31 and error code e,
the state in which isr_handler halts is the one reached by calling putchar, in
order, on exactly the characters of "Exception: " + name(v) + " (" + hex(v) +
")\n", followed by those of "Error code: " + hex(e) + "\n" iff e is not 0;
name(v) is entry v of the 32-entry table, "Reserved" for v in 19..31, and
hex(n) is "0x" and eight uppercase hexadecimal digits of value n. -/
theorem exception_report_emitted (k : Kernel) (regs : Registers) (hv : regs.int_no < 32) :
    isr_handler k regs =
      some ((exception_report regs.int_no regs.err_code).foldl putchar k) ∧
    exception_messages.length = 32 ∧
    (19 ≤ regs.int_no → exception_messages.getD regs.int_no "" = "Reserved") ∧
    (regs.err_code = 0 →
      exception_report regs.int_no regs.err_code =
        c_string "Exception: " ++ c_string (exception_messages.getD regs.int_no "") ++
          c_string " (" ++ hex_text regs.int_no ++ c_string ")\n") ∧
    (regs.err_code < 4294967296 →
      (hex_text regs.err_code).take 2 = [48, 120] ∧
      ((hex_text regs.err_code).drop 2).length = 8 ∧
      (∀ c ∈ (hex_text regs.err_code).drop 2, (48 ≤ c ∧ c ≤ 57) ∨ (65 ≤ c ∧ c ≤ 70)) ∧
      hex_value ((hex_text regs.err_code).drop 2) = regs.err_code) ∧
    ((hex_text regs.int_no).take 2 = [48, 120] ∧
      ((hex_text regs.int_no).drop 2).length = 8 ∧
      hex_value ((hex_text regs.int_no).drop 2) = regs.int_no) := by
  have hint := hex_text_value regs.int_no (by omega)
  refine ⟨?_, exception_messages_reserved.1,
    fun h19 => exception_messages_reserved.2 _ hv h19, ?_,
    fun he => hex_text_value regs.err_code he, ⟨hint.1, hint.2.1, hint.2.2.2⟩⟩
  · simp only [isr_handler, hv, if_true, exception_report, print_hex_eq]
    rw [print_no_nul k (c_string "Exception: ") (by decide),
      print_no_nul _ _ (exception_messages_no_nul regs.int_no hv),
      print_no_nul _ (c_string " (") (by decide),
      print_no_nul _ (c_string ")\n") (by decide)]
    by_cases he : regs.err_code = 0
    · simp only [he, ne_eq, not_true_eq_false, if_false, List.foldl_append, List.append_nil,
        List.foldl_nil]
    · simp only [he, ne_eq, not_false_eq_true, if_true, List.foldl_append]
      rw [print_no_nul _ (c_string "Error code: ") (by decide),
        print_no_nul _ (c_string "\n") (by decide)]
  · intro he
    simp only [exception_report, he, ne_eq, not_true_eq_false, if_false, List.append_nil]

theorem exception_report_emitted_witness :
    (frame 13).int_no < 32 ∧
    isr_handler boot_kernel { frame 13 with err_code := 0x1A2B } =
      some ((exception_report 13 0x1A2B).foldl putchar boot_kernel) ∧
    exception_report 13 0x1A2B =
      c_string "Exception: General Protection Fault (0x0000000D)\nError code: 0x00001A2B\n" :=
  ⟨by decide,
    (exception_report_emitted boot_kernel { frame 13 with err_code := 0x1A2B }
      (by decide)).1,
    by decide⟩

/-! ## Timer cadence -/

theorem timer_handler_eq (k : Kernel) :
    timer_handler k =
      if u32 (k.timer_ticks + 1) % 30 = 0 then
        schedule { k with timer_ticks := u32 (k.timer_ticks + 1) }
      else some { k with timer_ticks := u32 (k.timer_ticks + 1) } := rfl

/-- After n calls of timer_handler, all of which returned, the tick counter has
advanced by n modulo 2^32. -/
theorem timer_calls_ticks (n : Nat) : ∀ k k1 : Kernel, timer_calls n k = some k1 →
    k1.timer_ticks = if n = 0 then k.timer_ticks else (k.timer_ticks + n) % 4294967296 := by
  induction n with
  | zero =>
    intro k k1 h
    simp only [timer_calls, Option.some.injEq] at h
    rw [if_pos rfl, h]
  | succ n ih =>
    intro k k1 h
    simp only [timer_calls, Option.bind_eq_some] at h
    obtain ⟨k0, h0, h1⟩ := h
    obtain ⟨table, cur, e⟩ := timer_handler_frame _ _ h1
    have := ih k k0 h0
    rw [e, if_neg (by omega)]
    simp only [u32, this]
    split <;> omega

theorem range_eight : List.range 8 = [0, 1, 2, 3, 4, 5, 6, 7] := by decide

/-- With two processes, one running and one ready, schedule returns and hands
the processor to the other one. -/
theorem schedule_two_processes (k : Kernel) (h : two_process_shape k) :
    ∃ k2, schedule k = some k2 ∧ two_process_shape k2 ∧
      k2.current_process ≠ k.current_process ∧ k2.timer_ticks = k.timer_ticks := by
  obtain ⟨p0, p1, hz, hor⟩ := h
  have z2 := hz 2 (by decide) (by decide)
  have z3 := hz 3 (by decide) (by decide)
  have z4 := hz 4 (by decide) (by decide)
  have z5 := hz 5 (by decide) (by decide)
  have z6 := hz 6 (by decide) (by decide)
  have z7 := hz 7 (by decide) (by decide)
  rcases hor with ⟨hc, s0, s1⟩ | ⟨hc, s1, s0⟩
  · have hs : schedule k = some
        { k with
          process_table := Function.update
            (Function.update k.process_table 0
              { pid := 0, state := 0, name := (k.process_table 0).name })
            1 { pid := (k.process_table 1).pid, state := 1, name := (k.process_table 1).name }
          current_process := some 1 } := by
      simp [schedule, hc, p0, to_int, MAX_PROCESSES, range_eight, List.find?, s0, s1,
        PROCESS_READY, PROCESS_RUNNING]
    refine ⟨_, hs, ⟨?_, ?_, ?_, Or.inr ⟨rfl, ?_, ?_⟩⟩, ?_, rfl⟩
    · simp
    · simp [p1]
    · intro i h2 h8
      simp only
      rw [Function.update_noteq (by omega), Function.update_noteq (by omega)]
      exact hz i h2 h8
    · simp [PROCESS_RUNNING]
    · simp [PROCESS_READY]
    · simp [hc]
  · have hs : schedule k = some
        { k with
          process_table := Function.update
            (Function.update k.process_table 1
              { pid := 1, state := 0, name := (k.process_table 1).name })
            0 { pid := (k.process_table 0).pid, state := 1, name := (k.process_table 0).name }
          current_process := some 0 } := by
      simp [schedule, hc, p1, to_int, MAX_PROCESSES, range_eight, List.find?, s0, s1,
        z2, z3, z4, z5, z6, z7, PROCESS_READY, PROCESS_RUNNING, PROCESS_ZOMBIE]
    refine ⟨_, hs, ⟨?_, ?_, ?_, Or.inl ⟨rfl, ?_, ?_⟩⟩, ?_, rfl⟩
    · simp [p0]
    · simp
    · intro i h2 h8
      simp only
      rw [Function.update_noteq (by omega), Function.update_noteq (by omega)]
      exact hz i h2 h8
    · simp [PROCESS_RUNNING]
    · simp [PROCESS_READY]
    · simp [hc]

theorem timer_handler_two_processes (k : Kernel) (h : two_process_shape k) :
    ∃ k2, timer_handler k = some k2 ∧ two_process_shape k2 ∧
      (u32 (k.timer_ticks + 1) % 30 = 0 → k2.current_process ≠ k.current_process) := by
  rw [timer_handler_eq]
  by_cases hd : u32 (k.timer_ticks + 1) % 30 = 0
  · rw [if_pos hd]
    obtain ⟨k2, h1, h2, h3, _⟩ :=
      schedule_two_processes { k with timer_ticks := u32 (k.timer_ticks + 1) } h
    exact ⟨k2, h1, h2, fun _ => h3⟩
  · rw [if_neg hd]
    exact ⟨_, rfl, h, fun h0 => absurd h0 hd⟩

theorem timer_calls_two_processes (n : Nat) (k : Kernel) (h : two_process_shape k) :
    ∃ k1, timer_calls n k = some k1 ∧ two_process_shape k1 := by
  induction n with
  | zero => exact ⟨k, rfl, h⟩
  | succ n ih =>
    obtain ⟨k0, h0, hs⟩ := ih
    obtain ⟨k2, h2, hs2, _⟩ := timer_handler_two_processes k0 hs
    exact ⟨k2, by simp only [timer_calls, h0, Option.some_bind, h2], hs2⟩

theorem two_process_kernel_shape : two_process_shape two_process_kernel := by
  refine ⟨rfl, rfl, ?_, Or.inl ⟨rfl, rfl, rfl⟩⟩
  intro i h2 h8
  simp only [two_process_kernel]
  rw [if_neg (by omega), if_neg (by omega)]

/-- C21, as stated, fails at n = 2^32: starting from a tick counter of 0 with
two processes, the first 2^32 - 1 calls of timer_handler return and leave the
counter at 2^32 - 1; the next call, the 2^32-th, wraps the counter to 0 and
runs schedule (the processor changes hands), although 2^32 is not a multiple
of 30. -/
theorem timer_cadence_counterexample :
    two_process_kernel.timer_ticks = 0 ∧
    ¬ (4294967296 % 30 = 0) ∧
    ∃ k1 k2, timer_calls 4294967295 two_process_kernel = some k1 ∧
      k1.timer_ticks = 4294967295 ∧
      timer_handler k1 = some k2 ∧
      k2.timer_ticks = 0 ∧
      k2.current_process ≠ k1.current_process ∧
      timer_handler k1 ≠ some { k1 with timer_ticks := k1.timer_ticks + 1 } := by
  refine ⟨rfl, by decide, ?_⟩
  obtain ⟨k1, h1, hs1⟩ := timer_calls_two_processes 4294967295 two_process_kernel
    two_process_kernel_shape
  have ht := timer_calls_ticks 4294967295 two_process_kernel k1 h1
  rw [if_neg (by decide)] at ht
  have ht1 : k1.timer_ticks = 4294967295 := by
    rw [ht]
    rfl
  obtain ⟨k2, h2, _, hsw⟩ := timer_handler_two_processes k1 hs1
  obtain ⟨table, cur, e⟩ := timer_handler_frame k1 k2 h2
  have hdue : u32 (k1.timer_ticks + 1) % 30 = 0 := by
    rw [ht1]
    rfl
  refine ⟨k1, k2, h1, ht1, h2, ?_, hsw hdue, ?_⟩
  · rw [e, ht1]
    rfl
  · rw [h2]
    intro hh
    have := congrArg (fun o => o.map Kernel.current_process) hh
    simp only [Option.map_some'] at this
    exact hsw hdue (Option.some.inj this)

/-- C21, amended. Timer cadence: each call of timer_handler that returns
advances the tick counter by one modulo 2^32; starting from a tick counter of
0, the state before the n-th call has the counter at (n - 1) mod 2^32, and the
n-th call runs schedule iff n mod 2^32 is a multiple of 30, changing nothing
but the counter otherwise; so for every n with 1 <= n < 2^32 it runs schedule
iff n is a multiple of 30. -/
theorem timer_cadence (k k1 : Kernel) (n : Nat) (h0 : k.timer_ticks = 0) (hn : 1 ≤ n)
    (hrun : timer_calls (n - 1) k = some k1) :
    k1.timer_ticks = (n - 1) % 4294967296 ∧
    (∀ k2, timer_handler k1 = some k2 → k2.timer_ticks = (k1.timer_ticks + 1) % 4294967296) ∧
    timer_handler k1 =
      (if n % 4294967296 % 30 = 0 then
        schedule { k1 with timer_ticks := n % 4294967296 }
      else some { k1 with timer_ticks := n % 4294967296 }) ∧
    (n < 4294967296 →
      k1.timer_ticks = n - 1 ∧
      timer_handler k1 =
        (if n % 30 = 0 then schedule { k1 with timer_ticks := n }
        else some { k1 with timer_ticks := n })) := by
  have ht := timer_calls_ticks (n - 1) k k1 hrun
  have ht1 : k1.timer_ticks = (n - 1) % 4294967296 := by
    rw [ht, h0]
    split <;> omega
  have hnext : u32 (k1.timer_ticks + 1) = n % 4294967296 := by
    rw [ht1]
    unfold u32
    omega
  have heq := timer_handler_eq k1
  rw [hnext] at heq
  refine ⟨ht1, ?_, heq, ?_⟩
  · intro k2 h2
    obtain ⟨table, cur, e⟩ := timer_handler_frame k1 k2 h2
    rw [e]
    rfl
  · intro hlt
    rw [Nat.mod_eq_of_lt hlt] at heq
    exact ⟨by rw [ht1]; omega, heq⟩

theorem timer_cadence_witness :
    (two_process_kernel.timer_ticks = 0 ∧ 1 ≤ 30 ∧
      timer_calls (30 - 1) two_process_kernel =
        some { two_process_kernel with timer_ticks := 29 }) ∧
    timer_handler { two_process_kernel with timer_ticks := 29 } =
      schedule { two_process_kernel with timer_ticks := 30 } :=
  ⟨⟨rfl, by decide, rfl⟩,
    ((timer_cadence two_process_kernel { two_process_kernel with timer_ticks := 29 } 30
      rfl (by decide) rfl).2.2.2 (by decide)).2⟩

/-! ## The consumer interrupted by the keyboard interrupt -/

/-- The characters held depend on the three ring variables only. -/
theorem buffered_congr (k k2 : Keyboard)
    (hb : k2.keyboard_buffer = k.keyboard_buffer)
    (hst : k2.buffer_start = k.buffer_start) (hen : k2.buffer_end = k.buffer_end) :
    buffered k2 = buffered k := by
  unfold buffered held
  rw [hb, hst, hen]

/-- What one add_to_buffer does to the ring, as the consumer sees it: the head
is untouched, the character stored (if any) goes behind the ones held, and a
non-empty ring stays non-empty with the same oldest character. -/
theorem add_to_buffer_producer (k : Keyboard) (c : Int)
    (hs : k.buffer_start < 256) (he : k.buffer_end < 256) :
    (add_to_buffer k c).buffer_start = k.buffer_start ∧
    (add_to_buffer k c).buffer_end < 256 ∧
    buffered (add_to_buffer k c) = buffered k ++ stored_by k (add_to_buffer k c) ∧
    (k.buffer_start ≠ k.buffer_end →
      (add_to_buffer k c).buffer_start ≠ (add_to_buffer k c).buffer_end ∧
      (add_to_buffer k c).keyboard_buffer (add_to_buffer k c).buffer_start
        = k.keyboard_buffer k.buffer_start) := by
  refine ⟨add_to_buffer_start k c, add_to_buffer_end_lt k c he, ?_, ?_⟩
  · by_cases hroom : held k < 255
    · rw [buffered_add_to_buffer k c hs he hroom, add_to_buffer_room k c hs he hroom]
      have hne : (k.buffer_end + 1) % 256 ≠ k.buffer_end := by omega
      simp [stored_by, hne]
    · have hfull : (k.buffer_end + 1) % 256 = k.buffer_start := by
        unfold held KEYBOARD_BUFFER_SIZE at hroom
        omega
      rw [add_to_buffer_full k c hfull]
      simp [stored_by]
  · intro hne
    by_cases hroom : held k < 255
    · rw [add_to_buffer_room k c hs he hroom]
      simp only
      refine ⟨?_, ?_⟩
      · unfold held KEYBOARD_BUFFER_SIZE at hroom
        omega
      · rw [Function.update_noteq hne]
    · have hfull : (k.buffer_end + 1) % 256 = k.buffer_start := by
        unfold held KEYBOARD_BUFFER_SIZE at hroom
        omega
      rw [add_to_buffer_full k c hfull]
      exact ⟨hne, rfl⟩

/-- The three ring variables after process_scancode are those of the state
before, or those after one add_to_buffer. -/
theorem process_scancode_ring (k : Keyboard) (sc : Nat) :
    ((process_scancode k sc).keyboard_buffer = k.keyboard_buffer ∧
      (process_scancode k sc).buffer_start = k.buffer_start ∧
      (process_scancode k sc).buffer_end = k.buffer_end) ∨
    ∃ c, (process_scancode k sc).keyboard_buffer = (add_to_buffer k c).keyboard_buffer ∧
      (process_scancode k sc).buffer_start = (add_to_buffer k c).buffer_start ∧
      (process_scancode k sc).buffer_end = (add_to_buffer k c).buffer_end := by
  simp only [process_scancode]
  split_ifs <;> first | exact Or.inl ⟨rfl, rfl, rfl⟩ | exact Or.inr ⟨_, rfl, rfl, rfl⟩

/-- What one process_scancode does to the ring, as the consumer sees it. -/
theorem process_scancode_producer (k : Keyboard) (sc : Nat)
    (hs : k.buffer_start < 256) (he : k.buffer_end < 256) :
    (process_scancode k sc).buffer_start = k.buffer_start ∧
    (process_scancode k sc).buffer_end < 256 ∧
    buffered (process_scancode k sc) = buffered k ++ stored_by k (process_scancode k sc) ∧
    (k.buffer_start ≠ k.buffer_end →
      (process_scancode k sc).buffer_start ≠ (process_scancode k sc).buffer_end ∧
      (process_scancode k sc).keyboard_buffer (process_scancode k sc).buffer_start
        = k.keyboard_buffer k.buffer_start) := by
  rcases process_scancode_ring k sc with ⟨hb, hst, hen⟩ | ⟨c, hb, hst, hen⟩
  · refine ⟨hst, by rw [hen]; exact he, ?_, ?_⟩
    · rw [buffered_congr k _ hb hst hen]
      simp [stored_by, hen]
    · intro hne
      rw [hb, hst, hen]
      exact ⟨hne, rfl⟩
  · obtain ⟨h1, h2, h3, h4⟩ := add_to_buffer_producer k c hs he
    refine ⟨by rw [hst, h1], by rw [hen]; exact h2, ?_, ?_⟩
    · rw [buffered_congr (add_to_buffer k c) _ hb hst hen, h3]
      simp only [stored_by, hb, hen]
    · intro hne
      rw [hb, hst, hen]
      exact h4 hne

/-- A producer step keeps what the consumer knows. -/
theorem consistent_producer (k k2 : Keyboard) (pc : ConsumerPc)
    (hst : k2.buffer_start = k.buffer_start)
    (hkeep : k.buffer_start ≠ k.buffer_end →
      k2.buffer_start ≠ k2.buffer_end ∧
      k2.keyboard_buffer k2.buffer_start = k.keyboard_buffer k.buffer_start)
    (h : pc.consistent k) : pc.consistent k2 := by
  cases pc with
  | idle => trivial
  | has_char_start r => trivial
  | getchar_start r =>
    simp only [ConsumerPc.consistent] at h ⊢
    rw [hst]
    exact h
  | getchar_nonempty =>
    simp only [ConsumerPc.consistent] at h ⊢
    exact (hkeep h).1
  | getchar_index r =>
    simp only [ConsumerPc.consistent] at h ⊢
    exact ⟨by rw [hst]; exact h.1, (hkeep h.2).1⟩
  | getchar_char c =>
    simp only [ConsumerPc.consistent] at h ⊢
    exact ⟨by rw [(hkeep h.2).2]; exact h.1, (hkeep h.2).1⟩
  | getchar_next c r =>
    simp only [ConsumerPc.consistent] at h ⊢
    exact ⟨by rw [(hkeep h.2.2).2]; exact h.1, by rw [hst]; exact h.2.1, (hkeep h.2.2).1⟩

/-- Every event keeps the invariant. -/
theorem invariant_step (s : Interleaving) (e : Event) (h : s.invariant) :
    (s.step e).invariant := by
  obtain ⟨hs, he, hacc, hpc⟩ := h
  cases e with
  | interrupt sc =>
    obtain ⟨h1, h2, h3, h4⟩ := process_scancode_producer s.keyboard sc hs he
    refine ⟨by simp only [Interleaving.step]; omega, h2, ?_, ?_⟩
    · simp only [Interleaving.step]
      rw [h3, hacc, List.append_assoc]
    · exact consistent_producer s.keyboard _ s.pc h1 h4 hpc
  | push c =>
    obtain ⟨h1, h2, h3, h4⟩ := add_to_buffer_producer s.keyboard c hs he
    refine ⟨by simp only [Interleaving.step]; omega, h2, ?_, ?_⟩
    · simp only [Interleaving.step]
      rw [h3, hacc, List.append_assoc]
    · exact consistent_producer s.keyboard _ s.pc h1 h4 hpc
  | call_has_char =>
    simp only [Interleaving.step]
    split
    · exact ⟨hs, he, hacc, trivial⟩
    · exact ⟨hs, he, hacc, hpc⟩
  | call_getchar =>
    simp only [Interleaving.step]
    split
    · exact ⟨hs, he, hacc, rfl⟩
    · exact ⟨hs, he, hacc, hpc⟩
  | access =>
    simp only [Interleaving.step]
    split
    · exact ⟨hs, he, hacc, hpc⟩
    · exact ⟨hs, he, hacc, trivial⟩
    · next r hr =>
      rw [hr] at hpc
      simp only [ConsumerPc.consistent] at hpc
      split
      · exact ⟨hs, he, hacc, trivial⟩
      · next hne =>
        refine ⟨hs, he, hacc, ?_⟩
        simp only [ConsumerPc.consistent]
        rw [← hpc]
        exact hne
    · next hr =>
      rw [hr] at hpc
      exact ⟨hs, he, hacc, rfl, hpc⟩
    · next r hr =>
      rw [hr] at hpc
      simp only [ConsumerPc.consistent] at hpc
      refine ⟨hs, he, hacc, ?_, hpc.2⟩
      simp only
      rw [hpc.1]
    · next c hr =>
      rw [hr] at hpc
      simp only [ConsumerPc.consistent] at hpc
      exact ⟨hs, he, hacc, hpc.1, rfl, hpc.2⟩
    · next c r hr =>
      rw [hr] at hpc
      simp only [ConsumerPc.consistent] at hpc
      obtain ⟨hc, hr2, hne⟩ := hpc
      have hpos : 0 < held s.keyboard := by
        unfold held KEYBOARD_BUFFER_SIZE
        omega
      obtain ⟨_, _, hb⟩ := buffered_pos s.keyboard hs he hpos
      refine ⟨?_, he, ?_, trivial⟩
      · simp only [KEYBOARD_BUFFER_SIZE]
        omega
      · simp only [KEYBOARD_BUFFER_SIZE]
        rw [hacc, hb, hr2, hc, List.append_assoc]
        rfl

/-- Every sequence of events keeps the invariant. -/
theorem invariant_steps (es : List Event) (s : Interleaving) (h : s.invariant) :
    (es.foldl Interleaving.step s).invariant := by
  induction es generalizing s with
  | nil => exact h
  | cons e es ih => exact ih (s.step e) (invariant_step s e h)

/-- A call of keyboard_getchar that no interrupt cuts into: its accesses, made
one after the other, leave the state keyboard_getchar leaves and hand over the
character keyboard_getchar returns when the ring is not empty. -/
theorem uninterrupted_getchar (s : Interleaving) (hidle : s.pc = ConsumerPc.idle) :
    ([Event.call_getchar, Event.access, Event.access, Event.access, Event.access,
        Event.access].foldl Interleaving.step s).keyboard = (keyboard_getchar s.keyboard).2 ∧
    ([Event.call_getchar, Event.access, Event.access, Event.access, Event.access,
        Event.access].foldl Interleaving.step s).pc = ConsumerPc.idle ∧
    ([Event.call_getchar, Event.access, Event.access, Event.access, Event.access,
        Event.access].foldl Interleaving.step s).obtained =
      if s.keyboard.buffer_start = s.keyboard.buffer_end then s.obtained
      else s.obtained ++ [(keyboard_getchar s.keyboard).1] := by
  by_cases h : s.keyboard.buffer_start = s.keyboard.buffer_end
  · simp [Interleaving.step, hidle, keyboard_getchar, h]
  · simp [Interleaving.step, hidle, keyboard_getchar, h]

/-- C29 (interrupted consumer). The main context makes the accesses of
keyboard_has_char and keyboard_getchar one at a time, and between any two of
them any number of keyboard interrupts (each one whole process_scancode) or
whole add_to_buffer calls may run. Whatever the order of events, the characters
keyboard_getchar has handed over, followed by the characters the ring still
holds, are exactly the characters the producer stored, in the order it stored
them (counting the ones the ring held at the start as stored): so the
characters obtained are a prefix of the characters accepted. -/
theorem interrupted_consumer (k : Keyboard) (es : List Event)
    (hs : k.buffer_start < 256) (he : k.buffer_end < 256) :
    (es.foldl Interleaving.step ⟨k, ConsumerPc.idle, buffered k, []⟩).accepted =
      (es.foldl Interleaving.step ⟨k, ConsumerPc.idle, buffered k, []⟩).obtained ++
        buffered (es.foldl Interleaving.step ⟨k, ConsumerPc.idle, buffered k, []⟩).keyboard ∧
    (es.foldl Interleaving.step ⟨k, ConsumerPc.idle, buffered k, []⟩).obtained <+:
      (es.foldl Interleaving.step ⟨k, ConsumerPc.idle, buffered k, []⟩).accepted := by
  have h := invariant_steps es ⟨k, ConsumerPc.idle, buffered k, []⟩
    ⟨hs, he, by simp, trivial⟩
  exact ⟨h.2.2.1, ⟨_, h.2.2.1.symm⟩⟩

set_option maxRecDepth 100000 in
theorem interrupted_consumer_witness :
    empty_ring.buffer_start < 256 ∧ empty_ring.buffer_end < 256 ∧
    ([Event.interrupt 0x1E, Event.call_getchar, Event.access, Event.interrupt 0x30,
        Event.access, Event.access, Event.push 99, Event.access, Event.access].foldl
      Interleaving.step ⟨empty_ring, ConsumerPc.idle, buffered empty_ring, []⟩).obtained
      = [97] ∧
    ([Event.interrupt 0x1E, Event.call_getchar, Event.access, Event.interrupt 0x30,
        Event.access, Event.access, Event.push 99, Event.access, Event.access].foldl
      Interleaving.step ⟨empty_ring, ConsumerPc.idle, buffered empty_ring, []⟩).accepted
      = [97, 98, 99] ∧
    ([Event.interrupt 0x1E, Event.call_getchar, Event.access, Event.interrupt 0x30,
        Event.access, Event.access, Event.push 99, Event.access, Event.access].foldl
      Interleaving.step ⟨empty_ring, ConsumerPc.idle, buffered empty_ring, []⟩).obtained <+:
    ([Event.interrupt 0x1E, Event.call_getchar, Event.access, Event.interrupt 0x30,
        Event.access, Event.access, Event.push 99, Event.access, Event.access].foldl
      Interleaving.step ⟨empty_ring, ConsumerPc.idle, buffered empty_ring, []⟩).accepted :=
  ⟨by decide, by decide, by decide, by decide,
    (interrupted_consumer empty_ring
      [Event.interrupt 0x1E, Event.call_getchar, Event.access, Event.interrupt 0x30,
        Event.access, Event.access, Event.push 99, Event.access, Event.access]
      (by decide) (by decide)).2⟩

/-! ## File names -/

/-- A name of 12 or more characters is turned down, whatever the directory
holds. -/
theorem fs_create_file_too_long (fs : Fs) (k : Kernel) (name : List Int)
    (hinit : fs.initialized ≠ 0) (hlen : ∀ i, i < 12 → name.getD i 0 ≠ 0) :
    (fs_create_file fs k name).1 = -1 ∧ (fs_create_file fs k name).2.1 = fs := by
  have htake : (List.range MAX_FILENAME_LENGTH).takeWhile
      (fun i => decide (name.getD i 0 ≠ 0)) = List.range MAX_FILENAME_LENGTH := by
    rw [List.takeWhile_eq_self_iff]
    intro i hi
    rw [List.mem_range] at hi
    simpa using hlen i hi
  have hge : ((List.range MAX_FILENAME_LENGTH).takeWhile
      (fun i => decide (name.getD i 0 ≠ 0))).length ≥ MAX_FILENAME_LENGTH := by
    rw [htake, List.length_range]
  simp only [fs_create_file, if_neg hinit, if_pos hge, and_self]

/-- A loop that counts up while a test holds stops at the first index where the
test fails, or at the bound. -/
theorem takeWhile_range_length (p : Nat → Bool) :
    ∀ (len s m : Nat), m ≤ len → (∀ i, s ≤ i → i < s + m → p i = true) →
      (m < len → p (s + m) = false) →
      ((List.range' s len).takeWhile p).length = m := by
  intro len
  induction len with
  | zero =>
    intro s m hm _ _
    have : m = 0 := by omega
    simp [this]
  | succ len ih =>
    intro s m hm hp hstop
    rw [List.range'_succ]
    cases m with
    | zero =>
      have h0 : p s = false := by simpa using hstop (by omega)
      simp [List.takeWhile, h0]
    | succ m =>
      have h0 : p s = true := hp s (le_refl s) (by omega)
      have hrec := ih (s + 1) m (by omega) (fun i h1 h2 => hp i (by omega) (by omega))
        (fun h => by
          have := hstop (by omega)
          rw [show s + 1 + m = s + (m + 1) by omega]
          exact this)
      simp [List.takeWhile, h0, hrec]

/-- A search loop returns the first index that passes the test. -/
theorem find_range_first (p : Nat → Bool) :
    ∀ (len s i : Nat), s ≤ i → i < s + len → p i = true →
      (∀ j, s ≤ j → j < i → p j = false) →
      (List.range' s len).find? p = some i := by
  intro len
  induction len with
  | zero =>
    intro s i h1 h2 _ _
    omega
  | succ len ih =>
    intro s i h1 h2 hp hbefore
    rw [List.range'_succ]
    by_cases hsi : s = i
    · subst hsi
      simp [List.find?, hp]
    · have h0 : p s = false := hbefore s (le_refl s) (by omega)
      simp only [List.find?, h0]
      exact ih (s + 1) i (by omega) (by omega) hp (fun j a b => hbefore j (by omega) b)

/-- The array a copy loop leaves: the source characters below the bound, the
old ones from the bound on. -/
theorem copy_loop (g : Nat → Int) (dest : Nat → Int) (n j : Nat) :
    (List.range n).foldl (fun d j => Function.update d j (g j)) dest j
      = if j < n then g j else dest j := by
  induction n with
  | zero => simp
  | succ n ih =>
    rw [List.range_succ, List.foldl_append]
    simp only [List.foldl_cons, List.foldl_nil]
    by_cases hj : j = n
    · subst hj
      simp
    · rw [Function.update_noteq hj, ih]
      have : (j < n) ↔ (j < n + 1) := by omega
      simp only [this]

/-- The array str_copy leaves for a name of at most max_len - 1 characters:
the name, then a NUL. -/
theorem str_copy_short (dest : Nat → Int) (name : List Int) (max_len : Nat)
    (hnz : ∀ c, c ∈ name → c ≠ 0) (hlen : name.length ≤ max_len - 1) :
    (∀ j, j < name.length → str_copy dest name max_len j = name.getD j 0) ∧
    str_copy dest name max_len name.length = 0 := by
  have hcount : ((List.range (max_len - 1)).takeWhile
      (fun i => decide (name.getD i 0 ≠ 0))).length = name.length := by
    rw [List.range_eq_range']
    apply takeWhile_range_length _ _ 0 _ hlen
    · intro i _ hi
      have hi2 : i < name.length := by omega
      have hmem : name[i] ∈ name := List.getElem_mem hi2
      have hget : name.getD i 0 = name[i] := List.getD_eq_getElem _ _ hi2
      simp only [hget, ne_eq, decide_eq_true_eq]
      exact hnz _ hmem
    · intro _
      simp [List.getD_eq_default]
  simp only [str_copy, hcount]
  refine ⟨?_, by rw [Function.update_same]⟩
  intro j hj
  rw [Function.update_noteq (by omega), copy_loop, if_pos hj]

/-- An array that holds a name followed by a NUL compares equal to the
name. -/
theorem str_compare_same (name : List Int) :
    ∀ (a : List Int), (∀ c, c ∈ name → c ≠ 0) →
      (∀ j, j < name.length → a.getD j 0 = name.getD j 0) →
      a.getD name.length 0 = 0 → str_compare a name = 1 := by
  induction name with
  | nil =>
    intro a _ _ h0
    cases a with
    | nil => simp [str_compare]
    | cons c a =>
      have hc : c = 0 := by simpa using h0
      simp [str_compare, hc]
  | cons c name ih =>
    intro a hnz hsame h0
    have hc : c ≠ 0 := hnz c (List.mem_cons_self c name)
    cases a with
    | nil =>
      have := hsame 0 (by simp)
      simp at this
      exact absurd this.symm hc
    | cons d a =>
      have hd : d = c := by simpa using hsame 0 (by simp)
      subst hd
      have hrec := ih a (fun x hx => hnz x (List.mem_cons_of_mem _ hx))
        (fun j hj => by simpa using hsame (j + 1) (by simpa using hj))
        (by simpa using h0)
      simp [str_compare, hc, hrec]

/-- The look-up loop returns the first used slot whose name compares equal. -/
theorem find_file_first (fs : Fs) (name : List Int) (i : Nat) (hi : i < 16)
    (hused : (fs.files i).flags &&& FILE_USED ≠ 0)
    (hcmp : str_compare (name_chars (fs.files i).name) name ≠ 0)
    (hbefore : ∀ j, j < i → ¬ ((fs.files j).flags &&& FILE_USED ≠ 0 ∧
      str_compare (name_chars (fs.files j).name) name ≠ 0)) :
    find_file fs name = some i := by
  unfold find_file
  rw [List.range_eq_range']
  apply find_range_first _ _ 0 i (Nat.zero_le i) (by unfold MAX_FILES; omega)
  · simp only [Bool.and_eq_true, decide_eq_true_eq]
    exact ⟨hused, hcmp⟩
  · intro j _ hj
    have := hbefore j hj
    simpa using this

/-- The characters of a name array, read by index. -/
theorem name_chars_getD (nm : Nat → Int) (j : Nat) (hj : j < 12) :
    (name_chars nm).getD j 0 = nm j := by
  have hlen : j < (name_chars nm).length := by
    simp [name_chars, MAX_FILENAME_LENGTH, hj]
  rw [List.getD_eq_getElem _ _ hlen]
  simp [name_chars]

/-- A name of at most 11 characters is taken: with the store initialised, no
file of that name and slot i the first free one, fs_create_file returns i, and
the look-up loop of fs_read_file and fs_write_file then finds the name in
slot i. -/
theorem fs_create_file_short (fs : Fs) (k : Kernel) (name : List Int) (i : Nat)
    (hinit : fs.initialized ≠ 0) (hnz : ∀ c, c ∈ name → c ≠ 0) (hlen : name.length ≤ 11)
    (hnew : find_file fs name = none)
    (hfree : (List.range MAX_FILES).find?
      (fun i => decide ((fs.files i).flags &&& FILE_USED = 0)) = some i) :
    (fs_create_file fs k name).1 = (i : Int) ∧
    find_file (fs_create_file fs k name).2.1 name = some i := by
  have hcount : ((List.range MAX_FILENAME_LENGTH).takeWhile
      (fun i => decide (name.getD i 0 ≠ 0))).length = name.length := by
    rw [List.range_eq_range']
    apply takeWhile_range_length _ _ 0 _ (by unfold MAX_FILENAME_LENGTH; omega)
    · intro j _ hj
      have hj2 : j < name.length := by omega
      have hmem : name[j] ∈ name := List.getElem_mem hj2
      have hget : name.getD j 0 = name[j] := List.getD_eq_getElem _ _ hj2
      simp only [hget, ne_eq, decide_eq_true_eq]
      exact hnz _ hmem
    · intro _
      simp [List.getD_eq_default]
  have hlt : ¬ name.length ≥ MAX_FILENAME_LENGTH := by
    unfold MAX_FILENAME_LENGTH
    omega
  have hi : i < 16 := by
    have := List.mem_of_find?_eq_some hfree
    simpa [MAX_FILES] using this
  simp only [fs_create_file, if_neg hinit, hcount, if_neg hlt, hnew, Option.isSome_none,
    Bool.false_eq_true, if_false, hfree, true_and]
  obtain ⟨h1, h2⟩ := str_copy_short (fs.files i).name name MAX_FILENAME_LENGTH hnz
    (by unfold MAX_FILENAME_LENGTH; omega)
  have hcmp := str_compare_same name
    (name_chars (str_copy (fs.files i).name name MAX_FILENAME_LENGTH)) hnz
    (fun j hj => by rw [name_chars_getD _ j (by omega)]; exact h1 j hj)
    (by rw [name_chars_getD _ _ (by omega)]; exact h2)
  apply find_file_first _ _ i hi
  · simp only [Function.update_same]
    decide
  · simp only [Function.update_same, hcmp]
    decide
  · intro j hj
    have hnone := List.find?_eq_none.mp hnew j (by simp [MAX_FILES]; omega)
    simp only [Function.update_noteq (Nat.ne_of_lt hj)]
    simpa using hnone

set_option maxRecDepth 100000 in
/-- C28 (file names in 8.3 format). On the file store as fs_init leaves it at
boot (initialised, all 16 slots free, no file of any name), fs_create_file
turns down the 8.3 name FILENAME.TXT, which has 8 characters, a dot and 3
characters, 12 in all: it returns -1 and leaves the directory as it was. The
same name one character shorter is taken and gets slot 0. -/
theorem file_name_8_3_rejected :
    booted_fs.initialized = 1 ∧
    (∀ i, i < 16 → (booted_fs.files i).flags &&& FILE_USED = 0) ∧
    (c_string "FILENAME.TXT").length = 12 ∧
    (c_string "FILENAME.TXT").length ≤ MAX_FILENAME_LENGTH ∧
    (fs_create_file booted_fs boot_kernel (c_string "FILENAME.TXT")).1 = -1 ∧
    find_file (fs_create_file booted_fs boot_kernel (c_string "FILENAME.TXT")).2.1
      (c_string "FILENAME.TXT") = none ∧
    (fs_create_file booted_fs boot_kernel (c_string "FILENAME.TX")).1 = 0 := by
  refine ⟨by decide, by decide, by decide, by decide, by decide, by decide, by decide⟩

/-! ## Backspace at the origin -/

/-- C34, as stated, fails: with the cursor at row 0, column 0 and the letter
'A' in that cell, putchar('\b') leaves the cursor at (0, 0) but stores a blank
in cell 0, so a screen cell has changed. -/
theorem backspace_at_origin_counterexample :
    origin_kernel.cursor_x = 0 ∧ origin_kernel.cursor_y = 0 ∧
    (putchar origin_kernel 8).cursor_x = 0 ∧ (putchar origin_kernel 8).cursor_y = 0 ∧
    origin_kernel.vga_buffer 0 = 0x0741 ∧
    (putchar origin_kernel 8).vga_buffer 0 = 0x0720 ∧
    (putchar origin_kernel 8).vga_buffer ≠ origin_kernel.vga_buffer := by
  have h := putchar_backspace_origin origin_kernel rfl rfl
  have h0 : (putchar origin_kernel 8).vga_buffer 0 = 0x0720 := by
    rw [h, update_cursor_vga_buffer]
    simp only [Function.update_same]
  refine ⟨rfl, rfl, by rw [h]; rfl, by rw [h]; rfl, rfl, h0, ?_⟩
  intro e
  rw [e] at h0
  exact absurd h0 (by decide)

/-- C34, amended. Backspace at the origin: putchar('\b') with the cursor at
row 0, column 0 leaves the cursor at (0, 0), stores a blank (0x0720) in cell 0
and leaves every other cell unchanged; so the screen is unchanged exactly when
cell 0 already held a blank. -/
theorem backspace_at_origin (k : Kernel) (hx : k.cursor_x = 0) (hy : k.cursor_y = 0) :
    (putchar k 8).cursor_x = 0 ∧ (putchar k 8).cursor_y = 0 ∧
    (putchar k 8).vga_buffer 0 = 0x0720 ∧
    (∀ i, i ≠ 0 → (putchar k 8).vga_buffer i = k.vga_buffer i) ∧
    ((putchar k 8).vga_buffer = k.vga_buffer ↔ k.vga_buffer 0 = 0x0720) := by
  have h := putchar_backspace_origin k hx hy
  have h0 : (putchar k 8).vga_buffer 0 = 0x0720 := by
    rw [h, update_cursor_vga_buffer]
    simp only [Function.update_same]
  have hrest : ∀ i, i ≠ 0 → (putchar k 8).vga_buffer i = k.vga_buffer i := by
    intro i hi
    rw [h, update_cursor_vga_buffer]
    simp only [Function.update_noteq hi]
  refine ⟨by rw [h]; exact hx, by rw [h]; exact hy, h0, hrest, ?_⟩
  constructor
  · intro e
    rw [← e]
    exact h0
  · intro hb
    funext i
    by_cases hi : i = 0
    · rw [hi, h0, hb]
    · exact hrest i hi

theorem backspace_at_origin_witness :
    (origin_kernel.cursor_x = 0 ∧ origin_kernel.cursor_y = 0) ∧
    (putchar origin_kernel 8).vga_buffer 0 = 0x0720 :=
  ⟨⟨rfl, rfl⟩, (backspace_at_origin origin_kernel rfl rfl).2.2.1⟩

/-! ## Table lookup bounds -/

set_option maxRecDepth 100000 in
/-- C32. Scancode table lookup is always in bounds: both tables have 128
entries; for every scancode byte and every state of the modifiers, a byte with
bit 7 set makes no lookup, and an index process_scancode reads the tables at is
the scancode itself and is below 128. The lookup is made exactly on the path
that decodes: with an index, process_scancode is the decoding step at that
index; without one, it leaves the ring alone. -/
theorem table_lookup_in_bounds (k : Keyboard) (scancode : Nat) (h : scancode < 256) :
    scancode_to_ascii.length = 128 ∧ scancode_to_ascii_shift.length = 128 ∧
    (scancode &&& 0x80 ≠ 0 → table_index scancode = none) ∧
    (∀ i, table_index scancode = some i →
      i < 128 ∧ i = scancode ∧
      process_scancode k scancode =
        if decode k i ≠ 0 then add_to_buffer k (decode k i) else k) ∧
    (table_index scancode = none →
      (process_scancode k scancode).keyboard_buffer = k.keyboard_buffer ∧
      (process_scancode k scancode).buffer_start = k.buffer_start ∧
      (process_scancode k scancode).buffer_end = k.buffer_end) := by
  refine ⟨by decide, by decide, ?_, ?_, ?_⟩
  · intro hb
    simp only [table_index, if_pos hb]
  · intro i hi
    simp only [table_index] at hi
    split_ifs at hi with h1 h2 h3 h4 h5
    have e : scancode = i := Option.some.inj hi
    subst e
    have hlt : scancode < 128 := by
      by_contra hge
      exact h1 (break_code_bit scancode (by omega) h).1
    refine ⟨hlt, rfl, ?_⟩
    exact process_scancode_plain k scancode hlt (fun e => h2 (Or.inl e))
      (fun e => h2 (Or.inr e)) h3 h4 h5
  · intro hn
    simp only [table_index] at hn
    simp only [process_scancode]
    split_ifs at hn ⊢ <;> exact ⟨rfl, rfl, rfl⟩

theorem table_lookup_in_bounds_witness :
    (0x1E : Nat) < 256 ∧ table_index 0x1E = some 0x1E ∧ (0x1E : Nat) < 128 :=
  ⟨by decide, rfl,
    ((table_lookup_in_bounds empty_ring 0x1E (by decide)).2.2.2.1 0x1E rfl).1⟩

/-! ## Stored characters are nonzero -/

/-- The three ring variables after process_scancode are those of the state
before, or those after one add_to_buffer of a nonzero character. -/
theorem process_scancode_ring_nonzero (k : Keyboard) (sc : Nat) :
    ((process_scancode k sc).keyboard_buffer = k.keyboard_buffer ∧
      (process_scancode k sc).buffer_start = k.buffer_start ∧
      (process_scancode k sc).buffer_end = k.buffer_end) ∨
    ∃ c, c ≠ 0 ∧
      (process_scancode k sc).keyboard_buffer = (add_to_buffer k c).keyboard_buffer ∧
      (process_scancode k sc).buffer_start = (add_to_buffer k c).buffer_start ∧
      (process_scancode k sc).buffer_end = (add_to_buffer k c).buffer_end := by
  simp only [process_scancode]
  split_ifs <;>
    first
    | exact Or.inl ⟨rfl, rfl, rfl⟩
    | exact Or.inr ⟨_, by assumption, rfl, rfl, rfl⟩

/-- A call of process_scancode or keyboard_getchar keeps every stored
character nonzero. -/
theorem nonzero_step (k : Keyboard) (call : KeyboardCall)
    (hcall : call = KeyboardCall.getchar ∨ ∃ sc, call = KeyboardCall.scancode sc)
    (hs : k.buffer_start < 256) (he : k.buffer_end < 256)
    (hnz : ∀ c, c ∈ buffered k → c ≠ 0) :
    ∀ c, c ∈ buffered (call.run k) → c ≠ 0 := by
  rcases hcall with e | ⟨sc, e⟩
  · subst e
    simp only [KeyboardCall.run]
    by_cases hse : k.buffer_start = k.buffer_end
    · simp only [keyboard_getchar, if_pos hse]
      exact hnz
    · have hpos : 0 < held k := by
        unfold held KEYBOARD_BUFFER_SIZE
        omega
      obtain ⟨_, _, hb⟩ := buffered_pos k hs he hpos
      rw [keyboard_getchar_nonempty k hse]
      intro c hc
      exact hnz c (by rw [hb]; exact List.mem_cons_of_mem _ hc)
  · subst e
    simp only [KeyboardCall.run]
    rcases process_scancode_ring_nonzero k sc with ⟨hb, hst, hen⟩ | ⟨x, hx, hb, hst, hen⟩
    · rw [buffered_congr k _ hb hst hen]
      exact hnz
    · rw [buffered_congr (add_to_buffer k x) _ hb hst hen]
      by_cases hroom : held k < 255
      · rw [buffered_add_to_buffer k x hs he hroom]
        intro c hc
        rcases List.mem_append.mp hc with h1 | h1
        · exact hnz c h1
        · rw [List.mem_singleton.mp h1]
          exact hx
      · have hfull : (k.buffer_end + 1) % 256 = k.buffer_start := by
          unfold held KEYBOARD_BUFFER_SIZE at hroom
          omega
        rw [add_to_buffer_full k x hfull]
        exact hnz

/-- Every sequence of process_scancode and keyboard_getchar calls keeps every
stored character nonzero. -/
theorem nonzero_steps (calls : List KeyboardCall) : ∀ k : Keyboard,
    (∀ call, call ∈ calls → call = KeyboardCall.getchar ∨ ∃ sc, call = KeyboardCall.scancode sc) →
    k.buffer_start < 256 → k.buffer_end < 256 → (∀ c, c ∈ buffered k → c ≠ 0) →
    ∀ c, c ∈ buffered (calls.foldl KeyboardCall.run k) → c ≠ 0 := by
  induction calls with
  | nil => intro k _ _ _ hnz; exact hnz
  | cons call calls ih =>
    intro k hcalls hs he hnz
    obtain ⟨a, b⟩ := keyboard_call_indices k call hs he
    exact ih (call.run k) (fun x hx => hcalls x (List.mem_cons_of_mem _ hx)) a b
      (nonzero_step k call (hcalls call (List.mem_cons_self _ _)) hs he hnz)

/-- C33. A zero return means empty: in every state reached from a state left
by keyboard_init through any sequence of process_scancode and keyboard_getchar
calls, every character stored between buffer_start and buffer_end is nonzero,
and keyboard_getchar returns 0 if and only if buffer_start = buffer_end, that
is, the ring is empty. -/
theorem zero_means_empty (hw : Hardware) (fuel : Nat) (k k0 : Kernel)
    (calls : List KeyboardCall) (hinit : keyboard_init hw fuel k = some k0)
    (hcalls : ∀ call, call ∈ calls →
      call = KeyboardCall.getchar ∨ ∃ sc, call = KeyboardCall.scancode sc) :
    (∀ c, c ∈ buffered (calls.foldl KeyboardCall.run k0.keyboard) → c ≠ 0) ∧
    (∀ i, i < held (calls.foldl KeyboardCall.run k0.keyboard) →
      (calls.foldl KeyboardCall.run k0.keyboard).keyboard_buffer
        (((calls.foldl KeyboardCall.run k0.keyboard).buffer_start + i) % 256) ≠ 0) ∧
    ((keyboard_getchar (calls.foldl KeyboardCall.run k0.keyboard)).1 = 0 ↔
      (calls.foldl KeyboardCall.run k0.keyboard).buffer_start =
        (calls.foldl KeyboardCall.run k0.keyboard).buffer_end) := by
  have h0 := keyboard_init_keyboard hw fuel k k0 hinit
  have hs0 : k0.keyboard.buffer_start < 256 := by rw [h0]; show (0 : Nat) < 256; decide
  have he0 : k0.keyboard.buffer_end < 256 := by rw [h0]; show (0 : Nat) < 256; decide
  have hempty : buffered k0.keyboard = [] := by
    have : held k0.keyboard = 0 := held_empty k0.keyboard (by rw [h0])
    simp [buffered, this]
  have hnz := nonzero_steps calls k0.keyboard hcalls hs0 he0
    (by rw [hempty]; intro c hc; cases hc)
  obtain ⟨hs, he⟩ := keyboard_calls_indices calls k0.keyboard hs0 he0
  refine ⟨hnz, ?_, ?_⟩
  · intro i hi
    apply hnz
    unfold buffered
    exact List.mem_map.mpr ⟨i, List.mem_range.mpr hi, rfl⟩
  · constructor
    · intro hz
      by_contra hne
      have hpos : 0 < held (calls.foldl KeyboardCall.run k0.keyboard) := by
        unfold held KEYBOARD_BUFFER_SIZE
        omega
      obtain ⟨_, _, hb⟩ := buffered_pos _ hs he hpos
      rw [keyboard_getchar_nonempty _ hne] at hz
      exact hnz _ (by rw [hb]; exact List.mem_cons_self _ _) hz
    · intro hse
      simp only [keyboard_getchar, if_pos hse]

theorem zero_means_empty_witness :
    keyboard_init idle_hardware 1 boot_kernel =
      some (print (inb idle_hardware boot_kernel 0x64).2
        (c_string "Keyboard driver initialized\n")) ∧
    (∀ call, call ∈ [KeyboardCall.scancode 0x1E, KeyboardCall.getchar, KeyboardCall.getchar] →
      call = KeyboardCall.getchar ∨ ∃ sc, call = KeyboardCall.scancode sc) ∧
    ((keyboard_getchar
        ([KeyboardCall.scancode 0x1E, KeyboardCall.getchar, KeyboardCall.getchar].foldl
          KeyboardCall.run
          (print (inb idle_hardware boot_kernel 0x64).2
            (c_string "Keyboard driver initialized\n")).keyboard)).1 = 0 ↔
      ([KeyboardCall.scancode 0x1E, KeyboardCall.getchar, KeyboardCall.getchar].foldl
          KeyboardCall.run
          (print (inb idle_hardware boot_kernel 0x64).2
            (c_string "Keyboard driver initialized\n")).keyboard).buffer_start =
      ([KeyboardCall.scancode 0x1E, KeyboardCall.getchar, KeyboardCall.getchar].foldl
          KeyboardCall.run
          (print (inb idle_hardware boot_kernel 0x64).2
            (c_string "Keyboard driver initialized\n")).keyboard).buffer_end) :=
  ⟨rfl, by simp,
    (zero_means_empty idle_hardware 1 boot_kernel _
      [KeyboardCall.scancode 0x1E, KeyboardCall.getchar, KeyboardCall.getchar] rfl
      (by simp)).2.2⟩

/-! ## Console bounds -/

theorem scroll_screen_accesses_mem (i : Nat) :
    i ∈ scroll_screen_accesses ↔ i < 2000 := by
  simp only [scroll_screen_accesses, VGA_WIDTH, VGA_HEIGHT, List.mem_append, List.mem_flatMap,
    List.mem_range, List.mem_map, List.mem_cons, List.mem_singleton, List.not_mem_nil,
    or_false]
  constructor
  · rintro (⟨y, hy, x, hx, h | h⟩ | ⟨x, hx, h⟩) <;> omega
  · intro hi
    by_cases h : i < 1920
    · exact Or.inl ⟨i / 80, by omega, i % 80, by omega, Or.inr (by omega)⟩
    · exact Or.inr ⟨i - 1920, by omega, by omega⟩

/-- The cells scroll_screen leaves out of its loops keep their contents. -/
theorem scroll_screen_untouched (k : Kernel) (i : Nat) (hi : i ∉ scroll_screen_accesses) :
    (scroll_screen k).vga_buffer i = k.vga_buffer i := by
  rw [scroll_screen_accesses_mem] at hi
  rw [scroll_screen_cells, if_neg (by omega), if_neg hi]

/-- The cells putchar touches, case by case, for a cursor within the grid
bounds. -/
theorem putchar_accesses_eq (k : Kernel) (c : Int)
    (hx : k.cursor_x ≤ 80) (hy : k.cursor_y ≤ 24) :
    putchar_accesses k c =
      if c = 10 then (if k.cursor_y = 24 then scroll_screen_accesses else [])
      else if c = 8 then
        [if 0 < k.cursor_x then k.cursor_y * 80 + (k.cursor_x - 1)
         else if 0 < k.cursor_y then (k.cursor_y - 1) * 80 + 79 else 0]
      else if 80 ≤ k.cursor_x then
        (if k.cursor_y = 24 then scroll_screen_accesses ++ [1920]
         else [(k.cursor_y + 1) * 80])
      else [k.cursor_y * 80 + k.cursor_x] := by
  have hy1 : u32 (k.cursor_y + 1) = k.cursor_y + 1 := u32_small _ (by omega)
  by_cases hn : c = 10
  · simp only [putchar_accesses, if_pos hn, hy1, VGA_HEIGHT]
    by_cases h24 : k.cursor_y = 24
    · rw [if_pos (by omega), if_pos h24]
    · rw [if_neg (by omega), if_neg h24]
  · by_cases hb : c = 8
    · simp only [putchar_accesses, if_neg hn, if_pos hb, VGA_WIDTH, gt_iff_lt]
      by_cases h0 : 0 < k.cursor_x
      · simp only [if_pos h0]
        rw [u32_small _ (by omega)]
      · simp only [if_neg h0]
        by_cases h1 : 0 < k.cursor_y
        · simp only [if_pos h1]
          rw [u32_small _ (by omega)]
        · simp only [if_neg h1]
          have e0 : k.cursor_x = 0 := by omega
          have e1 : k.cursor_y = 0 := by omega
          rw [e0, e1]
          rfl
    · simp only [putchar_accesses, if_neg hn, if_neg hb, VGA_WIDTH, VGA_HEIGHT, ge_iff_le, hy1]
      by_cases h80 : 80 ≤ k.cursor_x
      · simp only [if_pos h80]
        by_cases h24 : k.cursor_y = 24
        · rw [if_pos (by omega), if_pos h24]
          have e : u32 ((25 - 1) * 80 + 0) = 1920 := rfl
          simp only [e]
        · rw [if_neg (by omega), if_neg h24]
          simp only [List.nil_append]
          rw [u32_small _ (by omega)]
          simp
      · simp only [if_neg h80, List.nil_append]
        rw [u32_small _ (by omega)]

/-- Storing one value in the cells 0..n-1. -/
theorem clear_cells (v n : Nat) (buf : Nat → Nat) (i : Nat) :
    (List.range n).foldl (fun buf j => Function.update buf j v) buf i =
      if i < n then v else buf i := by
  have h := fill_cells 0 n v buf i
  simp only [Nat.zero_add, Nat.zero_le, true_and] at h
  exact h

/-- What putchar does to the cursor and to the cells, for a cursor within the
grid bounds: the bounds are kept, every cell touched is inside the grid, every
other cell keeps its contents, and a printable character is stored at a column
below 80. -/
theorem putchar_console (k : Kernel) (c : Int)
    (hx : k.cursor_x ≤ 80) (hy : k.cursor_y ≤ 24) :
    ((putchar k c).cursor_x ≤ 80 ∧ (putchar k c).cursor_y ≤ 24) ∧
    (∀ i, i ∈ putchar_accesses k c → i < 2000) ∧
    (∀ i, i ∉ putchar_accesses k c → (putchar k c).vga_buffer i = k.vga_buffer i) ∧
    (c ≠ 10 → c ≠ 8 → ∃ x y, x < 80 ∧ y ≤ 24 ∧
      (putchar_accesses k c).getLast? = some (y * 80 + x) ∧
      (putchar k c).vga_buffer (y * 80 + x) = char_cell c ∧
      (putchar k c).cursor_x = x + 1 ∧ (putchar k c).cursor_y = y) := by
  have hacc := putchar_accesses_eq k c hx hy
  by_cases hn : c = 10
  · subst hn
    simp only [if_true] at hacc
    by_cases h24 : k.cursor_y = 24
    · have hput := putchar_newline_last k h24
      rw [if_pos h24] at hacc
      refine ⟨?_, ?_, ?_, fun h => absurd rfl h⟩
      · rw [hput]
        simp only [update_cursor_cursor_x, update_cursor_cursor_y]
        omega
      · intro i hi
        rw [hacc] at hi
        exact (scroll_screen_accesses_mem i).mp hi
      · intro i hi
        rw [hacc] at hi
        rw [hput, update_cursor_vga_buffer]
        exact scroll_screen_untouched k i hi
    · have hput := putchar_newline k (by omega)
      rw [if_neg h24] at hacc
      refine ⟨?_, ?_, ?_, fun h => absurd rfl h⟩
      · rw [hput]
        simp only [update_cursor_cursor_x, update_cursor_cursor_y]
        omega
      · intro i hi
        rw [hacc] at hi
        cases hi
      · intro i _
        rw [hput, update_cursor_vga_buffer]
  · by_cases hb : c = 8
    · subst hb
      simp only [if_neg hn, if_true] at hacc
      by_cases h0 : 0 < k.cursor_x
      · have hput := putchar_backspace_column k h0 (by omega)
        rw [if_pos h0] at hacc
        refine ⟨?_, ?_, ?_, fun _ h => absurd rfl h⟩
        · rw [hput]
          simp only [update_cursor_cursor_x, update_cursor_cursor_y]
          omega
        · intro i hi
          rw [hacc, List.mem_singleton] at hi
          omega
        · intro i hi
          rw [hacc, List.mem_singleton] at hi
          rw [hput, update_cursor_vga_buffer]
          simp only [Function.update_noteq hi]
      · rw [if_neg h0] at hacc
        by_cases h1 : 0 < k.cursor_y
        · have hput := putchar_backspace_row k (by omega) h1 (by omega)
          rw [if_pos h1] at hacc
          refine ⟨?_, ?_, ?_, fun _ h => absurd rfl h⟩
          · rw [hput]
            simp only [update_cursor_cursor_x, update_cursor_cursor_y]
            omega
          · intro i hi
            rw [hacc, List.mem_singleton] at hi
            omega
          · intro i hi
            rw [hacc, List.mem_singleton] at hi
            rw [hput, update_cursor_vga_buffer]
            simp only [Function.update_noteq hi]
        · have hput := putchar_backspace_origin k (by omega) (by omega)
          rw [if_neg h1] at hacc
          refine ⟨?_, ?_, ?_, fun _ h => absurd rfl h⟩
          · rw [hput]
            simp only [update_cursor_cursor_x, update_cursor_cursor_y]
            omega
          · intro i hi
            rw [hacc, List.mem_singleton] at hi
            omega
          · intro i hi
            rw [hacc, List.mem_singleton] at hi
            rw [hput, update_cursor_vga_buffer]
            simp only [Function.update_noteq hi]
    · simp only [if_neg hn, if_neg hb] at hacc
      by_cases h80 : 80 ≤ k.cursor_x
      · rw [if_pos h80] at hacc
        by_cases h24 : k.cursor_y = 24
        · have hput := putchar_printable_scroll k c hn hb h80 h24
          rw [if_pos h24] at hacc
          refine ⟨?_, ?_, ?_, fun _ _ => ⟨0, 24, by omega, by omega, ?_, ?_, ?_, ?_⟩⟩
          · rw [hput]
            simp only [update_cursor_cursor_x, update_cursor_cursor_y]
            omega
          · intro i hi
            rw [hacc, List.mem_append, List.mem_singleton, scroll_screen_accesses_mem] at hi
            omega
          · intro i hi
            rw [hacc, List.mem_append, List.mem_singleton, scroll_screen_accesses_mem] at hi
            rw [hput, update_cursor_vga_buffer]
            simp only
            rw [Function.update_noteq (by omega), scroll_screen_cells, if_neg (by omega),
              if_neg (by omega)]
          · rw [hacc]
            simp
          · rw [hput, update_cursor_vga_buffer]
            simp only [Function.update_same]
          · rw [hput]
            rfl
          · rw [hput]
            rfl
        · have hput := putchar_printable_wrap k c hn hb h80 (by omega)
          rw [if_neg h24] at hacc
          refine ⟨?_, ?_, ?_,
            fun _ _ => ⟨0, k.cursor_y + 1, by omega, by omega, ?_, ?_, ?_, ?_⟩⟩
          · rw [hput]
            simp only [update_cursor_cursor_x, update_cursor_cursor_y]
            omega
          · intro i hi
            rw [hacc, List.mem_singleton] at hi
            omega
          · intro i hi
            rw [hacc, List.mem_singleton] at hi
            rw [hput, update_cursor_vga_buffer]
            simp only [Function.update_noteq hi]
          · rw [hacc]
            simp
          · rw [hput, update_cursor_vga_buffer]
            simp only [Nat.add_zero, Function.update_same]
          · rw [hput]
            rfl
          · rw [hput]
            rfl
      · have hput := putchar_printable k c hn hb (by omega) (by omega)
        rw [if_neg h80] at hacc
        refine ⟨?_, ?_, ?_,
          fun _ _ => ⟨k.cursor_x, k.cursor_y, by omega, by omega, ?_, ?_, ?_, ?_⟩⟩
        · rw [hput]
          simp only [update_cursor_cursor_x, update_cursor_cursor_y]
          omega
        · intro i hi
          rw [hacc, List.mem_singleton] at hi
          omega
        · intro i hi
          rw [hacc, List.mem_singleton] at hi
          rw [hput, update_cursor_vga_buffer]
          simp only [Function.update_noteq hi]
        · rw [hacc]
          simp
        · rw [hput, update_cursor_vga_buffer]
          simp only [Function.update_same]
        · rw [hput]
          rfl
        · rw [hput]
          rfl

/-- C31. Console bounds: if cursor_x <= 80 and cursor_y <= 24 before a call of
putchar(c) or clear_screen, the same bounds hold afterwards, for every
character c; every cell index putchar, scroll_screen or clear_screen reads or
writes is below 2000, and the cells outside those indices keep their contents;
a printable character is stored at a column below 80, the cursor ending one
column to its right. -/
theorem console_bounds (k : Kernel) (c : Int)
    (hx : k.cursor_x ≤ 80) (hy : k.cursor_y ≤ 24) :
    ((putchar k c).cursor_x ≤ 80 ∧ (putchar k c).cursor_y ≤ 24) ∧
    ((clear_screen k).cursor_x ≤ 80 ∧ (clear_screen k).cursor_y ≤ 24) ∧
    (∀ i, i ∈ putchar_accesses k c → i < 2000) ∧
    (∀ i, i ∈ scroll_screen_accesses → i < 2000) ∧
    (∀ i, i ∈ clear_screen_accesses → i < 2000) ∧
    (∀ i, i ∉ putchar_accesses k c → (putchar k c).vga_buffer i = k.vga_buffer i) ∧
    (∀ i, i ∉ scroll_screen_accesses → (scroll_screen k).vga_buffer i = k.vga_buffer i) ∧
    (∀ i, i ∉ clear_screen_accesses → (clear_screen k).vga_buffer i = k.vga_buffer i) ∧
    (c ≠ 10 → c ≠ 8 → ∃ x y, x < 80 ∧ y ≤ 24 ∧
      (putchar_accesses k c).getLast? = some (y * 80 + x) ∧
      (putchar k c).vga_buffer (y * 80 + x) = char_cell c ∧
      (putchar k c).cursor_x = x + 1 ∧ (putchar k c).cursor_y = y) := by
  obtain ⟨h1, h2, h3, h4⟩ := putchar_console k c hx hy
  obtain ⟨buf, hclear⟩ := clear_screen_eq k
  have hcells : (clear_screen k).vga_buffer =
      (List.range (VGA_WIDTH * VGA_HEIGHT)).foldl
        (fun buf i => Function.update buf i (((WHITE_ON_BLACK <<< 8) ||| 32) % 65536))
        k.vga_buffer := by
    simp only [clear_screen, update_cursor, outb]
  refine ⟨h1, ?_, h2, fun i hi => (scroll_screen_accesses_mem i).mp hi, ?_, h3,
    scroll_screen_untouched k, ?_, h4⟩
  · rw [hclear]
    simp only [update_cursor_cursor_x, update_cursor_cursor_y]
    omega
  · intro i hi
    simpa [clear_screen_accesses, VGA_WIDTH, VGA_HEIGHT] using hi
  · intro i hi
    have hi2 : ¬ i < VGA_WIDTH * VGA_HEIGHT := by
      simpa [clear_screen_accesses] using hi
    rw [hcells, clear_cells, if_neg hi2]

theorem console_bounds_witness :
    (origin_kernel.cursor_x ≤ 80 ∧ origin_kernel.cursor_y ≤ 24) ∧
    (putchar origin_kernel 120).cursor_x ≤ 80 ∧ (putchar origin_kernel 120).cursor_y ≤ 24 :=
  ⟨⟨by decide, by decide⟩, (console_bounds origin_kernel 120 (by decide) (by decide)).1⟩

/-! ## File write and read -/

/-- A loop that stores v j at address a j for j < n, the addresses being
distinct: each address a i holds v i afterwards and every other address keeps
its contents. -/
theorem store_loop (a v : Nat → Nat) (m : Nat → Nat) (n : Nat)
    (hinj : ∀ i j, i < n → j < n → a i = a j → i = j) :
    (∀ i, i < n →
      (List.range n).foldl (fun m j => Function.update m (a j) (v j)) m (a i) = v i) ∧
    (∀ x, (∀ j, j < n → a j ≠ x) →
      (List.range n).foldl (fun m j => Function.update m (a j) (v j)) m x = m x) := by
  induction n with
  | zero =>
    exact ⟨fun i hi => absurd hi (Nat.not_lt_zero i), fun x _ => rfl⟩
  | succ n ih =>
    obtain ⟨ih1, ih2⟩ := ih (fun i j hi hj => hinj i j (by omega) (by omega))
    rw [List.range_succ, List.foldl_append]
    simp only [List.foldl_cons, List.foldl_nil]
    constructor
    · intro i hi
      by_cases hin : i = n
      · subst hin
        rw [Function.update_same]
      · have hne : a i ≠ a n := fun e => hin (hinj i n hi (by omega) e)
        rw [Function.update_noteq hne]
        exact ih1 i (by omega)
    · intro x hx
      rw [Function.update_noteq (fun e => hx n (by omega) e.symm)]
      exact ih2 x (fun j hj => hx j (by omega))

/-- A loop that copies src j to cell j for j < n. -/
theorem read_loop (src : Nat → Nat) (buf : Nat → Nat) (n i : Nat) :
    (List.range n).foldl (fun b j => Function.update b j (src j)) buf i =
      if i < n then src i else buf i := by
  induction n with
  | zero => simp
  | succ n ih =>
    rw [List.range_succ, List.foldl_append]
    simp only [List.foldl_cons, List.foldl_nil]
    by_cases hi : i = n
    · subst hi
      simp
    · rw [Function.update_noteq hi, ih]
      have : (i < n) ↔ (i < n + 1) := by omega
      simp only [this]

/-- The look-up loop reads the flags and the names only. -/
theorem find_file_congr (fs fs2 : Fs) (name : List Int)
    (h : ∀ i, (fs2.files i).flags = (fs.files i).flags ∧
      (fs2.files i).name = (fs.files i).name) :
    find_file fs2 name = find_file fs name := by
  unfold find_file
  congr 1
  funext i
  rw [(h i).1, (h i).2]

/-- The slot the look-up loop returns is one of the 16. -/
theorem find_file_lt (fs : Fs) (name : List Int) (idx : Nat)
    (h : find_file fs name = some idx) : idx < 16 := by
  have := List.mem_of_find?_eq_some h
  simpa [MAX_FILES] using this

theorem to_int_small (n : Nat) (h : n < 2147483648) : to_int n = (n : Int) := by
  unfold to_int
  have h1 : n % 4294967296 = n := Nat.mod_eq_of_lt (by omega)
  rw [h1, if_pos h]

/-- The value fs_write_file returns and the store it leaves, for a file that is
present and a size within the limit. -/
theorem fs_write_file_eq (fs : Fs) (k : Kernel) (name : List Int) (data : Nat → Nat)
    (s idx : Nat) (hinit : fs.initialized ≠ 0) (hpresent : find_file fs name = some idx)
    (hs : s ≤ 512) :
    (fs_write_file fs k name data s).1 = to_int s ∧
    (fs_write_file fs k name data s).2.1 =
      { fs with
        memory := (List.range s).foldl
          (fun m i => Function.update m
            (u32 (u32 (fs.data_area + (fs.files idx).data_offset) + i)) (data i % 256))
          fs.memory
        files := Function.update fs.files idx { fs.files idx with size := s } } := by
  have hle : ¬ s > FILE_SIZE := by
    unfold FILE_SIZE
    omega
  simp only [fs_write_file, if_neg hinit, hpresent, if_neg hle, and_self]

/-- The value fs_read_file returns and the buffer it leaves, for a file that is
present. -/
theorem fs_read_file_eq (fs : Fs) (k : Kernel) (name : List Int) (buffer : Nat → Nat)
    (size idx : Nat) (hinit : fs.initialized ≠ 0) (hpresent : find_file fs name = some idx) :
    (fs_read_file fs k name buffer size).1 =
      to_int (if (fs.files idx).size > size then size else (fs.files idx).size) ∧
    (fs_read_file fs k name buffer size).2.1 =
      (List.range (if (fs.files idx).size > size then size else (fs.files idx).size)).foldl
        (fun b i => Function.update b i (file_byte fs idx i)) buffer := by
  simp only [fs_read_file, if_neg hinit, hpresent, file_byte, and_self]

/-- The addresses of the bytes of a file, under the layout of fs_init. -/
theorem file_address (fs : Fs) (hl : fs_layout fs) (i b : Nat) (hi : i < 16) (hb : b < 512) :
    u32 (u32 (fs.data_area + (fs.files i).data_offset) + b) = fs.data_area + i * 512 + b := by
  obtain ⟨_, hoff, harea⟩ := hl
  rw [hoff i hi]
  unfold u32
  omega

/-- The store fs_write_file leaves, field by field: only the size of the file
written and the first s bytes of its data have changed. -/
theorem fs_write_file_store (fs : Fs) (k : Kernel) (name : List Int) (data : Nat → Nat)
    (s idx : Nat) (hl : fs_layout fs) (hpresent : find_file fs name = some idx)
    (hs : s ≤ 512) :
    (fs_write_file fs k name data s).2.1.initialized = fs.initialized ∧
    (fs_write_file fs k name data s).2.1.data_area = fs.data_area ∧
    (∀ i, ((fs_write_file fs k name data s).2.1.files i).flags = (fs.files i).flags ∧
      ((fs_write_file fs k name data s).2.1.files i).name = (fs.files i).name ∧
      ((fs_write_file fs k name data s).2.1.files i).data_offset =
        (fs.files i).data_offset) ∧
    ((fs_write_file fs k name data s).2.1.files idx).size = s ∧
    (∀ j, j ≠ idx →
      ((fs_write_file fs k name data s).2.1.files j).size = (fs.files j).size) ∧
    (∀ i, i < s →
      (fs_write_file fs k name data s).2.1.memory (fs.data_area + idx * 512 + i)
        = data i % 256) ∧
    (∀ x, (∀ i, i < s → fs.data_area + idx * 512 + i ≠ x) →
      (fs_write_file fs k name data s).2.1.memory x = fs.memory x) := by
  have hidx := find_file_lt fs name idx hpresent
  obtain ⟨_, hfs⟩ := fs_write_file_eq fs k name data s idx hl.1 hpresent hs
  have haddr : ∀ i, i < s →
      u32 (u32 (fs.data_area + (fs.files idx).data_offset) + i)
        = fs.data_area + idx * 512 + i :=
    fun i hi => file_address fs hl idx i hidx (by omega)
  obtain ⟨hst1, hst2⟩ := store_loop
    (fun i => u32 (u32 (fs.data_area + (fs.files idx).data_offset) + i))
    (fun i => data i % 256) fs.memory s
    (fun i j hi hj e => by
      simp only [haddr i hi, haddr j hj] at e
      omega)
  rw [hfs]
  refine ⟨rfl, rfl, ?_, ?_, ?_, ?_, ?_⟩
  · intro i
    simp only
    by_cases hi : i = idx
    · subst hi
      simp only [Function.update_same, and_self]
    · simp only [Function.update_noteq hi, and_self]
  · simp only [Function.update_same]
  · intro j hj
    simp only [Function.update_noteq hj]
  · intro i hi
    have := hst1 i hi
    simp only [haddr i hi] at this
    exact this
  · intro x hx
    exact hst2 x (fun j hj => by
      simp only [haddr j hj]
      exact hx j hj)

set_option maxRecDepth 100000 in
/-- The store after boot, and after one file has been created, has the layout
of fs_init, and the file created is found by its name. -/
theorem one_file_fs_layout :
    fs_layout booted_fs ∧ fs_layout one_file_fs ∧
    find_file one_file_fs (c_string "NOTES.TXT") = some 0 := by
  unfold fs_layout
  decide

/-- C37. File write/read round trip: with the store laid out as fs_init leaves
it and a file named n present (in slot idx), for every block of s <= 512 bytes
fs_write_file(n, data, s) returns s, and a following fs_read_file(n, buf, 512)
returns s and leaves buf[0..s) equal to data[0..s) and the rest of buf as it
was; the sizes and the 512 data bytes of every other file are unchanged by the
write, and the store keeps its layout and still finds n in the same slot. For
s > 512 fs_write_file returns -1 and leaves the store unchanged. -/
theorem write_read_round_trip (fs : Fs) (k k2 : Kernel) (name : List Int)
    (data buf : Nat → Nat) (s idx : Nat)
    (hl : fs_layout fs) (hpresent : find_file fs name = some idx)
    (hdata : ∀ i, data i < 256) :
    (s ≤ 512 →
      (fs_write_file fs k name data s).1 = (s : Int) ∧
      (fs_read_file (fs_write_file fs k name data s).2.1 k2 name buf 512).1 = (s : Int) ∧
      (∀ i, i < s →
        (fs_read_file (fs_write_file fs k name data s).2.1 k2 name buf 512).2.1 i = data i) ∧
      (∀ i, s ≤ i →
        (fs_read_file (fs_write_file fs k name data s).2.1 k2 name buf 512).2.1 i = buf i) ∧
      (∀ j, j < 16 → j ≠ idx →
        ((fs_write_file fs k name data s).2.1.files j).size = (fs.files j).size ∧
        ∀ b, b < 512 →
          file_byte (fs_write_file fs k name data s).2.1 j b = file_byte fs j b) ∧
      fs_layout (fs_write_file fs k name data s).2.1 ∧
      find_file (fs_write_file fs k name data s).2.1 name = some idx) ∧
    (512 < s →
      (fs_write_file fs k name data s).1 = -1 ∧
      (fs_write_file fs k name data s).2.1 = fs) := by
  have hidx := find_file_lt fs name idx hpresent
  constructor
  · intro hs
    obtain ⟨hret, _⟩ := fs_write_file_eq fs k name data s idx hl.1 hpresent hs
    obtain ⟨hinit, harea, hfields, hsize, hsizes, hwritten, hrest⟩ :=
      fs_write_file_store fs k name data s idx hl hpresent hs
    have hl2 : fs_layout (fs_write_file fs k name data s).2.1 := by
      refine ⟨by rw [hinit]; exact hl.1, ?_, by rw [harea]; exact hl.2.2⟩
      intro i hi
      rw [(hfields i).2.2]
      exact hl.2.1 i hi
    have hfind : find_file (fs_write_file fs k name data s).2.1 name = some idx := by
      rw [find_file_congr fs _ name (fun i => ⟨(hfields i).1, (hfields i).2.1⟩)]
      exact hpresent
    obtain ⟨hr1, hr2⟩ := fs_read_file_eq (fs_write_file fs k name data s).2.1 k2 name buf
      512 idx hl2.1 hfind
    rw [hsize, if_neg (by omega)] at hr1 hr2
    have hbyte : ∀ i, i < s → file_byte (fs_write_file fs k name data s).2.1 idx i = data i := by
      intro i hi
      unfold file_byte
      rw [file_address _ hl2 idx i hidx (by omega), harea, hwritten i hi]
      exact Nat.mod_eq_of_lt (hdata i)
    refine ⟨by rw [hret]; exact to_int_small s (by omega),
      by rw [hr1]; exact to_int_small s (by omega), ?_, ?_, ?_, hl2, hfind⟩
    · intro i hi
      rw [hr2, read_loop, if_pos hi]
      exact hbyte i hi
    · intro i hi
      rw [hr2, read_loop, if_neg (by omega)]
    · intro j hj hne
      refine ⟨hsizes j hne, ?_⟩
      intro b hb
      unfold file_byte
      rw [file_address _ hl2 j b hj hb, file_address fs hl j b hj hb, harea]
      exact hrest _ (fun i hi => by omega)
  · intro hs
    have hgt : s > FILE_SIZE := by
      unfold FILE_SIZE
      omega
    simp only [fs_write_file, if_neg hl.1, hpresent, if_pos hgt, and_self]

theorem write_read_round_trip_witness :
    (fs_layout one_file_fs ∧ find_file one_file_fs (c_string "NOTES.TXT") = some 0 ∧
      (∀ i, (fun i => (i + 65) % 256) i < 256) ∧ (3 : Nat) ≤ 512) ∧
    (fs_write_file one_file_fs boot_kernel (c_string "NOTES.TXT")
      (fun i => (i + 65) % 256) 3).1 = 3 ∧
    (fs_read_file
      (fs_write_file one_file_fs boot_kernel (c_string "NOTES.TXT")
        (fun i => (i + 65) % 256) 3).2.1
      boot_kernel (c_string "NOTES.TXT") (fun _ => 0) 512).1 = 3 :=
  ⟨⟨one_file_fs_layout.2.1, one_file_fs_layout.2.2, fun i => Nat.mod_lt _ (by decide),
      by decide⟩,
    ((write_read_round_trip one_file_fs boot_kernel boot_kernel
      (c_string "NOTES.TXT") (fun i => (i + 65) % 256) (fun _ => 0) 3 0
      one_file_fs_layout.2.1 one_file_fs_layout.2.2
      (fun i => Nat.mod_lt _ (by decide))).1 (by decide)).1,
    ((write_read_round_trip one_file_fs boot_kernel boot_kernel
      (c_string "NOTES.TXT") (fun i => (i + 65) % 256) (fun _ => 0) 3 0
      one_file_fs_layout.2.1 one_file_fs_layout.2.2
      (fun i => Nat.mod_lt _ (by decide))).1 (by decide)).2.1⟩

/-! ## Process table lemmas -/

theorem putchar_process (k : Kernel) (c : Int) :
    (putchar k c).process_table = k.process_table ∧ (putchar k c).next_pid = k.next_pid ∧
    (putchar k c).current_process = k.current_process := by
  simp only [putchar]
  split_ifs <;> exact ⟨rfl, rfl, rfl⟩

theorem foldl_putchar_process (cs : List Int) : ∀ k : Kernel,
    (cs.foldl putchar k).process_table = k.process_table ∧
    (cs.foldl putchar k).next_pid = k.next_pid ∧
    (cs.foldl putchar k).current_process = k.current_process := by
  induction cs with
  | nil => intro k; exact ⟨rfl, rfl, rfl⟩
  | cons c cs ih =>
    intro k
    obtain ⟨a, b, d⟩ := ih (putchar k c)
    obtain ⟨a2, b2, d2⟩ := putchar_process k c
    rw [List.foldl_cons, a, b, d, a2, b2, d2]
    exact ⟨rfl, rfl, rfl⟩

/-- Printing leaves the process table, next_pid and current_process alone. -/
theorem print_process (k : Kernel) (str : List Int) :
    (print k str).process_table = k.process_table ∧ (print k str).next_pid = k.next_pid ∧
    (print k str).current_process = k.current_process :=
  foldl_putchar_process _ k

theorem print_dec_process (k : Kernel) (n : Nat) :
    (print_dec k n).process_table = k.process_table ∧ (print_dec k n).next_pid = k.next_pid ∧
    (print_dec k n).current_process = k.current_process := by
  unfold print_dec
  split
  · exact putchar_process k 48
  · exact foldl_putchar_process _ k

/-- A loop that rewrites entry i of a table from its old value, for i < n. -/
theorem update_loop {α : Type} (f : Nat → α → α) (t : Nat → α) (n j : Nat) :
    (List.range n).foldl (fun t i => Function.update t i (f i (t i))) t j
      = if j < n then f j (t j) else t j := by
  induction n generalizing j with
  | zero => simp
  | succ n ih =>
    rw [List.range_succ, List.foldl_append]
    simp only [List.foldl_cons, List.foldl_nil]
    by_cases hj : j = n
    · subst hj
      rw [Function.update_same, ih, if_neg (Nat.lt_irrefl j), if_pos (Nat.lt_succ_self j)]
    · rw [Function.update_noteq hj, ih]
      have : (j < n) ↔ (j < n + 1) := by omega
      simp only [this]

/-- The state init_processes leaves: slot 0 running with pid 0 and current,
slots 1..7 free. -/
theorem init_processes_eq (k : Kernel) :
    ∃ (table : Nat → Pcb) (nm : Nat → Int) (str : List Int),
      init_processes k =
        print { k with
          process_table := Function.update table 0
            { pid := 0, state := PROCESS_RUNNING, name := nm }
          current_process := some 0 } str ∧
      ∀ j, 0 < j → j < 8 → (table j).state = PROCESS_ZOMBIE := by
  refine ⟨_, _, _, rfl, ?_⟩
  intro j _ h8
  have h := update_loop
    (fun (_ : Nat) (p : Pcb) =>
      ({ pid := 0, state := PROCESS_ZOMBIE
         name := (List.range 32).foldl (fun nm j => Function.update nm j 0) p.name } : Pcb))
    k.process_table 8 j
  rw [if_pos h8] at h
  exact congrArg Pcb.state h

theorem init_processes_invariant (k : Kernel) (h : k.next_pid = 1) :
    process_invariant (init_processes k) 0 0 := by
  obtain ⟨table, nm, str, e, hz⟩ := init_processes_eq k
  obtain ⟨a, b, d⟩ := print_process
    { k with
      process_table := Function.update table 0
        { pid := 0, state := PROCESS_RUNNING, name := nm }
      current_process := some 0 } str
  rw [← e] at a b d
  refine ⟨by omega, le_refl 0, d, by rw [b]; exact h, ?_, ?_⟩
  · intro i hi
    have : i = 0 := by omega
    subst this
    rw [a]
    simp only [Function.update_same, if_true, and_self]
  · intro i h0 h8
    rw [a]
    simp only [Function.update_noteq (Nat.ne_of_gt h0)]
    exact hz i h0 h8

theorem print_process_table (k : Kernel) (str : List Int) :
    (print k str).process_table = k.process_table := (print_process k str).1

theorem print_next_pid (k : Kernel) (str : List Int) :
    (print k str).next_pid = k.next_pid := (print_process k str).2.1

theorem print_current_process (k : Kernel) (str : List Int) :
    (print k str).current_process = k.current_process := (print_process k str).2.2

theorem print_dec_process_table (k : Kernel) (n : Nat) :
    (print_dec k n).process_table = k.process_table := (print_dec_process k n).1

theorem print_dec_next_pid (k : Kernel) (n : Nat) :
    (print_dec k n).next_pid = k.next_pid := (print_dec_process k n).2.1

theorem print_dec_current_process (k : Kernel) (n : Nat) :
    (print_dec k n).current_process = k.current_process := (print_dec_process k n).2.2

theorem int_bits_small (n : Nat) (h : n < 4294967296) : int_bits (n : Int) = n := by
  unfold int_bits
  have e : ((n : Int) % 4294967296) = (n : Int) := Int.emod_eq_of_lt (by omega) (by omega)
  rw [e]
  exact Int.toNat_ofNat n

/-- The process state create_process leaves when its search loop stops at a
free slot. -/
theorem create_process_slot (k : Kernel) (name : List Int) (slot : Nat)
    (h : (List.range' 1 (MAX_PROCESSES - 1)).find?
      (fun i => decide ((k.process_table i).state = PROCESS_ZOMBIE)) = some slot) :
    (create_process k name).1 = to_int (int_bits k.next_pid) ∧
    ((create_process k name).2.process_table slot).pid = int_bits k.next_pid ∧
    ((create_process k name).2.process_table slot).state = PROCESS_READY ∧
    (∀ j, j ≠ slot → (create_process k name).2.process_table j = k.process_table j) ∧
    (create_process k name).2.next_pid = k.next_pid + 1 ∧
    (create_process k name).2.current_process = k.current_process := by
  refine ⟨?_, ?_, ?_, ?_, ?_, ?_⟩
  · simp only [create_process, h, print_process_table, print_dec_process_table,
      Function.update_same]
  · simp only [create_process, h, print_process_table, print_dec_process_table,
      Function.update_same]
  · simp only [create_process, h, print_process_table, print_dec_process_table,
      Function.update_same]
  · intro j hj
    simp only [create_process, h, print_process_table, print_dec_process_table,
      Function.update_noteq hj]
  · simp only [create_process, h, print_next_pid, print_dec_next_pid]
  · simp only [create_process, h, print_current_process, print_dec_current_process]

/-- The process state create_process leaves when every slot is taken. -/
theorem create_process_full (k : Kernel) (name : List Int)
    (h : (List.range' 1 (MAX_PROCESSES - 1)).find?
      (fun i => decide ((k.process_table i).state = PROCESS_ZOMBIE)) = none) :
    (create_process k name).1 = -1 ∧
    (create_process k name).2.process_table = k.process_table ∧
    (create_process k name).2.next_pid = k.next_pid ∧
    (create_process k name).2.current_process = k.current_process := by
  simp only [create_process, h, print_process_table, print_next_pid, print_current_process,
    and_self]

theorem active_not_zombie (i cur : Nat) :
    (if i = cur then PROCESS_RUNNING else PROCESS_READY) ≠ PROCESS_ZOMBIE := by
  split <;> decide

/-- A call of create_process keeps the shape of the process state: with a slot
free it takes slot m + 1, gives it pid m + 1 and returns m + 1; with all eight
slots taken it returns -1 and changes nothing of the process state. -/
theorem create_process_invariant (k : Kernel) (name : List Int) (m cur : Nat)
    (h : process_invariant k m cur) :
    (m < 7 → process_invariant (create_process k name).2 (m + 1) cur ∧
      (create_process k name).1 = (m : Int) + 1) ∧
    (m = 7 → process_invariant (create_process k name).2 m cur ∧
      (create_process k name).1 = -1) := by
  obtain ⟨hm, hcm, hcur, hnext, hact, hz⟩ := h
  constructor
  · intro hlt
    have hfind : (List.range' 1 (MAX_PROCESSES - 1)).find?
        (fun i => decide ((k.process_table i).state = PROCESS_ZOMBIE)) = some (m + 1) := by
      apply find_range_first _ _ 1 (m + 1) (by omega) (by unfold MAX_PROCESSES; omega)
      · simp only [decide_eq_true_eq]
        exact hz (m + 1) (by omega) (by omega)
      · intro j _ hj
        simp only [decide_eq_false_iff_not]
        rw [(hact j (by omega)).2]
        exact active_not_zombie j cur
    obtain ⟨hret, hpid, hstate, hothers, hnp, hcp⟩ := create_process_slot k name (m + 1) hfind
    have hbits : int_bits k.next_pid = m + 1 := by
      rw [hnext]
      exact int_bits_small (m + 1) (by omega)
    refine ⟨⟨by omega, by omega, by rw [hcp]; exact hcur, ?_, ?_, ?_⟩, ?_⟩
    · rw [hnp, hnext]
      push_cast
      rfl
    · intro i hi
      by_cases him : i = m + 1
      · subst him
        rw [hpid, hstate, hbits, if_neg (by omega)]
        exact ⟨rfl, rfl⟩
      · rw [hothers i him]
        exact hact i (by omega)
    · intro i h1 h8
      rw [hothers i (by omega)]
      exact hz i (by omega) h8
    · rw [hret, hbits, to_int_small _ (by omega)]
      push_cast
      rfl
  · intro h7
    have hfind : (List.range' 1 (MAX_PROCESSES - 1)).find?
        (fun i => decide ((k.process_table i).state = PROCESS_ZOMBIE)) = none := by
      rw [List.find?_eq_none]
      intro x hx
      rw [List.mem_range'] at hx
      obtain ⟨i, hi, e⟩ := hx
      simp only [MAX_PROCESSES] at hi
      simp only [decide_eq_true_eq]
      rw [(hact x (by omega)).2]
      exact active_not_zombie x cur
    obtain ⟨hret, htable, hnp, hcp⟩ := create_process_full k name hfind
    refine ⟨⟨hm, hcm, by rw [hcp]; exact hcur, by rw [hnp]; exact hnext, ?_, ?_⟩, hret⟩
    · intro i hi
      rw [htable]
      exact hact i hi
    · intro i h1 h8
      rw [htable]
      exact hz i h1 h8

/-- The switch schedule makes when one of its two search loops stops at a slot
other than the current one, the current process being in state RUNNING in the
slot its pid names. -/
theorem schedule_switch (k : Kernel) (cur next : Nat)
    (hcur : k.current_process = some cur)
    (hpid : to_int (k.process_table cur).pid = (cur : Int))
    (hrun : (k.process_table cur).state = PROCESS_RUNNING) (hne : next ≠ cur)
    (hslot :
      (List.range MAX_PROCESSES).find?
        (fun (i : Nat) => decide ((cur : Int) + 1 ≤ (i : Int)) &&
          decide ((k.process_table i).state = PROCESS_READY)) = some next ∨
      ((List.range MAX_PROCESSES).find?
        (fun (i : Nat) => decide ((cur : Int) + 1 ≤ (i : Int)) &&
          decide ((k.process_table i).state = PROCESS_READY)) = none ∧
       (List.range MAX_PROCESSES).find?
        (fun (i : Nat) => decide ((i : Int) ≤ (cur : Int)) &&
          (decide ((k.process_table i).state = PROCESS_READY) ||
            decide ((k.process_table i).state = PROCESS_RUNNING))) = some next)) :
    schedule k = some
      { k with
        process_table := Function.update
          (Function.update k.process_table cur
            { k.process_table cur with state := PROCESS_READY })
          next { k.process_table next with state := PROCESS_RUNNING }
        current_process := some next } := by
  have hnn : ¬ ((cur : Int) < -1) := by omega
  have hne2 : (next : Int) ≠ (cur : Int) := fun e => hne (Int.ofNat.inj e)
  have hupd : Function.update k.process_table cur
      { k.process_table cur with state := PROCESS_READY } next = k.process_table next :=
    Function.update_noteq hne _ _
  rcases hslot with h1 | ⟨h1, h2⟩
  · simp only [schedule, hcur, hpid, if_neg hnn, h1, ne_eq, hne2, not_false_eq_true, if_true,
      hrun, hupd]
  · simp only [schedule, hcur, hpid, if_neg hnn, h1, h2, ne_eq, hne2, not_false_eq_true,
      if_true, hrun, hupd]

/-- The case where schedule changes nothing: the first loop finds no slot and
the wrap-around loop stops at the current slot. -/
theorem schedule_stay (k : Kernel) (cur : Nat)
    (hcur : k.current_process = some cur)
    (hpid : to_int (k.process_table cur).pid = (cur : Int))
    (h1 : (List.range MAX_PROCESSES).find?
        (fun (i : Nat) => decide ((cur : Int) + 1 ≤ (i : Int)) &&
          decide ((k.process_table i).state = PROCESS_READY)) = none)
    (h2 : (List.range MAX_PROCESSES).find?
        (fun (i : Nat) => decide ((i : Int) ≤ (cur : Int)) &&
          (decide ((k.process_table i).state = PROCESS_READY) ||
            decide ((k.process_table i).state = PROCESS_RUNNING))) = some cur) :
    schedule k = some k := by
  have hnn : ¬ ((cur : Int) < -1) := by omega
  simp only [schedule, hcur, hpid, if_neg hnn, h1, h2, ne_eq, not_true_eq_false, if_false]

/-- Handing the processor from slot cur to another active slot keeps the shape
of the process state. -/
theorem switch_invariant (k : Kernel) (m cur next : Nat) (h : process_invariant k m cur)
    (hn : next ≤ m) (hne : next ≠ cur) :
    process_invariant
      { k with
        process_table := Function.update
          (Function.update k.process_table cur
            { k.process_table cur with state := PROCESS_READY })
          next { k.process_table next with state := PROCESS_RUNNING }
        current_process := some next } m next := by
  obtain ⟨hm, hcm, hcur, hnext, hact, hz⟩ := h
  refine ⟨hm, hn, rfl, hnext, ?_, ?_⟩
  · intro i hi
    simp only
    by_cases h1 : i = next
    · subst h1
      simp only [Function.update_same, if_true, and_true]
      exact (hact i hi).1
    · rw [Function.update_noteq h1, if_neg h1]
      by_cases h2 : i = cur
      · subst h2
        simp only [Function.update_same, and_true]
        exact (hact i hi).1
      · rw [Function.update_noteq h2]
        have := hact i hi
        rw [if_neg h2] at this
        exact this
  · intro i h1 h8
    simp only
    rw [Function.update_noteq (by omega), Function.update_noteq (by omega)]
    exact hz i h1 h8

/-- A call of schedule returns and keeps the shape of the process state: the
processor goes to the next active slot in cyclic order, and nothing changes
when the kernel process is the only one. -/
theorem schedule_invariant (k : Kernel) (m cur : Nat) (h : process_invariant k m cur) :
    ∃ k2, schedule k = some k2 ∧ process_invariant k2 m ((cur + 1) % (m + 1)) ∧
      (m = 0 → k2 = k) := by
  have h0 := h
  obtain ⟨hm, hcm, hcur, hnext, hact, hz⟩ := h
  have hpid : to_int (k.process_table cur).pid = (cur : Int) := by
    rw [(hact cur hcm).1]
    exact to_int_small cur (by omega)
  have hrun : (k.process_table cur).state = PROCESS_RUNNING := by
    rw [(hact cur hcm).2, if_pos rfl]
  by_cases hlt : cur < m
  · have hfirst : (List.range MAX_PROCESSES).find?
        (fun (i : Nat) => decide ((cur : Int) + 1 ≤ (i : Int)) &&
          decide ((k.process_table i).state = PROCESS_READY)) = some (cur + 1) := by
      rw [List.range_eq_range']
      apply find_range_first _ _ 0 (cur + 1) (by omega) (by unfold MAX_PROCESSES; omega)
      · simp only [Bool.and_eq_true, decide_eq_true_eq]
        refine ⟨by push_cast; omega, ?_⟩
        rw [(hact (cur + 1) (by omega)).2, if_neg (by omega)]
      · intro j _ hj
        simp only [Bool.and_eq_false_imp, decide_eq_true_eq]
        intro hle
        omega
    have hmod : (cur + 1) % (m + 1) = cur + 1 := Nat.mod_eq_of_lt (by omega)
    rw [hmod]
    exact ⟨_, schedule_switch k cur (cur + 1) hcur hpid hrun (by omega) (Or.inl hfirst),
      switch_invariant k m cur (cur + 1) h0 (by omega) (by omega), fun e => by omega⟩
  · have hcm2 : cur = m := by omega
    have hfirst : (List.range MAX_PROCESSES).find?
        (fun (i : Nat) => decide ((cur : Int) + 1 ≤ (i : Int)) &&
          decide ((k.process_table i).state = PROCESS_READY)) = none := by
      rw [List.find?_eq_none]
      intro x hx
      rw [List.mem_range] at hx
      simp only [MAX_PROCESSES] at hx
      simp only [Bool.and_eq_true, decide_eq_true_eq, not_and]
      intro hle
      rw [hz x (by omega) hx]
      decide
    have hmod : (cur + 1) % (m + 1) = 0 := by
      rw [hcm2]
      exact Nat.mod_self (m + 1)
    rw [hmod]
    by_cases hm0 : m = 0
    · have hc0 : cur = 0 := by omega
      have hwrap : (List.range MAX_PROCESSES).find?
          (fun (i : Nat) => decide ((i : Int) ≤ (cur : Int)) &&
            (decide ((k.process_table i).state = PROCESS_READY) ||
              decide ((k.process_table i).state = PROCESS_RUNNING))) = some cur := by
        rw [List.range_eq_range']
        apply find_range_first _ _ 0 cur (by omega) (by unfold MAX_PROCESSES; omega)
        · simp only [Bool.and_eq_true, Bool.or_eq_true, decide_eq_true_eq]
          exact ⟨le_refl _, Or.inr hrun⟩
        · intro j _ hj
          omega
      refine ⟨k, schedule_stay k cur hcur hpid hfirst hwrap, ?_, fun _ => rfl⟩
      rw [hc0] at h0
      exact h0
    · have hwrap : (List.range MAX_PROCESSES).find?
          (fun (i : Nat) => decide ((i : Int) ≤ (cur : Int)) &&
            (decide ((k.process_table i).state = PROCESS_READY) ||
              decide ((k.process_table i).state = PROCESS_RUNNING))) = some 0 := by
        rw [List.range_eq_range']
        apply find_range_first _ _ 0 0 (by omega) (by unfold MAX_PROCESSES; omega)
        · simp only [Bool.and_eq_true, Bool.or_eq_true, decide_eq_true_eq]
          refine ⟨by push_cast; omega, Or.inl ?_⟩
          rw [(hact 0 (by omega)).2, if_neg (by omega)]
        · intro j _ hj
          omega
      exact ⟨_, schedule_switch k cur 0 hcur hpid hrun (by omega) (Or.inr ⟨hfirst, hwrap⟩),
        switch_invariant k m cur 0 h0 (by omega) (by omega), fun e => absurd e hm0⟩

/-- The slot after cur among the active slots 0..m, in cyclic order. -/
theorem next_slot_cases (m cur : Nat) (hcm : cur ≤ m) :
    (cur < m ∧ (cur + 1) % (m + 1) = cur + 1) ∨ (cur = m ∧ (cur + 1) % (m + 1) = 0) := by
  by_cases h : cur < m
  · exact Or.inl ⟨h, Nat.mod_eq_of_lt (by omega)⟩
  · have e : cur = m := by omega
    exact Or.inr ⟨e, by rw [e]; exact Nat.mod_self (m + 1)⟩

/-- In the shape with m created processes, the first READY slot in cyclic order
after the current one is the next active slot, when there is a created
process. -/
theorem first_ready_after_iff (k : Kernel) (m cur n : Nat) (h : process_invariant k m cur) :
    first_ready_after k cur n ↔ (1 ≤ m ∧ n = (cur + 1) % (m + 1)) := by
  obtain ⟨hm, hcm, hcur, hnext, hact, hz⟩ := h
  have hready : ∀ i, i ≤ m → i ≠ cur → (k.process_table i).state = PROCESS_READY := by
    intro i hi hne
    rw [(hact i hi).2, if_neg hne]
  have hzombie : ∀ i, m < i → i < 8 → (k.process_table i).state ≠ PROCESS_READY := by
    intro i h1 h8
    rw [hz i h1 h8]
    decide
  constructor
  · rintro ⟨hn8, hne, hst, hfirst⟩
    have hnm : n ≤ m := by
      by_contra hgt
      exact hzombie n (by omega) hn8 hst
    rcases next_slot_cases m cur hcm with ⟨hlt, e⟩ | ⟨heq, e⟩
    · rw [e]
      refine ⟨by omega, ?_⟩
      by_contra hn1
      have hd := hfirst 1 (le_refl 1) (by omega)
      have e1 : (cur + 1) % 8 = cur + 1 := by omega
      rw [e1] at hd
      exact hd (hready (cur + 1) (by omega) (by omega))
    · rw [e]
      refine ⟨by omega, ?_⟩
      by_contra hn0
      have hd := hfirst (8 - cur) (by omega) (by omega)
      have e1 : (cur + (8 - cur)) % 8 = 0 := by omega
      rw [e1] at hd
      exact hd (hready 0 (by omega) (by omega))
  · rintro ⟨hm1, hn⟩
    rcases next_slot_cases m cur hcm with ⟨hlt, e⟩ | ⟨heq, e⟩
    · rw [e] at hn
      subst hn
      refine ⟨by omega, by omega, hready (cur + 1) (by omega) (by omega), ?_⟩
      intro d h1 h2
      omega
    · rw [e] at hn
      subst hn
      refine ⟨by omega, by omega, hready 0 (by omega) (by omega), ?_⟩
      intro d h1 h2
      have e1 : (cur + d) % 8 = cur + d := by omega
      rw [e1]
      exact hzombie (cur + d) (by omega) (by omega)

/-- In the shape with m created processes, no slot other than the current one
is READY exactly when no process has been created. -/
theorem no_other_ready_iff (k : Kernel) (m cur : Nat) (h : process_invariant k m cur) :
    (∀ i, i < 8 → i ≠ cur → (k.process_table i).state ≠ PROCESS_READY) ↔ m = 0 := by
  obtain ⟨hm, hcm, hcur, hnext, hact, hz⟩ := h
  constructor
  · intro hnone
    by_contra hm0
    by_cases hc0 : cur = 0
    · refine hnone 1 (by omega) (by omega) ?_
      rw [(hact 1 (by omega)).2, if_neg (by omega)]
    · refine hnone 0 (by omega) (by omega) ?_
      rw [(hact 0 (by omega)).2, if_neg (by omega)]
  · intro hm0 i h8 hne
    rw [hz i (by omega) h8]
    decide

/-- In the shape with m created processes, exactly the current slot is
RUNNING, and every slot that is not free holds its own index as pid. -/
theorem invariant_facts (k : Kernel) (m cur : Nat) (h : process_invariant k m cur) :
    cur < 8 ∧ k.current_process = some cur ∧
    (∀ i, i < 8 → ((k.process_table i).state = PROCESS_RUNNING ↔ i = cur)) ∧
    (∀ i, i < 8 → (k.process_table i).state ≠ PROCESS_ZOMBIE → (k.process_table i).pid = i) := by
  obtain ⟨hm, hcm, hcur, hnext, hact, hz⟩ := h
  refine ⟨by omega, hcur, ?_, ?_⟩
  · intro i h8
    by_cases him : i ≤ m
    · rw [(hact i him).2]
      by_cases hic : i = cur
      · rw [if_pos hic]
        exact ⟨fun _ => hic, fun _ => rfl⟩
      · rw [if_neg hic]
        exact ⟨fun e => absurd e (by decide), fun e => absurd e hic⟩
    · rw [hz i (by omega) h8]
      constructor
      · intro e
        exact absurd e (by decide)
      · intro e
        omega
  · intro i h8 hnz
    by_cases him : i ≤ m
    · exact (hact i him).1
    · exact absurd (hz i (by omega) h8) hnz

/-- Rewriting the state field of one entry keeps every pid and every name. -/
theorem state_update_keeps (table : Nat → Pcb) (slot st i : Nat) :
    (Function.update table slot { table slot with state := st } i).pid = (table i).pid ∧
    (Function.update table slot { table slot with state := st } i).name = (table i).name := by
  by_cases h : i = slot
  · subst h
    simp only [Function.update_same, and_self]
  · simp only [Function.update_noteq h, and_self]

/-- When schedule returns, it has changed at most state fields of the process
table and current_process: every pid, every name, next_pid and everything
outside the process table are as before. -/
theorem schedule_keeps (k k2 : Kernel) (h : schedule k = some k2) :
    ∃ table cur, k2 = { k with process_table := table, current_process := cur } ∧
      ∀ i, (table i).pid = (k.process_table i).pid ∧
        (table i).name = (k.process_table i).name := by
  unfold schedule at h
  split at h
  · cases h
  · dsimp only at h
    split at h
    · cases h
    · split at h
      · cases h
      · cases h
        exact ⟨_, _, rfl, fun i => ⟨rfl, rfl⟩⟩
      · split at h
        · cases h
          refine ⟨_, _, rfl, ?_⟩
          intro i
          split
          · obtain ⟨a, b⟩ := state_update_keeps
              (Function.update k.process_table _
                { k.process_table _ with state := PROCESS_READY }) _ PROCESS_RUNNING i
            obtain ⟨c, d⟩ := state_update_keeps k.process_table _ PROCESS_READY i
            exact ⟨a.trans c, b.trans d⟩
          · exact state_update_keeps k.process_table _ PROCESS_RUNNING i
        · cases h
          exact ⟨_, _, rfl, fun i => ⟨rfl, rfl⟩⟩

theorem process_calls_cons (call : ProcessCall) (calls : List ProcessCall) (k k1 : Kernel)
    (h : call.run k = some k1) :
    process_calls (call :: calls) k = process_calls calls k1 := by
  simp only [process_calls, List.foldl_cons, Option.some_bind, h]

theorem process_calls_append (a b : List ProcessCall) (k k1 : Kernel)
    (h : process_calls a k = some k1) :
    process_calls (a ++ b) k = process_calls b k1 := by
  unfold process_calls at h ⊢
  rw [List.foldl_append, h]

/-- One call of create_process or schedule returns and keeps the shape of the
process state. -/
theorem call_invariant (k : Kernel) (call : ProcessCall) (m cur : Nat)
    (h : process_invariant k m cur) :
    ∃ k1 m1 cur1, call.run k = some k1 ∧ process_invariant k1 m1 cur1 := by
  cases call with
  | create name =>
    obtain ⟨h1, h2⟩ := create_process_invariant k name m cur h
    by_cases hm : m < 7
    · exact ⟨_, _, _, rfl, (h1 hm).1⟩
    · have h7 : m = 7 := by
        have := h.1
        omega
      exact ⟨_, _, _, rfl, (h2 h7).1⟩
  | schedule =>
    obtain ⟨k2, hs, hinv, _⟩ := schedule_invariant k m cur h
    exact ⟨k2, _, _, hs, hinv⟩

/-- Every sequence of create_process and schedule calls returns and keeps the
shape of the process state. -/
theorem calls_invariant (calls : List ProcessCall) : ∀ (k : Kernel) (m cur : Nat),
    process_invariant k m cur →
    ∃ k1 m1 cur1, process_calls calls k = some k1 ∧ process_invariant k1 m1 cur1 := by
  induction calls with
  | nil => intro k m cur h; exact ⟨k, m, cur, rfl, h⟩
  | cons call calls ih =>
    intro k m cur h
    obtain ⟨k1, m1, cur1, hrun, hinv⟩ := call_invariant k call m cur h
    obtain ⟨k2, m2, cur2, hrest, hinv2⟩ := ih k1 m1 cur1 hinv
    exact ⟨k2, m2, cur2, by rw [process_calls_cons call calls k k1 hrun]; exact hrest, hinv2⟩

/-- As long as slots are free, each create_process call takes the next one. -/
theorem creates_invariant (names : List (List Int)) : ∀ (k : Kernel) (m cur : Nat),
    process_invariant k m cur → m + names.length ≤ 7 →
    ∃ k1, process_calls (names.map ProcessCall.create) k = some k1 ∧
      process_invariant k1 (m + names.length) cur := by
  induction names with
  | nil => intro k m cur h _; exact ⟨k, rfl, h⟩
  | cons name names ih =>
    intro k m cur h hlen
    simp only [List.length_cons] at hlen
    obtain ⟨h1, _⟩ := create_process_invariant k name m cur h
    obtain ⟨k2, hrest, hinv2⟩ := ih (create_process k name).2 (m + 1) cur (h1 (by omega)).1
      (by omega)
    refine ⟨k2, ?_, ?_⟩
    · rw [List.map_cons,
        process_calls_cons (ProcessCall.create name) _ k (create_process k name).2 rfl]
      exact hrest
    · rw [List.length_cons, show m + (names.length + 1) = m + 1 + names.length by omega]
      exact hinv2

/-- With m created processes, j calls of schedule in a row move the processor
j slots on, round the active slots 0..m. -/
theorem schedules_invariant (j : Nat) : ∀ (k : Kernel) (m cur : Nat),
    process_invariant k m cur →
    ∃ k1, process_calls (List.replicate j ProcessCall.schedule) k = some k1 ∧
      process_invariant k1 m ((cur + j) % (m + 1)) := by
  induction j with
  | zero =>
    intro k m cur h
    refine ⟨k, rfl, ?_⟩
    rw [Nat.add_zero, Nat.mod_eq_of_lt (by have := h.2.1; omega)]
    exact h
  | succ j ih =>
    intro k m cur h
    obtain ⟨k2, hs, hinv, _⟩ := schedule_invariant k m cur h
    obtain ⟨k3, hrest, hinv3⟩ := ih k2 m ((cur + 1) % (m + 1)) hinv
    refine ⟨k3, ?_, ?_⟩
    · rw [List.replicate_succ, process_calls_cons ProcessCall.schedule _ k k2 hs]
      exact hrest
    · rw [Nat.mod_add_mod, show cur + 1 + j = cur + (j + 1) by omega] at hinv3
      exact hinv3

/-! ## Round-robin scheduling and the running process -/

/-- C35. Round-robin scheduling: in every state reached from init_processes (at
boot, next_pid = 1) by create_process and schedule calls, every slot that is
not free holds its own index as pid, so the current pid indexes the current
slot; schedule returns, changes nothing when no other slot is READY, and
otherwise makes the first READY slot in cyclic slot order after the current
slot the current, RUNNING process (the old one becoming READY). After k <= 7
create_process calls, the j-th following call of schedule leaves slot
j mod (k + 1) current. -/
theorem round_robin (k0 : Kernel) (calls : List ProcessCall) (names : List (List Int))
    (j : Nat) (hpid : k0.next_pid = 1) (hnames : names.length ≤ 7) :
    (∃ k cur k2, process_calls calls (init_processes k0) = some k ∧
      cur < 8 ∧ k.current_process = some cur ∧
      to_int (k.process_table cur).pid = (cur : Int) ∧
      (∀ i, i < 8 → (k.process_table i).state ≠ PROCESS_ZOMBIE →
        (k.process_table i).pid = i) ∧
      schedule k = some k2 ∧
      ((∀ i, i < 8 → i ≠ cur → (k.process_table i).state ≠ PROCESS_READY) → k2 = k) ∧
      (∀ n, first_ready_after k cur n →
        k2.current_process = some n ∧ (k2.process_table n).state = PROCESS_RUNNING ∧
        (k2.process_table cur).state = PROCESS_READY) ∧
      ((∃ i, i < 8 ∧ i ≠ cur ∧ (k.process_table i).state = PROCESS_READY) →
        ∃ n, first_ready_after k cur n)) ∧
    (∃ kf, process_calls
        (names.map ProcessCall.create ++ List.replicate j ProcessCall.schedule)
        (init_processes k0) = some kf ∧
      kf.current_process = some (j % (names.length + 1))) := by
  have h0 := init_processes_invariant k0 hpid
  constructor
  · obtain ⟨k, m, cur, hk, hinv⟩ := calls_invariant calls _ 0 0 h0
    obtain ⟨hc8, hcur, hrun, hpids⟩ := invariant_facts k m cur hinv
    obtain ⟨k2, hs, hinv2, hm0⟩ := schedule_invariant k m cur hinv
    refine ⟨k, cur, k2, hk, hc8, hcur, ?_, hpids, hs, ?_, ?_, ?_⟩
    · rw [hpids cur hc8 (by rw [(hrun cur hc8).mpr rfl]; decide)]
      exact to_int_small cur (by omega)
    · intro hnone
      exact hm0 ((no_other_ready_iff k m cur hinv).mp hnone)
    · intro n hn
      have hne : n ≠ cur := hn.2.1
      obtain ⟨_, e⟩ := (first_ready_after_iff k m cur n hinv).mp hn
      rw [← e] at hinv2
      obtain ⟨_, hcur2, hrun2, _⟩ := invariant_facts k2 m n hinv2
      refine ⟨hcur2, (hrun2 n hn.1).mpr rfl, ?_⟩
      rw [(hinv2.2.2.2.2.1 cur hinv.2.1).2, if_neg (fun e2 => hne e2.symm)]
    · rintro ⟨i, h8, hne, hst⟩
      have hm1 : m ≠ 0 := fun e =>
        (no_other_ready_iff k m cur hinv).mpr e i h8 hne hst
      exact ⟨_, (first_ready_after_iff k m cur _ hinv).mpr ⟨by omega, rfl⟩⟩
  · obtain ⟨k1, hk1, hinv1⟩ := creates_invariant names _ 0 0 h0 (by omega)
    obtain ⟨kf, hkf, hinvf⟩ := schedules_invariant j k1 _ 0 hinv1
    refine ⟨kf, ?_, ?_⟩
    · rw [process_calls_append _ _ _ k1 hk1]
      exact hkf
    · rw [hinvf.2.2.1, Nat.zero_add, Nat.zero_add]

theorem round_robin_witness :
    (boot_kernel.next_pid = 1 ∧ [c_string "sh"].length ≤ 7) ∧
    ∃ kf, process_calls
        ([c_string "sh"].map ProcessCall.create ++ List.replicate 3 ProcessCall.schedule)
        (init_processes boot_kernel) = some kf ∧
      kf.current_process = some (3 % ([c_string "sh"].length + 1)) :=
  ⟨⟨rfl, by decide⟩,
    (round_robin boot_kernel [ProcessCall.schedule] [c_string "sh"] 3 rfl (by decide)).2⟩

/-- C36. Exactly one running process: in every state reached from
init_processes (at boot, next_pid = 1) by any sequence of create_process and
schedule calls, exactly one of the eight slots has state PROCESS_RUNNING and
current_process points to it. In any state, a call of schedule that returns
has changed only state fields of the process table and current_process: every
pid, every name, next_pid and all other variables are as before. -/
theorem one_running (k0 : Kernel) (calls : List ProcessCall) (hpid : k0.next_pid = 1) :
    (∃ k cur, process_calls calls (init_processes k0) = some k ∧
      cur < 8 ∧ k.current_process = some cur ∧
      (∀ i, i < 8 → ((k.process_table i).state = PROCESS_RUNNING ↔ i = cur))) ∧
    (∀ ka kb : Kernel, schedule ka = some kb →
      kb.next_pid = ka.next_pid ∧
      (∀ i, (kb.process_table i).pid = (ka.process_table i).pid ∧
        (kb.process_table i).name = (ka.process_table i).name) ∧
      kb = { ka with process_table := kb.process_table,
                     current_process := kb.current_process }) := by
  constructor
  · obtain ⟨k, m, cur, hk, hinv⟩ :=
      calls_invariant calls _ 0 0 (init_processes_invariant k0 hpid)
    obtain ⟨hc8, hcur, hrun, _⟩ := invariant_facts k m cur hinv
    exact ⟨k, cur, hk, hc8, hcur, hrun⟩
  · intro ka kb h
    obtain ⟨table, cur, e, hkeep⟩ := schedule_keeps ka kb h
    subst e
    exact ⟨rfl, hkeep, rfl⟩

theorem one_running_witness :
    boot_kernel.next_pid = 1 ∧
    ∃ k cur, process_calls [ProcessCall.create (c_string "sh"), ProcessCall.schedule]
        (init_processes boot_kernel) = some k ∧
      cur < 8 ∧ k.current_process = some cur ∧
      (∀ i, i < 8 → ((k.process_table i).state = PROCESS_RUNNING ↔ i = cur)) :=
  ⟨rfl, (one_running boot_kernel
    [ProcessCall.create (c_string "sh"), ProcessCall.schedule] rfl).1⟩

end MiniOS
